import Mathlib

/-!
# The eviction treap of the cache (`cache/treap.hpp`)

`Treap<NodeType>` links items through the two pointer fields `l` and `r` that
every item inherits from `treap_node_t`, plus one `root` pointer.  The
development below embeds the class as a pointer machine:

* an item is named by its address (a natural number); `NULL` is `none`;
* what the index only reads from an item, `id().id` and `eventtime()`, lives in
  `Items`; what it writes, the links, lives in `Treap`;
* a `PNodeType &` parameter is a `Ref`: it names `root`, or the `l` or the `r`
  field of an item;
* `rand()` is a stream of values given to every operation that may call it,
  which hands the unread rest back;
* the recursive members take a bound on the recursion depth (`fuel`) and give
  `none` when it is used up.
-/

namespace TreapModel

/-- The answers of successive `rand()` calls: `c 0` is the next one. -/
abbrev Rand := Nat → Nat

/-- The stream left once one `rand()` call has been made. -/
def Rand.next (c : Rand) : Rand := fun n => c (n + 1)

/-- The part of an item that the index reads and never writes: `id().id`
(compared by `dnet_id_cmp_str`) and `eventtime()`, by address. -/
structure Items (K : Type) where
  /-- The identifier `node->id().id`. -/
  id : Nat → K
  /-- The priority `node->eventtime()`, a `size_t`; it is only ever compared. -/
  eventtime : Nat → Nat

/-- The item store after the cache has set the event time of item `x` to `p`. -/
def Items.setEventtime {K : Type} (it : Items K) (x p : Nat) : Items K :=
  { id := it.id, eventtime := Function.update it.eventtime x p }

/-- The mutable state of a `Treap`: the `root` member and the `l` and `r`
fields (`treap_node_t`) of every item. -/
structure Treap where
  /-- The member `root`. -/
  root : Option Nat
  /-- The field `l` of the item at each address. -/
  l : Nat → Option Nat
  /-- The field `r` of the item at each address. -/
  r : Nat → Option Nat

/-- A `PNodeType &`: the place a pointer is stored in. -/
inductive Ref where
  | root : Ref
  | l (p : Nat) : Ref
  | r (p : Nat) : Ref
  deriving DecidableEq

/-- The four `std::logic_error`s the class throws. -/
inductive logic_error where
  /-- The error "insert: can't insert NULL". -/
  | insert_null
  /-- The error "erase: element does not exist". -/
  | erase_missing
  /-- The error "getKey: node is NULL". -/
  | getKey_null
  /-- The error "getPriority: node is NULL". -/
  | getPriority_null
  deriving DecidableEq

/-- The message carried by each error. -/
def logic_error.what : logic_error → String
  | .insert_null => "insert: can't insert NULL"
  | .erase_missing => "erase: element does not exist"
  | .getKey_null => "getKey: node is NULL"
  | .getPriority_null => "getPriority: node is NULL"

/-- How a member that may throw ends: normally, or by an exception; both carry
the state and the random stream as they are at that moment. -/
inductive Outcome where
  | done (s : Treap) (c : Rand) : Outcome
  | thrown (e : logic_error) (s : Treap) (c : Rand) : Outcome

/-- The pointer stored in a place. -/
def Treap.get (s : Treap) : Ref → Option Nat
  | .root => s.root
  | .l p => s.l p
  | .r p => s.r p

/-- Assignment of a pointer to a place. -/
def Treap.set (s : Treap) : Ref → Option Nat → Treap
  | .root, v => { s with root := v }
  | .l p, v => { s with l := Function.update s.l p v }
  | .r p, v => { s with r := Function.update s.r p v }

/-- The constructor `Treap(): root(NULL)`: an index over items whose links are
as `treap_node_t()` leaves them. -/
def Treap.new : Treap := { root := none, l := fun _ => none, r := fun _ => none }

/-- Modelled from the spec: `dnet_id_cmp_str`, which `keyCompare` forwards to,
is declared outside this file; it is the three-way comparison of a total order
on identifiers: negative, zero or positive as `lhs` is less than, equal to or
greater than `rhs`. -/
def keyCompare {K : Type} [LinearOrder K] (lhs rhs : K) : Int :=
  if lhs < rhs then -1 else if rhs < lhs then 1 else 0

/-- The member `priorityCompare`: `1` when `lhs` is the smaller event time. -/
def priorityCompare (lhs rhs : Nat) : Int :=
  if lhs < rhs then 1 else if lhs > rhs then -1 else 0

/-- The tie-break `rand() & 1 ? 1 : -1`. -/
def tieBreak (c : Rand) : Int := if (c 0) &&& 1 ≠ 0 then 1 else -1

/-- The lines `cmp_result = priorityCompare(..); if (cmp_result == 0) cmp_result
= rand() & 1 ? 1 : -1;` shared by `insert` and `merge`: the final `cmp_result`
and the random stream left. -/
def comparePriority (c : Rand) (lhs rhs : Nat) : Int × Rand :=
  if priorityCompare lhs rhs = 0 then (tieBreak c, c.next) else (priorityCompare lhs rhs, c)

/-- The private member `getKey(node)`: it throws on `NULL`.  The private members
below call it on pointers they have just tested, where it is `it.id`. -/
def getKey {K : Type} (it : Items K) : Option Nat → Except logic_error K
  | none => Except.error logic_error.getKey_null
  | some node => Except.ok (it.id node)

/-- The private member `getPriority(node)`: it throws on `NULL`.  The private
members below call it on pointers they have just tested, where it is
`it.eventtime`. -/
def getPriority {K : Type} (it : Items K) : Option Nat → Except logic_error Nat
  | none => Except.error logic_error.getPriority_null
  | some node => Except.ok (it.eventtime node)

/-- The member `empty()`: `!root`. -/
def Treap.empty (s : Treap) : Bool := s.root.isNone

/-- The member `top()`: `root`. -/
def Treap.top (s : Treap) : Option Nat := s.root

namespace Impl

variable {K : Type} [LinearOrder K]

/-- The private member `split(t, key, l, r)`. -/
def split (it : Items K) : Nat → Treap → Option Nat → K → Ref → Ref → Option Treap
  | 0, _, _, _, _, _ => none
  | _ + 1, s, none, _, l, r => some ((s.set l none).set r none)
  | fuel + 1, s, some t, key, l, r =>
    if keyCompare key (it.id t) < 0 then
      (split it fuel s (s.l t) key l (Ref.l t)).map fun s1 => s1.set r (some t)
    else
      (split it fuel s (s.r t) key (Ref.r t) r).map fun s1 => s1.set l (some t)

/-- The private member `insert(t, it)`; the new item `x` is not `NULL` there. -/
def insert (it : Items K) : Nat → Treap → Rand → Ref → Nat → Option (Treap × Rand)
  | 0, _, _, _, _ => none
  | fuel + 1, s, c, t, x =>
    match s.get t with
    | none => some (s.set t (some x), c)
    | some p =>
      let cmp := comparePriority c (it.eventtime x) (it.eventtime p)
      if cmp.1 > 0 then
        (split it fuel s (some p) (it.id x) (Ref.l x) (Ref.r x)).map fun s1 =>
          (s1.set t (some x), cmp.2)
      else
        insert it fuel s cmp.2 (if keyCompare (it.id x) (it.id p) < 0 then Ref.l p else Ref.r p) x

/-- The private member `merge(t, l, r)`. -/
def merge (it : Items K) : Nat → Treap → Rand → Ref → Option Nat → Option Nat →
    Option (Treap × Rand)
  | 0, _, _, _, _, _ => none
  | fuel + 1, s, c, t, some l, some r =>
    let cmp := comparePriority c (it.eventtime l) (it.eventtime r)
    if cmp.1 > 0 then
      (merge it fuel s cmp.2 (Ref.r l) (s.r l) (some r)).map fun o => (o.1.set t (some l), o.2)
    else
      (merge it fuel s cmp.2 (Ref.l r) (some l) (s.l r)).map fun o => (o.1.set t (some r), o.2)
  | _ + 1, s, c, t, l, r => some (s.set t (if l.isSome then l else r), c)

/-- The private member `erase(t, key)`. -/
def erase (it : Items K) : Nat → Treap → Rand → Ref → K → Option Outcome
  | 0, _, _, _, _ => none
  | fuel + 1, s, c, t, key =>
    match s.get t with
    | none => some (Outcome.thrown logic_error.erase_missing s c)
    | some p =>
      if keyCompare (it.id p) key = 0 then
        (merge it fuel s c t (s.l p) (s.r p)).map fun o => Outcome.done o.1 o.2
      else
        erase it fuel s c (if keyCompare (it.id p) key > 0 then Ref.l p else Ref.r p) key

/-- The private member `find(t, key, depth)`; `depth` is counted and never read. -/
def find (it : Items K) : Nat → Treap → Option Nat → K → Int → Option (Option Nat)
  | 0, _, _, _, _ => none
  | _ + 1, _, none, _, _ => some none
  | fuel + 1, s, some t, key, depth =>
    if keyCompare (it.id t) key = 0 then some (some t)
    else if keyCompare (it.id t) key > 0 then find it fuel s (s.l t) key (depth + 1)
    else find it fuel s (s.r t) key (depth + 1)

end Impl

variable {K : Type} [LinearOrder K]

/-- The public member `insert(node)`. -/
def Treap.insert (it : Items K) (fuel : Nat) (s : Treap) (c : Rand) :
    Option Nat → Option Outcome
  | none => some (Outcome.thrown logic_error.insert_null s c)
  | some node =>
    let s1 := (s.set (Ref.l node) none).set (Ref.r node) none
    if s1.empty then some (Outcome.done (s1.set Ref.root (some node)) c)
    else (Impl.insert it fuel s1 c Ref.root node).map fun o => Outcome.done o.1 o.2

/-- The public member `find(key)`. -/
def Treap.find (it : Items K) (fuel : Nat) (s : Treap) (key : K) : Option (Option Nat) :=
  if s.empty then some none else Impl.find it fuel s s.root key 0

/-- The public member `erase(key)`. -/
def Treap.erase (it : Items K) (fuel : Nat) (s : Treap) (c : Rand) (key : K) :
    Option Outcome :=
  if s.empty then some (Outcome.thrown logic_error.erase_missing s c)
  else Impl.erase it fuel s c Ref.root key

/-- The public member `erase(node)`. -/
def Treap.erase_node (it : Items K) (fuel : Nat) (s : Treap) (c : Rand) (node : Option Nat) :
    Option Outcome :=
  if s.empty then some (Outcome.thrown logic_error.erase_missing s c)
  else
    match getKey it node with
    | Except.error e => some (Outcome.thrown e s c)
    | Except.ok key => Treap.erase it fuel s c key

/-- The public member `decrease_key(node)`: `erase(node); insert(node);`. -/
def Treap.decrease_key (it : Items K) (fuel : Nat) (s : Treap) (c : Rand)
    (node : Option Nat) : Option Outcome :=
  match Treap.erase_node it fuel s c node with
  | none => none
  | some (Outcome.thrown e s1 c1) => some (Outcome.thrown e s1 c1)
  | some (Outcome.done s1 c1) => Treap.insert it fuel s1 c1 node

/-! ## The tree an index stands for -/

/-- A binary tree of item addresses: the shape of the links under a pointer. -/
inductive PTree where
  | nil : PTree
  | node (l : PTree) (p : Nat) (r : PTree) : PTree
  deriving DecidableEq

namespace PTree

/-- The items of a tree, left to right. -/
def ptrs : PTree → List Nat
  | nil => []
  | node l p r => l.ptrs ++ p :: r.ptrs

/-- The number of items of a tree. -/
def size : PTree → Nat
  | nil => 0
  | node l _ r => l.size + r.size + 1

/-- The pointer to a tree: its topmost item, `NULL` for the empty tree. -/
def rootPtr : PTree → Option Nat
  | nil => none
  | node _ p _ => some p

end PTree

/-- The links of `s` under the pointer `p` spell out the tree `T`. -/
def Rep (s : Treap) : PTree → Option Nat → Prop
  | .nil, p => p = none
  | .node L q R, p => p = some q ∧ Rep s L (s.l q) ∧ Rep s R (s.r q)

/-- Decision procedure for `Rep`. -/
instance Rep.instDecidable (s : Treap) : (T : PTree) → (p : Option Nat) → Decidable (Rep s T p)
  | .nil, p => inferInstanceAs (Decidable (p = none))
  | .node L q R, p =>
    @instDecidableAnd _ _ (inferInstanceAs (Decidable (p = some q)))
      (@instDecidableAnd _ _ (Rep.instDecidable s L (s.l q)) (Rep.instDecidable s R (s.r q)))

/-- The index `s` links exactly the items of `T`, in the shape of `T`, each of
them once: `T.ptrs` are the linked items of `s`. -/
def Shape (s : Treap) (T : PTree) : Prop := Rep s T s.root ∧ T.ptrs.Nodup

/-- Decision procedure for `Shape`. -/
instance Shape.instDecidable (s : Treap) (T : PTree) : Decidable (Shape s T) :=
  inferInstanceAs (Decidable (Rep s T s.root ∧ T.ptrs.Nodup))

/-- The search-tree property: every identifier in a left subtree is less than
the item's own, every identifier in a right subtree is greater. -/
def SearchTree (it : Items K) : PTree → Prop
  | .nil => True
  | .node L p R =>
    (∀ q ∈ L.ptrs, it.id q < it.id p) ∧ (∀ q ∈ R.ptrs, it.id p < it.id q) ∧
      SearchTree it L ∧ SearchTree it R

/-- Decision procedure for `SearchTree`. -/
instance SearchTree.instDecidable (it : Items K) : (T : PTree) → Decidable (SearchTree it T)
  | .nil => inferInstanceAs (Decidable True)
  | .node L p R =>
    @instDecidableAnd _ _ (inferInstanceAs (Decidable (∀ q ∈ L.ptrs, it.id q < it.id p)))
      (@instDecidableAnd _ _ (inferInstanceAs (Decidable (∀ q ∈ R.ptrs, it.id p < it.id q)))
        (@instDecidableAnd _ _ (SearchTree.instDecidable it L) (SearchTree.instDecidable it R)))

/-- The heap property: the priority of every item is at most the priority of
each of its children. -/
def HeapOrdered (it : Items K) : PTree → Prop
  | .nil => True
  | .node L p R =>
    (∀ q, L.rootPtr = some q → it.eventtime p ≤ it.eventtime q) ∧
      (∀ q, R.rootPtr = some q → it.eventtime p ≤ it.eventtime q) ∧
      HeapOrdered it L ∧ HeapOrdered it R

/-- Decision procedure for a statement about the target of a pointer. -/
instance decidableForallTarget (o : Option Nat) (P : Nat → Prop) [DecidablePred P] :
    Decidable (∀ q, o = some q → P q) :=
  match o with
  | none => isTrue (fun _ h => Option.noConfusion h)
  | some a => decidable_of_iff (P a) ⟨fun h _ e => Option.some.inj e ▸ h, fun h => h a rfl⟩

/-- Decision procedure for `HeapOrdered`. -/
instance HeapOrdered.instDecidable (it : Items K) : (T : PTree) → Decidable (HeapOrdered it T)
  | .nil => inferInstanceAs (Decidable True)
  | .node L p R =>
    @instDecidableAnd _ _
      (inferInstanceAs (Decidable (∀ q, L.rootPtr = some q → it.eventtime p ≤ it.eventtime q)))
      (@instDecidableAnd _ _
        (inferInstanceAs (Decidable (∀ q, R.rootPtr = some q → it.eventtime p ≤ it.eventtime q)))
        (@instDecidableAnd _ _ (HeapOrdered.instDecidable it L)
          (HeapOrdered.instDecidable it R)))

/-- The heap property in its transitive form: the priority of every item is at
most the priority of everything below it. -/
def HeapBelow (it : Items K) : PTree → Prop
  | .nil => True
  | .node L p R =>
    (∀ q ∈ L.ptrs, it.eventtime p ≤ it.eventtime q) ∧
      (∀ q ∈ R.ptrs, it.eventtime p ≤ it.eventtime q) ∧
      HeapBelow it L ∧ HeapBelow it R

/-- Decision procedure for `HeapBelow`. -/
instance HeapBelow.instDecidable (it : Items K) : (T : PTree) → Decidable (HeapBelow it T)
  | .nil => inferInstanceAs (Decidable True)
  | .node L p R =>
    @instDecidableAnd _ _
      (inferInstanceAs (Decidable (∀ q ∈ L.ptrs, it.eventtime p ≤ it.eventtime q)))
      (@instDecidableAnd _ _
        (inferInstanceAs (Decidable (∀ q ∈ R.ptrs, it.eventtime p ≤ it.eventtime q)))
        (@instDecidableAnd _ _ (HeapBelow.instDecidable it L) (HeapBelow.instDecidable it R)))

/-- A place lies outside a set of items when it is a field of none of them. -/
def Outside (ref : Ref) (ps : List Nat) : Prop := ∀ q ∈ ps, ref ≠ Ref.l q ∧ ref ≠ Ref.r q

/-! ## The members as functions on trees -/

namespace PTree

/-- What `split` does to the tree under `t`: the trees left in `l` and `r`. -/
def split (it : Items K) (key : K) : PTree → PTree × PTree
  | nil => (nil, nil)
  | node L q R =>
    if keyCompare key (it.id q) < 0 then ((split it key L).1, node (split it key L).2 q R)
    else (node L q (split it key R).1, (split it key R).2)

/-- What the private `insert` does to the tree under `t`. -/
def insert (it : Items K) (x : Nat) : PTree → Rand → PTree × Rand
  | nil, c => (node nil x nil, c)
  | node L p R, c =>
    if (comparePriority c (it.eventtime x) (it.eventtime p)).1 > 0 then
      (node (split it (it.id x) (node L p R)).1 x (split it (it.id x) (node L p R)).2,
        (comparePriority c (it.eventtime x) (it.eventtime p)).2)
    else if keyCompare (it.id x) (it.id p) < 0 then
      (node (insert it x L (comparePriority c (it.eventtime x) (it.eventtime p)).2).1 p R,
        (insert it x L (comparePriority c (it.eventtime x) (it.eventtime p)).2).2)
    else
      (node L p (insert it x R (comparePriority c (it.eventtime x) (it.eventtime p)).2).1,
        (insert it x R (comparePriority c (it.eventtime x) (it.eventtime p)).2).2)

/-- What `merge` makes of the trees under `l` and `r`. -/
def merge (it : Items K) : PTree → PTree → Rand → PTree × Rand
  | nil, B, c => (B, c)
  | node L1 p R1, nil, c => (node L1 p R1, c)
  | node L1 p R1, node L2 q R2, c =>
    if (comparePriority c (it.eventtime p) (it.eventtime q)).1 > 0 then
      (node L1 p (merge it R1 (node L2 q R2)
          (comparePriority c (it.eventtime p) (it.eventtime q)).2).1,
        (merge it R1 (node L2 q R2) (comparePriority c (it.eventtime p) (it.eventtime q)).2).2)
    else
      (node (merge it (node L1 p R1) L2
          (comparePriority c (it.eventtime p) (it.eventtime q)).2).1 q R2,
        (merge it (node L1 p R1) L2 (comparePriority c (it.eventtime p) (it.eventtime q)).2).2)

/-- What the private `erase` does to the tree under `t`; `none` when it throws. -/
def erase (it : Items K) (key : K) : PTree → Rand → Option (PTree × Rand)
  | nil, _ => none
  | node L p R, c =>
    if keyCompare (it.id p) key = 0 then some (merge it L R c)
    else if keyCompare (it.id p) key > 0 then
      (erase it key L c).map fun o => (node o.1 p R, o.2)
    else (erase it key R c).map fun o => (node L p o.1, o.2)

/-- What the private `find` returns on the tree under `t`. -/
def find (it : Items K) (key : K) : PTree → Option Nat
  | nil => none
  | node L p R =>
    if keyCompare (it.id p) key = 0 then some p
    else if keyCompare (it.id p) key > 0 then find it key L
    else find it key R

end PTree

/-! ## The states an index goes through -/

/-- The item `q` is linked in the index `s`. -/
def Linked (s : Treap) (q : Nat) : Prop := ∃ T, Shape s T ∧ q ∈ T.ptrs

/-- The pairs of an item store and an index that the cache can reach: it starts
from an empty index and calls `insert` on items whose identifier is not linked,
`erase` on identifiers or items that are linked, and `decrease_key` on a linked
item whose event time it has just set; items that are not linked it may change
at will. -/
inductive Reachable : Items K → Treap → Prop
  | new (it : Items K) (l r : Nat → Option Nat) : Reachable it { root := none, l := l, r := r }
  | insert {it : Items K} {s : Treap} (fuel : Nat) (c : Rand) (x : Nat) (s' : Treap) (c' : Rand) :
      Reachable it s → (∀ q, Linked s q → it.id q ≠ it.id x) →
      Treap.insert it fuel s c (some x) = some (Outcome.done s' c') → Reachable it s'
  | erase {it : Items K} {s : Treap} (fuel : Nat) (c : Rand) (key : K) (s' : Treap) (c' : Rand) :
      Reachable it s → (∃ q, Linked s q ∧ it.id q = key) →
      Treap.erase it fuel s c key = some (Outcome.done s' c') → Reachable it s'
  | erase_node {it : Items K} {s : Treap} (fuel : Nat) (c : Rand) (x : Nat) (s' : Treap)
      (c' : Rand) : Reachable it s → Linked s x →
      Treap.erase_node it fuel s c (some x) = some (Outcome.done s' c') → Reachable it s'
  | decrease_key {it : Items K} {s : Treap} (fuel : Nat) (c : Rand) (x p : Nat) (s' : Treap)
      (c' : Rand) : Reachable it s → Linked s x →
      Treap.decrease_key (it.setEventtime x p) fuel s c (some x) = some (Outcome.done s' c') →
      Reachable (it.setEventtime x p) s'
  | outside {it it' : Items K} {s : Treap} : Reachable it s →
      (∀ q, Linked s q → it'.id q = it.id q ∧ it'.eventtime q = it.eventtime q) →
      Reachable it' s

/-! ## A small index, used to instantiate the theorems -/

/-- Three items `A`, `B`, `C` at the addresses `1`, `2`, `3`, with the
identifiers `1`, `2`, `3` and the event times `5`, `3`, `8`; every other
address holds an item whose identifier is its address and whose event time
is `7`. -/
def exItems : Items Nat :=
  { id := fun p => p
    eventtime := fun p => if p = 1 then 5 else if p = 2 then 3 else if p = 3 then 8 else 7 }

/-- The index that links `B` at the root, `A` to its left and `C` to its right. -/
def exTreap : Treap :=
  { root := some 2
    l := fun p => if p = 2 then some 1 else none
    r := fun p => if p = 2 then some 3 else none }

/-- The tree `exTreap` links. -/
def exTree : PTree := PTree.node (PTree.node PTree.nil 1 PTree.nil) 2 (PTree.node PTree.nil 3 PTree.nil)

/-- A random stream. -/
def exRand : Rand := fun n => n

/-- The index an operation leaves, `Treap.new` when the fuel did not suffice. -/
def stateAfter : Option Outcome → Treap
  | some (Outcome.done s _) => s
  | some (Outcome.thrown _ s _) => s
  | none => Treap.new

/-- The index after `insert(A)` on a new index. -/
def exReached1 : Treap := stateAfter (Treap.insert exItems 3 Treap.new exRand (some 1))

/-- The index after `insert(A); insert(B)` on a new index. -/
def exReached2 : Treap := stateAfter (Treap.insert exItems 3 exReached1 exRand (some 2))

/-- The items of the scenario: `A`, `B` and `C` stand at the addresses `10`,
`20` and `30`, with the identifiers `1`, `2`, `3` and the event times `5`, `3`,
`8`. -/
def scItems : Items Nat :=
  { id := fun p => p / 10
    eventtime := fun p => if p = 10 then 5 else if p = 20 then 3 else if p = 30 then 8 else 0 }

/-- The two calls `erase(node); insert(node);` as a caller of the index would
write them by hand: the second call is made only when the first one returns,
on the state and with the random stream the first one leaves. -/
def erase_then_insert (it : Items K) (fuel : Nat) (s : Treap) (c : Rand) (node : Option Nat) :
    Option Outcome :=
  (Treap.erase_node it fuel s c node).bind fun o =>
    match o with
    | Outcome.done s1 c1 => Treap.insert it fuel s1 c1 node
    | Outcome.thrown e s1 c1 => some (Outcome.thrown e s1 c1)

/-- The index that links the single item `A`. -/
def exOne : Treap := { root := some 1, l := fun _ => none, r := fun _ => none }

/-- The outcome with another random stream left. -/
def Outcome.withRand : Outcome → Rand → Outcome
  | Outcome.done s _, c => Outcome.done s c
  | Outcome.thrown e s _, c => Outcome.thrown e s c

/-- The calls `insert(x)` for the items of a list, in the order of the list, each
on the index and the random stream the call before it leaves; a call that
throws ends the run. -/
def insertAll (it : Items K) (fuel : Nat) : List Nat → Treap → Rand → Option Outcome
  | [], s, c => some (Outcome.done s c)
  | x :: xs, s, c =>
    match Treap.insert it fuel s c (some x) with
    | some (Outcome.done s1 c1) => insertAll it fuel xs s1 c1
    | other => other

/-! ## Places, comparisons and frames -/

theorem Treap.get_set_same (s : Treap) (ref : Ref) (v : Option Nat) :
    (s.set ref v).get ref = v := by
  cases ref <;> simp [Treap.get, Treap.set]

theorem Treap.get_set_ne (s : Treap) {ref ref' : Ref} (v : Option Nat) (h : ref' ≠ ref) :
    (s.set ref v).get ref' = s.get ref' := by
  cases ref <;> cases ref' <;> simp_all [Treap.get, Treap.set, Function.update]

theorem Treap.get_l (s : Treap) (p : Nat) : s.get (Ref.l p) = s.l p := rfl

theorem Treap.get_r (s : Treap) (p : Nat) : s.get (Ref.r p) = s.r p := rfl

theorem Treap.get_root (s : Treap) : s.get Ref.root = s.root := rfl

theorem keyCompare_neg_iff (a b : K) : keyCompare a b < 0 ↔ a < b := by
  unfold keyCompare
  split_ifs <;> simp_all

theorem keyCompare_pos_iff (a b : K) : keyCompare a b > 0 ↔ b < a := by
  unfold keyCompare
  split_ifs with h1 h2 <;> simp_all
  exact le_of_lt h1

theorem keyCompare_zero_iff (a b : K) : keyCompare a b = 0 ↔ a = b := by
  unfold keyCompare
  split_ifs with h1 h2
  · simp; exact ne_of_lt h1
  · simp; exact (ne_of_lt h2).symm
  · simp; exact le_antisymm (not_lt.mp h2) (not_lt.mp h1)

theorem tieBreak_ne_zero (c : Rand) : tieBreak c ≠ 0 := by
  unfold tieBreak
  split_ifs <;> simp

theorem comparePriority_pos_le {c : Rand} {a b : Nat} (h : (comparePriority c a b).1 > 0) :
    a ≤ b := by
  unfold comparePriority priorityCompare at h
  split_ifs at h
  all_goals first | omega | simp_all

theorem comparePriority_not_pos_le {c : Rand} {a b : Nat}
    (h : ¬ (comparePriority c a b).1 > 0) : b ≤ a := by
  unfold comparePriority priorityCompare at h
  split_ifs at h
  all_goals omega

theorem comparePriority_of_lt (c : Rand) {a b : Nat} (h : a < b) :
    comparePriority c a b = (1, c) := by
  unfold comparePriority priorityCompare
  simp [h]

theorem comparePriority_of_gt (c : Rand) {a b : Nat} (h : b < a) :
    comparePriority c a b = (-1, c) := by
  unfold comparePriority priorityCompare
  have h1 : ¬ a < b := by omega
  simp [h, h1]

theorem Outside.mono {ref : Ref} {ps qs : List Nat} (h : Outside ref ps)
    (hsub : ∀ q ∈ qs, q ∈ ps) : Outside ref qs :=
  fun q hq => h q (hsub q hq)

theorem Outside.root (ps : List Nat) : Outside Ref.root ps := by
  intro q _
  simp

theorem Outside.l_iff (p : Nat) (ps : List Nat) : Outside (Ref.l p) ps ↔ p ∉ ps := by
  constructor
  · intro h hp
    exact (h p hp).1 rfl
  · intro h q hq
    constructor
    · intro e
      cases e
      exact h hq
    · simp

theorem Outside.r_iff (p : Nat) (ps : List Nat) : Outside (Ref.r p) ps ↔ p ∉ ps := by
  constructor
  · intro h hp
    exact (h p hp).2 rfl
  · intro h q hq
    constructor
    · simp
    · intro e
      cases e
      exact h hq

/-- A tree is read off the fields of its own items only. -/
theorem Rep.frame {s s' : Treap} {T : PTree} : ∀ {p : Option Nat}, Rep s T p →
    (∀ q ∈ T.ptrs, s'.l q = s.l q ∧ s'.r q = s.r q) → Rep s' T p := by
  induction T with
  | nil => intro p h _; exact h
  | node L q R ihL ihR =>
    intro p h hfr
    obtain ⟨hp, hL, hR⟩ := h
    have hq := hfr q (by simp [PTree.ptrs])
    refine ⟨hp, ?_, ?_⟩
    · rw [hq.1]
      exact ihL hL fun x hx => hfr x (by simp [PTree.ptrs, hx])
    · rw [hq.2]
      exact ihR hR fun x hx => hfr x (by simp [PTree.ptrs, hx])

/-- A tree survives every change that leaves the fields of its items alone. -/
theorem Rep.frame_get {s s' : Treap} {T : PTree} {p : Option Nat} (h : Rep s T p)
    (hfr : ∀ ref, ¬ Outside ref T.ptrs → s'.get ref = s.get ref) : Rep s' T p := by
  refine h.frame fun q hq => ⟨hfr (Ref.l q) ?_, hfr (Ref.r q) ?_⟩
  · rw [Outside.l_iff]; exact fun h => h hq
  · rw [Outside.r_iff]; exact fun h => h hq

theorem Rep.rootPtr {s : Treap} {T : PTree} {p : Option Nat} (h : Rep s T p) :
    p = T.rootPtr := by
  cases T with
  | nil => exact h
  | node L q R => exact h.1

/-- The links under a pointer spell out at most one tree. -/
theorem Rep.tree_unique {s : Treap} {T : PTree} : ∀ {T' : PTree} {p : Option Nat},
    Rep s T p → Rep s T' p → T = T' := by
  induction T with
  | nil =>
    intro T' p h h'
    cases T' with
    | nil => rfl
    | node L q R => rw [h] at h'; exact absurd h'.1 (by simp)
  | node L q R ihL ihR =>
    intro T' p h h'
    cases T' with
    | nil => rw [h'] at h; exact absurd h.1 (by simp)
    | node L' q' R' =>
      obtain ⟨hp, hL, hR⟩ := h
      obtain ⟨hp', hL', hR'⟩ := h'
      have e : q = q' := by rw [hp] at hp'; exact Option.some.inj hp'
      subst e
      rw [ihL hL hL', ihR hR hR']

/-! ## `split` -/

theorem PTree.split_ptrs (it : Items K) (key : K) (T : PTree) :
    (T.split it key).1.ptrs ++ (T.split it key).2.ptrs = T.ptrs := by
  induction T with
  | nil => rfl
  | node L q R ihL ihR =>
    unfold PTree.split
    split_ifs
    · simp only [PTree.ptrs]
      rw [← List.append_assoc, ihL]
    · simp only [PTree.ptrs]
      rw [List.append_assoc, List.cons_append, ihR]

theorem PTree.mem_split_fst {it : Items K} {key : K} {T : PTree} {x : Nat}
    (h : x ∈ (T.split it key).1.ptrs) : x ∈ T.ptrs := by
  rw [← PTree.split_ptrs it key T]
  exact List.mem_append_left _ h

theorem PTree.mem_split_snd {it : Items K} {key : K} {T : PTree} {x : Nat}
    (h : x ∈ (T.split it key).2.ptrs) : x ∈ T.ptrs := by
  rw [← PTree.split_ptrs it key T]
  exact List.mem_append_right _ h

/-- The member `split` run on the tree `T` leaves the two halves of `T` in the
places `lref` and `rref` and writes nothing but these two places and the fields
of the items of `T`. -/
theorem Impl.split_refines (it : Items K) (key : K) (T : PTree) :
    ∀ (fuel : Nat) (s : Treap) (t : Option Nat) (lref rref : Ref), Rep s T t → T.ptrs.Nodup →
      T.size < fuel → lref ≠ rref → Outside lref T.ptrs → Outside rref T.ptrs →
      ∃ s', Impl.split it fuel s t key lref rref = some s' ∧
        Rep s' (T.split it key).1 (s'.get lref) ∧ Rep s' (T.split it key).2 (s'.get rref) ∧
        ∀ ref, ref ≠ lref → ref ≠ rref → Outside ref T.ptrs → s'.get ref = s.get ref := by
  induction T with
  | nil =>
    intro fuel s t lref rref hrep _ hfuel hne _ _
    cases fuel with
    | zero => simp at hfuel
    | succ fuel =>
      have ht : t = none := hrep
      subst ht
      refine ⟨(s.set lref none).set rref none, rfl, ?_, ?_, ?_⟩
      · show _ = none
        rw [Treap.get_set_ne _ _ hne, Treap.get_set_same]
      · show _ = none
        rw [Treap.get_set_same]
      · intro ref h1 h2 _
        rw [Treap.get_set_ne _ _ h2, Treap.get_set_ne _ _ h1]
  | node L q R ihL ihR =>
    intro fuel s t lref rref hrep hnd hfuel hne hol hor
    cases fuel with
    | zero => simp at hfuel
    | succ fuel =>
      obtain ⟨ht, hL, hR⟩ := hrep
      subst ht
      simp only [PTree.ptrs] at hnd hol hor
      have hndL : L.ptrs.Nodup := (List.nodup_append.mp hnd).1
      have hndqR : (q :: R.ptrs).Nodup := (List.nodup_append.mp hnd).2.1
      have hdisj := (List.nodup_append.mp hnd).2.2
      have hqL : q ∉ L.ptrs := fun h => hdisj h (List.mem_cons_self _ _)
      have hqR : q ∉ R.ptrs := (List.nodup_cons.mp hndqR).1
      have hndR : R.ptrs.Nodup := (List.nodup_cons.mp hndqR).2
      have hLR : ∀ x ∈ L.ptrs, x ∉ R.ptrs := fun x hx hx' =>
        hdisj hx (List.mem_cons_of_mem _ hx')
      have hlq := hol q (by simp)
      have hrq := hor q (by simp)
      simp only [PTree.size] at hfuel
      unfold Impl.split PTree.split
      by_cases hk : keyCompare key (it.id q) < 0
      · simp only [hk, if_true]
        obtain ⟨s1, hs1, hA, hB, hfr⟩ := ihL fuel s (s.l q) lref (Ref.l q) hL hndL (by omega)
          hlq.1 (hol.mono (by simp +contextual)) ((Outside.l_iff _ _).mpr hqL)
        refine ⟨s1.set rref (some q), by rw [hs1]; rfl, ?_, ⟨?_, ?_, ?_⟩, ?_⟩
        · rw [Treap.get_set_ne _ _ hne]
          refine hA.frame_get fun ref href => Treap.get_set_ne _ _ ?_
          rintro rfl
          exact href (hor.mono fun x hx => by simp [PTree.mem_split_fst hx])
        · rw [Treap.get_set_same]
        · rw [← Treap.get_l, Treap.get_set_ne _ _ hrq.1.symm]
          refine hB.frame_get fun ref href => Treap.get_set_ne _ _ ?_
          rintro rfl
          exact href (hor.mono fun x hx => by simp [PTree.mem_split_snd hx])
        · rw [← Treap.get_r, Treap.get_set_ne _ _ hrq.2.symm,
            hfr _ hlq.2.symm (by simp) ((Outside.r_iff _ _).mpr hqL)]
          refine hR.frame_get fun ref href => ?_
          have h1 : ref ≠ rref := by
            rintro rfl
            exact href (hor.mono (by simp +contextual))
          have h2 : ref ≠ lref := by
            rintro rfl
            exact href (hol.mono (by simp +contextual))
          have h3 : ref ≠ Ref.l q := by
            rintro rfl
            exact href ((Outside.l_iff _ _).mpr hqR)
          have h4 : Outside ref L.ptrs := by
            intro x hx
            constructor
            · rintro rfl
              exact href ((Outside.l_iff _ _).mpr (hLR x hx))
            · rintro rfl
              exact href ((Outside.r_iff _ _).mpr (hLR x hx))
          rw [Treap.get_set_ne _ _ h1, hfr ref h2 h3 h4]
        · intro ref h1 h2 h3
          rw [Treap.get_set_ne _ _ h2]
          exact hfr ref h1 (h3 q (by simp [PTree.ptrs])).1
            (h3.mono (by simp +contextual [PTree.ptrs]))
      · simp only [hk, if_false]
        obtain ⟨s1, hs1, hA, hB, hfr⟩ := ihR fuel s (s.r q) (Ref.r q) rref hR hndR (by omega)
          hrq.2.symm ((Outside.r_iff _ _).mpr hqR) (hor.mono (by simp +contextual))
        refine ⟨s1.set lref (some q), by rw [hs1]; rfl, ⟨?_, ?_, ?_⟩, ?_, ?_⟩
        · rw [Treap.get_set_same]
        · rw [← Treap.get_l, Treap.get_set_ne _ _ hlq.1.symm,
            hfr _ (by simp) hrq.1.symm ((Outside.l_iff _ _).mpr hqR)]
          refine hL.frame_get fun ref href => ?_
          have h1 : ref ≠ rref := by
            rintro rfl
            exact href (hor.mono (by simp +contextual))
          have h2 : ref ≠ lref := by
            rintro rfl
            exact href (hol.mono (by simp +contextual))
          have h3 : ref ≠ Ref.r q := by
            rintro rfl
            exact href ((Outside.r_iff _ _).mpr hqL)
          have h4 : Outside ref R.ptrs := by
            intro x hx
            constructor
            · rintro rfl
              exact href ((Outside.l_iff _ _).mpr fun hx' => hLR x hx' hx)
            · rintro rfl
              exact href ((Outside.r_iff _ _).mpr fun hx' => hLR x hx' hx)
          rw [Treap.get_set_ne _ _ h2, hfr ref h3 h1 h4]
        · rw [← Treap.get_r, Treap.get_set_ne _ _ hlq.2.symm]
          refine hA.frame_get fun ref href => Treap.get_set_ne _ _ ?_
          rintro rfl
          exact href (hol.mono fun x hx => by simp [PTree.mem_split_fst hx])
        · rw [Treap.get_set_ne _ _ hne.symm]
          refine hB.frame_get fun ref href => Treap.get_set_ne _ _ ?_
          rintro rfl
          exact href (hol.mono fun x hx => by simp [PTree.mem_split_snd hx])
        · intro ref h1 h2 h3
          rw [Treap.get_set_ne _ _ h1]
          exact hfr ref (h3 q (by simp [PTree.ptrs])).2 h2
            (h3.mono (by simp +contextual [PTree.ptrs]))

/-! ## `merge` -/

omit [LinearOrder K] in
theorem PTree.merge_nil_right (it : Items K) (A : PTree) (c : Rand) :
    A.merge it PTree.nil c = (A, c) := by
  cases A <;> simp [PTree.merge]

omit [LinearOrder K] in
theorem PTree.merge_ptrs (it : Items K) : ∀ (A B : PTree) (c : Rand),
    (A.merge it B c).1.ptrs = A.ptrs ++ B.ptrs := by
  intro A
  induction A with
  | nil => intro B c; simp [PTree.merge, PTree.ptrs]
  | node L1 p R1 _ ihR1 =>
    intro B
    induction B with
    | nil => intro c; simp [PTree.merge, PTree.ptrs]
    | node L2 q R2 ihL2 _ =>
      intro c
      rw [PTree.merge]
      split_ifs
      · simp only [PTree.ptrs, ihR1, List.append_assoc, List.cons_append]
      · simp only [PTree.ptrs, ihL2, List.append_assoc, List.cons_append]

omit [LinearOrder K] in
/-- The member `merge` run on the trees `A` and `B` leaves their merge in the
place `tref` and writes nothing but that place and the fields of the items of
`A` and `B`. -/
theorem Impl.merge_refines (it : Items K) : ∀ (A B : PTree) (fuel : Nat) (s : Treap) (c : Rand)
    (tref : Ref) (l r : Option Nat), Rep s A l → Rep s B r → (A.ptrs ++ B.ptrs).Nodup →
      A.size + B.size < fuel → Outside tref (A.ptrs ++ B.ptrs) →
      ∃ s', Impl.merge it fuel s c tref l r = some (s', (A.merge it B c).2) ∧
        Rep s' (A.merge it B c).1 (s'.get tref) ∧
        ∀ ref, ref ≠ tref → Outside ref (A.ptrs ++ B.ptrs) → s'.get ref = s.get ref := by
  intro A
  induction A with
  | nil =>
    intro B fuel s c tref l r hA hB _ hfuel hout
    cases fuel with
    | zero => simp at hfuel
    | succ fuel =>
      have hl : l = none := hA
      subst hl
      refine ⟨s.set tref r, ?_, ?_, ?_⟩
      · cases r <;> simp [Impl.merge, PTree.merge]
      · simp only [PTree.merge]
        rw [Treap.get_set_same]
        refine hB.frame_get fun ref href => Treap.get_set_ne _ _ ?_
        rintro rfl
        exact href (hout.mono (by simp +contextual))
      · intro ref h1 _
        exact Treap.get_set_ne _ _ h1
  | node L1 p R1 _ ihR1 =>
    intro B
    induction B with
    | nil =>
      intro fuel s c tref l r hA hB _ hfuel hout
      cases fuel with
      | zero => simp at hfuel
      | succ fuel =>
        have hr : r = none := hB
        have hl : l = some p := hA.1
        subst hr hl
        refine ⟨s.set tref (some p), ?_, ?_, ?_⟩
        · simp [Impl.merge, PTree.merge]
        · simp only [PTree.merge]
          rw [Treap.get_set_same]
          refine hA.frame_get fun ref href => Treap.get_set_ne _ _ ?_
          rintro rfl
          exact href (hout.mono (by simp +contextual))
        · intro ref h1 _
          exact Treap.get_set_ne _ _ h1
    | node L2 q R2 ihL2 _ =>
      intro fuel s c tref l r hA hB hnd hfuel hout
      cases fuel with
      | zero => simp at hfuel
      | succ fuel =>
        have hl : l = some p := hA.1
        have hr : r = some q := hB.1
        subst hl hr
        obtain ⟨_, hL1, hR1⟩ := hA
        obtain ⟨_, hL2, hR2⟩ := hB
        simp only [PTree.size] at hfuel
        simp only [PTree.ptrs, List.append_assoc, List.cons_append] at hnd hout
        have hperm : (L1.ptrs ++ p :: (R1.ptrs ++ (L2.ptrs ++ q :: R2.ptrs))).Perm
            (p :: q :: (L1.ptrs ++ R1.ptrs ++ L2.ptrs ++ R2.ptrs)) := by
          simp only [List.perm_iff_count, List.count_append, List.count_cons]
          intro a
          omega
        have hnd' := hperm.nodup_iff.mp hnd
        simp only [List.nodup_cons, List.mem_cons, List.mem_append, List.nodup_append,
          List.disjoint_left, not_or] at hnd'
        obtain ⟨⟨hpq, ⟨⟨hpL1, hpR1⟩, hpL2⟩, hpR2⟩, ⟨⟨⟨hqL1, hqR1⟩, hqL2⟩, hqR2⟩,
          ⟨⟨⟨hndL1, hndR1, hd1⟩, hndL2, hd2⟩, hndR2, hd3⟩⟩ := hnd'
        have htp := hout p (by simp)
        have htq := hout q (by simp)
        rw [Impl.merge, PTree.merge]
        by_cases hc : (comparePriority c (it.eventtime p) (it.eventtime q)).1 > 0
        · simp only [hc, if_true]
          have hA' : Rep s (PTree.node L2 q R2) (some q) := ⟨rfl, hL2, hR2⟩
          obtain ⟨s1, hs1, hM, hfr⟩ := ihR1 (PTree.node L2 q R2) fuel s
            (comparePriority c (it.eventtime p) (it.eventtime q)).2 (Ref.r p) (s.r p) (some q)
            hR1 hA' (hnd.sublist (by
              simp only [PTree.ptrs]
              exact (List.sublist_cons_self _ _).trans (List.sublist_append_right _ _)))
            (by simp only [PTree.size]; omega)
            ((Outside.r_iff _ _).mpr (by simp [PTree.ptrs, hpR1, hpL2, hpR2, hpq]))
          refine ⟨s1.set tref (some p), by rw [hs1]; rfl, ⟨?_, ?_, ?_⟩, ?_⟩
          · rw [Treap.get_set_same]
          · rw [← Treap.get_l, Treap.get_set_ne _ _ htp.1.symm, hfr _ (by simp)
              ((Outside.l_iff _ _).mpr (by simp [PTree.ptrs, hpR1, hpL2, hpR2, hpq]))]
            refine hL1.frame_get fun ref href => ?_
            have h1 : ref ≠ tref := by
              rintro rfl
              exact href (hout.mono (by simp +contextual))
            have h2 : ref ≠ Ref.r p := by
              rintro rfl
              exact href ((Outside.r_iff _ _).mpr hpL1)
            have h3 : Outside ref (R1.ptrs ++ (PTree.node L2 q R2).ptrs) := by
              intro x hx
              have hx' : x ∉ L1.ptrs := by
                simp only [PTree.ptrs, List.mem_append, List.mem_cons] at hx
                rcases hx with hx | hx | rfl | hx
                · exact fun h => hd1 h hx
                · exact fun h => hd2 (Or.inl h) hx
                · exact hqL1
                · exact fun h => hd3 (Or.inl (Or.inl h)) hx
              constructor
              · rintro rfl
                exact href ((Outside.l_iff _ _).mpr hx')
              · rintro rfl
                exact href ((Outside.r_iff _ _).mpr hx')
            rw [Treap.get_set_ne _ _ h1, hfr ref h2 h3]
          · rw [← Treap.get_r, Treap.get_set_ne _ _ htp.2.symm]
            refine hM.frame_get fun ref href => Treap.get_set_ne _ _ ?_
            rintro rfl
            refine href (hout.mono fun x hx => ?_)
            rw [PTree.merge_ptrs] at hx
            simp only [PTree.ptrs, List.mem_append, List.mem_cons] at hx ⊢
            tauto
          · intro ref h1 h2
            rw [Treap.get_set_ne _ _ h1]
            exact hfr ref (h2 p (by simp [PTree.ptrs])).2
              (h2.mono (by simp +contextual [PTree.ptrs]))
        · simp only [hc, if_false]
          have hA' : Rep s (PTree.node L1 p R1) (some p) := ⟨rfl, hL1, hR1⟩
          obtain ⟨s1, hs1, hM, hfr⟩ := ihL2 fuel s
            (comparePriority c (it.eventtime p) (it.eventtime q)).2 (Ref.l q) (some p) (s.l q)
            hA' hL2 (hnd.sublist (by
              simp only [PTree.ptrs, List.append_assoc, List.cons_append]
              refine List.Sublist.append_left ?_ _
              refine List.Sublist.cons₂ _ ?_
              refine List.Sublist.append_left ?_ _
              exact List.sublist_append_left _ _))
            (by simp only [PTree.size]; omega)
            ((Outside.l_iff _ _).mpr (by
              simp [PTree.ptrs, hqL1, hqR1, hqL2]
              exact fun h => hpq h.symm))
          refine ⟨s1.set tref (some q), by rw [hs1]; rfl, ⟨?_, ?_, ?_⟩, ?_⟩
          · rw [Treap.get_set_same]
          · rw [← Treap.get_l, Treap.get_set_ne _ _ htq.1.symm]
            refine hM.frame_get fun ref href => Treap.get_set_ne _ _ ?_
            rintro rfl
            refine href (hout.mono fun x hx => ?_)
            rw [PTree.merge_ptrs] at hx
            simp only [PTree.ptrs, List.mem_append, List.mem_cons] at hx ⊢
            tauto
          · rw [← Treap.get_r, Treap.get_set_ne _ _ htq.2.symm, hfr _ (by simp)
              ((Outside.r_iff _ _).mpr (by
                simp [PTree.ptrs, hqL1, hqR1, hqL2]
                exact fun h => hpq h.symm))]
            refine hR2.frame_get fun ref href => ?_
            have h1 : ref ≠ tref := by
              rintro rfl
              exact href (hout.mono (by simp +contextual))
            have h2 : ref ≠ Ref.l q := by
              rintro rfl
              exact href ((Outside.l_iff _ _).mpr hqR2)
            have h3 : Outside ref ((PTree.node L1 p R1).ptrs ++ L2.ptrs) := by
              intro x hx
              have hx' : x ∉ R2.ptrs := by
                simp only [PTree.ptrs, List.mem_append, List.mem_cons] at hx
                rcases hx with (hx | rfl | hx) | hx
                · exact fun h => hd3 (Or.inl (Or.inl hx)) h
                · exact hpR2
                · exact fun h => hd3 (Or.inl (Or.inr hx)) h
                · exact fun h => hd3 (Or.inr hx) h
              constructor
              · rintro rfl
                exact href ((Outside.l_iff _ _).mpr hx')
              · rintro rfl
                exact href ((Outside.r_iff _ _).mpr hx')
            rw [Treap.get_set_ne _ _ h1, hfr ref h2 h3]
          · intro ref h1 h2
            rw [Treap.get_set_ne _ _ h1]
            exact hfr ref (h2 q (by simp [PTree.ptrs])).1 (h2.mono (by
              simp only [PTree.ptrs, List.mem_append, List.mem_cons]
              tauto))

/-! ## The private `insert` -/

theorem PTree.insert_perm (it : Items K) (x : Nat) : ∀ (T : PTree) (c : Rand),
    (T.insert it x c).1.ptrs.Perm (x :: T.ptrs) := by
  intro T
  induction T with
  | nil => intro c; simp [PTree.insert, PTree.ptrs]
  | node L p R ihL ihR =>
    intro c
    rw [PTree.insert]
    split_ifs
    · show (_ ++ x :: _).Perm (x :: (PTree.node L p R).ptrs)
      rw [← PTree.split_ptrs it (it.id x) (PTree.node L p R)]
      exact List.perm_middle
    · simp only [PTree.ptrs]
      exact ((ihL _).append_right _).trans (by simp)
    · simp only [PTree.ptrs]
      refine ((List.Perm.append_left L.ptrs ((ihR _).cons p)).trans ?_)
      refine (List.Perm.append_left L.ptrs (List.Perm.swap x p R.ptrs)).trans ?_
      exact List.perm_middle

theorem PTree.mem_insert {it : Items K} {x : Nat} {T : PTree} {c : Rand} {q : Nat} :
    q ∈ (T.insert it x c).1.ptrs ↔ q = x ∨ q ∈ T.ptrs := by
  rw [(PTree.insert_perm it x T c).mem_iff, List.mem_cons]

/-- The private `insert` run on the place `tref` holding the tree `T` leaves
the tree with `x` inserted there and writes nothing but that place, the fields
of `x` and the fields of the items of `T`. -/
theorem Impl.private_insert_refines (it : Items K) (x : Nat) : ∀ (T : PTree) (fuel : Nat) (s : Treap)
    (c : Rand) (tref : Ref), Rep s T (s.get tref) → T.ptrs.Nodup → x ∉ T.ptrs →
      s.l x = none → s.r x = none → T.size + 1 < fuel → Outside tref (x :: T.ptrs) →
      ∃ s', Impl.insert it fuel s c tref x = some (s', (T.insert it x c).2) ∧
        Rep s' (T.insert it x c).1 (s'.get tref) ∧
        ∀ ref, ref ≠ tref → Outside ref (x :: T.ptrs) → s'.get ref = s.get ref := by
  intro T
  induction T with
  | nil =>
    intro fuel s c tref hrep _ _ hlx hrx hfuel hout
    cases fuel with
    | zero => simp at hfuel
    | succ fuel =>
      have ht : s.get tref = none := hrep
      have htx := hout x (by simp)
      refine ⟨s.set tref (some x), ?_, ⟨?_, ?_, ?_⟩, ?_⟩
      · simp [Impl.insert, ht, PTree.insert]
      · rw [Treap.get_set_same]
      · show _ = none
        rw [← Treap.get_l, Treap.get_set_ne _ _ htx.1.symm]
        exact hlx
      · show _ = none
        rw [← Treap.get_r, Treap.get_set_ne _ _ htx.2.symm]
        exact hrx
      · intro ref h1 _
        exact Treap.get_set_ne _ _ h1
  | node L p R ihL ihR =>
    intro fuel s c tref hrep hnd hx hlx hrx hfuel hout
    cases fuel with
    | zero => simp at hfuel
    | succ fuel =>
      obtain ⟨ht, hL, hR⟩ := hrep
      have hnd0 := hnd
      simp only [PTree.ptrs] at hnd hx
      have hndL : L.ptrs.Nodup := (List.nodup_append.mp hnd).1
      have hndqR : (p :: R.ptrs).Nodup := (List.nodup_append.mp hnd).2.1
      have hdisj := (List.nodup_append.mp hnd).2.2
      have hpL : p ∉ L.ptrs := fun h => hdisj h (List.mem_cons_self _ _)
      have hpR : p ∉ R.ptrs := (List.nodup_cons.mp hndqR).1
      have hndR : R.ptrs.Nodup := (List.nodup_cons.mp hndqR).2
      have hLR : ∀ y ∈ L.ptrs, y ∉ R.ptrs := fun y hy hy' =>
        hdisj hy (List.mem_cons_of_mem _ hy')
      have hxL : x ∉ L.ptrs := fun h => hx (List.mem_append_left _ h)
      have hxR : x ∉ R.ptrs := fun h => hx (List.mem_append_right _ (List.mem_cons_of_mem _ h))
      have hxp : x ≠ p := fun h => hx (by simp [h])
      have htx := hout x (by simp)
      have htp := hout p (by simp [PTree.ptrs])
      simp only [PTree.size] at hfuel
      rw [Impl.insert, PTree.insert]
      simp only [ht]
      by_cases hc : (comparePriority c (it.eventtime x) (it.eventtime p)).1 > 0
      · simp only [hc, if_true]
        obtain ⟨s1, hs1, hA, hB, hfr⟩ := Impl.split_refines it (it.id x) (PTree.node L p R) fuel s
          (some p) (Ref.l x) (Ref.r x) ⟨rfl, hL, hR⟩ hnd0 (by simp only [PTree.size]; omega)
          (by simp) ((Outside.l_iff _ _).mpr (by simpa [PTree.ptrs] using hx))
          ((Outside.r_iff _ _).mpr (by simpa [PTree.ptrs] using hx))
        refine ⟨s1.set tref (some x), by rw [hs1]; rfl, ⟨?_, ?_, ?_⟩, ?_⟩
        · rw [Treap.get_set_same]
        · rw [← Treap.get_l, Treap.get_set_ne _ _ htx.1.symm]
          refine hA.frame_get fun ref href => Treap.get_set_ne _ _ ?_
          rintro rfl
          exact href (hout.mono fun y hy => List.mem_cons_of_mem _ (PTree.mem_split_fst hy))
        · rw [← Treap.get_r, Treap.get_set_ne _ _ htx.2.symm]
          refine hB.frame_get fun ref href => Treap.get_set_ne _ _ ?_
          rintro rfl
          exact href (hout.mono fun y hy => List.mem_cons_of_mem _ (PTree.mem_split_snd hy))
        · intro ref h1 h2
          rw [Treap.get_set_ne _ _ h1]
          exact hfr ref (h2 x (by simp)).1 (h2 x (by simp)).2
            (h2.mono fun y hy => List.mem_cons_of_mem _ hy)
      · simp only [hc, if_false]
        by_cases hk : keyCompare (it.id x) (it.id p) < 0
        · simp only [hk, if_true]
          have ho : Outside (Ref.l p) (x :: L.ptrs) :=
            (Outside.l_iff _ _).mpr (by simp [hpL, Ne.symm hxp])
          obtain ⟨s1, hs1, hL', hfr⟩ := ihL fuel s
            (comparePriority c (it.eventtime x) (it.eventtime p)).2 (Ref.l p) hL hndL hxL hlx hrx
            (by omega) ho
          have hto : Outside tref (x :: L.ptrs) :=
            hout.mono (by simp +contextual [PTree.ptrs])
          refine ⟨s1, hs1, ⟨?_, hL', ?_⟩, ?_⟩
          · rw [hfr tref htp.1 hto]
            exact ht
          · rw [← Treap.get_r, hfr _ (by simp)
              ((Outside.r_iff _ _).mpr (by simp [hpL, Ne.symm hxp]))]
            refine hR.frame_get fun ref href => ?_
            have h2 : ref ≠ Ref.l p := by
              rintro rfl
              exact href ((Outside.l_iff _ _).mpr hpR)
            have h3 : Outside ref (x :: L.ptrs) := by
              intro y hy
              have hy' : y ∉ R.ptrs := by
                rcases List.mem_cons.mp hy with rfl | hy
                · exact hxR
                · exact hLR y hy
              constructor
              · rintro rfl
                exact href ((Outside.l_iff _ _).mpr hy')
              · rintro rfl
                exact href ((Outside.r_iff _ _).mpr hy')
            exact hfr ref h2 h3
          · intro ref h1 h2
            exact hfr ref (h2 p (by simp [PTree.ptrs])).1
              (h2.mono (by simp +contextual [PTree.ptrs]))
        · simp only [hk, if_false]
          have ho : Outside (Ref.r p) (x :: R.ptrs) :=
            (Outside.r_iff _ _).mpr (by simp [hpR, Ne.symm hxp])
          obtain ⟨s1, hs1, hR', hfr⟩ := ihR fuel s
            (comparePriority c (it.eventtime x) (it.eventtime p)).2 (Ref.r p) hR hndR hxR hlx hrx
            (by omega) ho
          have hto : Outside tref (x :: R.ptrs) :=
            hout.mono (by simp +contextual [PTree.ptrs])
          refine ⟨s1, hs1, ⟨?_, ?_, hR'⟩, ?_⟩
          · rw [hfr tref htp.2 hto]
            exact ht
          · rw [← Treap.get_l, hfr _ (by simp)
              ((Outside.l_iff _ _).mpr (by simp [hpR, Ne.symm hxp]))]
            refine hL.frame_get fun ref href => ?_
            have h2 : ref ≠ Ref.r p := by
              rintro rfl
              exact href ((Outside.r_iff _ _).mpr hpL)
            have h3 : Outside ref (x :: R.ptrs) := by
              intro y hy
              have hy' : y ∉ L.ptrs := by
                rcases List.mem_cons.mp hy with rfl | hy
                · exact hxL
                · exact fun h => hLR y h hy
              constructor
              · rintro rfl
                exact href ((Outside.l_iff _ _).mpr hy')
              · rintro rfl
                exact href ((Outside.r_iff _ _).mpr hy')
            exact hfr ref h2 h3
          · intro ref h1 h2
            exact hfr ref (h2 p (by simp [PTree.ptrs])).2
              (h2.mono (by simp +contextual [PTree.ptrs]))

/-! ## The private `erase` and `find` -/

/-- The private `erase` takes one item with the given identifier out of the
left-to-right sequence of the items and keeps the order of the others. -/
theorem PTree.erase_ptrs (it : Items K) (key : K) : ∀ (T : PTree) (c : Rand) (o : PTree × Rand),
    T.erase it key c = some o →
      ∃ xs p ys, it.id p = key ∧ T.ptrs = xs ++ p :: ys ∧ o.1.ptrs = xs ++ ys := by
  intro T
  induction T with
  | nil => intro c o h; simp [PTree.erase] at h
  | node L p R ihL ihR =>
    intro c o h
    rw [PTree.erase] at h
    split_ifs at h with h0 h1
    · refine ⟨L.ptrs, p, R.ptrs, (keyCompare_zero_iff _ _).mp h0, rfl, ?_⟩
      rw [← Option.some.inj h, PTree.merge_ptrs]
    · cases hL : PTree.erase it key L c with
      | none => rw [hL] at h; simp at h
      | some o' =>
        rw [hL] at h
        obtain ⟨xs, p', ys, hp', h1, h2⟩ := ihL c o' hL
        refine ⟨xs, p', ys ++ p :: R.ptrs, hp', ?_, ?_⟩
        · simp [PTree.ptrs, h1]
        · rw [← Option.some.inj h]
          simp [PTree.ptrs, h2]
    · cases hR : PTree.erase it key R c with
      | none => rw [hR] at h; simp at h
      | some o' =>
        rw [hR] at h
        obtain ⟨xs, p', ys, hp', h1, h2⟩ := ihR c o' hR
        refine ⟨L.ptrs ++ p :: xs, p', ys, hp', ?_, ?_⟩
        · simp [PTree.ptrs, h1]
        · rw [← Option.some.inj h]
          simp [PTree.ptrs, h2]

theorem PTree.mem_of_mem_erase {it : Items K} {key : K} {T : PTree} {c : Rand}
    {o : PTree × Rand} (h : T.erase it key c = some o) {q : Nat} (hq : q ∈ o.1.ptrs) :
    q ∈ T.ptrs := by
  obtain ⟨xs, p, ys, _, h1, h2⟩ := PTree.erase_ptrs it key T c o h
  rw [h2] at hq
  rw [h1]
  simp only [List.mem_append, List.mem_cons] at hq ⊢
  tauto

theorem PTree.erase_nodup {it : Items K} {key : K} {T : PTree} {c : Rand}
    {o : PTree × Rand} (h : T.erase it key c = some o) (hnd : T.ptrs.Nodup) :
    o.1.ptrs.Nodup := by
  obtain ⟨xs, p, ys, _, h1, h2⟩ := PTree.erase_ptrs it key T c o h
  rw [h2]
  rw [h1] at hnd
  exact hnd.sublist (List.Sublist.append_left (List.sublist_cons_self _ _) _)

/-- The private `erase` that finds no item with the identifier throws, with the
state it was given. -/
theorem Impl.private_erase_refines_none (it : Items K) (key : K) : ∀ (T : PTree) (fuel : Nat)
    (s : Treap) (c : Rand) (tref : Ref), T.erase it key c = none → Rep s T (s.get tref) →
      T.size < fuel →
      Impl.erase it fuel s c tref key = some (Outcome.thrown logic_error.erase_missing s c) := by
  intro T
  induction T with
  | nil =>
    intro fuel s c tref _ hrep hfuel
    cases fuel with
    | zero => simp at hfuel
    | succ fuel =>
      have ht : s.get tref = none := hrep
      simp [Impl.erase, ht]
  | node L p R ihL ihR =>
    intro fuel s c tref h hrep hfuel
    cases fuel with
    | zero => simp at hfuel
    | succ fuel =>
      obtain ⟨ht, hL, hR⟩ := hrep
      simp only [PTree.size] at hfuel
      rw [PTree.erase] at h
      rw [Impl.erase]
      simp only [ht]
      split_ifs at h with h0 h1
      · simp only [h0, if_false, h1, if_true]
        exact ihL fuel s c (Ref.l p) (by simpa using h) hL (by omega)
      · simp only [h0, if_false, h1]
        exact ihR fuel s c (Ref.r p) (by simpa using h) hR (by omega)

/-- The private `erase` that finds the identifier leaves the tree without that
item in the place `tref`, and writes nothing but that place and fields of items
that stay in the tree. -/
theorem Impl.private_erase_refines_some (it : Items K) (key : K) : ∀ (T : PTree) (fuel : Nat)
    (s : Treap) (c : Rand) (tref : Ref) (o : PTree × Rand), T.erase it key c = some o →
      Rep s T (s.get tref) → T.ptrs.Nodup → T.size < fuel → Outside tref T.ptrs →
      ∃ s', Impl.erase it fuel s c tref key = some (Outcome.done s' o.2) ∧
        Rep s' o.1 (s'.get tref) ∧
        ∀ ref, ref ≠ tref → Outside ref o.1.ptrs → s'.get ref = s.get ref := by
  intro T
  induction T with
  | nil => intro fuel s c tref o h; simp [PTree.erase] at h
  | node L p R ihL ihR =>
    intro fuel s c tref o h hrep hnd hfuel hout
    cases fuel with
    | zero => simp at hfuel
    | succ fuel =>
      obtain ⟨ht, hL, hR⟩ := hrep
      simp only [PTree.ptrs] at hnd
      have hndL : L.ptrs.Nodup := (List.nodup_append.mp hnd).1
      have hndqR : (p :: R.ptrs).Nodup := (List.nodup_append.mp hnd).2.1
      have hdisj := (List.nodup_append.mp hnd).2.2
      have hpL : p ∉ L.ptrs := fun h => hdisj h (List.mem_cons_self _ _)
      have hpR : p ∉ R.ptrs := (List.nodup_cons.mp hndqR).1
      have hndR : R.ptrs.Nodup := (List.nodup_cons.mp hndqR).2
      have hLR : ∀ y ∈ L.ptrs, y ∉ R.ptrs := fun y hy hy' =>
        hdisj hy (List.mem_cons_of_mem _ hy')
      have htp := hout p (by simp [PTree.ptrs])
      simp only [PTree.size] at hfuel
      rw [PTree.erase] at h
      rw [Impl.erase]
      simp only [ht]
      split_ifs at h with h0 h1
      · simp only [h0, if_true]
        have ho := Option.some.inj h
        subst ho
        obtain ⟨s1, hs1, hM, hfr⟩ := Impl.merge_refines it L R fuel s c tref (s.l p) (s.r p)
          hL hR (hnd.sublist (List.Sublist.append_left (List.sublist_cons_self _ _) _))
          (by omega) (hout.mono (by
            simp only [PTree.ptrs, List.mem_append, List.mem_cons]
            tauto))
        refine ⟨s1, by rw [hs1]; rfl, hM, ?_⟩
        intro ref h1 h2
        rw [PTree.merge_ptrs] at h2
        exact hfr ref h1 h2
      · simp only [h0, if_false, h1, if_true]
        cases hLe : PTree.erase it key L c with
        | none => rw [hLe] at h; simp at h
        | some o' =>
          rw [hLe] at h
          have ho := Option.some.inj h
          subst ho
          have hsub : ∀ y ∈ o'.1.ptrs, y ∈ L.ptrs := fun y hy => PTree.mem_of_mem_erase hLe hy
          obtain ⟨s1, hs1, hL', hfr⟩ := ihL fuel s c (Ref.l p) o' hLe hL hndL (by omega)
            ((Outside.l_iff _ _).mpr hpL)
          refine ⟨s1, hs1, ⟨?_, hL', ?_⟩, ?_⟩
          · rw [hfr tref htp.1 (hout.mono fun y hy => by simp [PTree.ptrs, hsub y hy])]
            exact ht
          · rw [← Treap.get_r, hfr _ (by simp)
              ((Outside.r_iff _ _).mpr fun h => hpL (hsub p h))]
            refine hR.frame_get fun ref href => ?_
            have h2 : ref ≠ Ref.l p := by
              rintro rfl
              exact href ((Outside.l_iff _ _).mpr hpR)
            have h3 : Outside ref o'.1.ptrs := by
              intro y hy
              have hy' : y ∉ R.ptrs := hLR y (hsub y hy)
              constructor
              · rintro rfl
                exact href ((Outside.l_iff _ _).mpr hy')
              · rintro rfl
                exact href ((Outside.r_iff _ _).mpr hy')
            exact hfr ref h2 h3
          · intro ref h1 h2
            exact hfr ref (h2 p (by simp [PTree.ptrs])).1
              (h2.mono (by simp +contextual [PTree.ptrs]))
      · simp only [h0, if_false, h1]
        cases hRe : PTree.erase it key R c with
        | none => rw [hRe] at h; simp at h
        | some o' =>
          rw [hRe] at h
          have ho := Option.some.inj h
          subst ho
          have hsub : ∀ y ∈ o'.1.ptrs, y ∈ R.ptrs := fun y hy => PTree.mem_of_mem_erase hRe hy
          obtain ⟨s1, hs1, hR', hfr⟩ := ihR fuel s c (Ref.r p) o' hRe hR hndR (by omega)
            ((Outside.r_iff _ _).mpr hpR)
          refine ⟨s1, hs1, ⟨?_, ?_, hR'⟩, ?_⟩
          · rw [hfr tref htp.2 (hout.mono fun y hy => by simp [PTree.ptrs, hsub y hy])]
            exact ht
          · rw [← Treap.get_l, hfr _ (by simp)
              ((Outside.l_iff _ _).mpr fun h => hpR (hsub p h))]
            refine hL.frame_get fun ref href => ?_
            have h2 : ref ≠ Ref.r p := by
              rintro rfl
              exact href ((Outside.r_iff _ _).mpr hpL)
            have h3 : Outside ref o'.1.ptrs := by
              intro y hy
              have hy' : y ∉ L.ptrs := fun h => hLR y h (hsub y hy)
              constructor
              · rintro rfl
                exact href ((Outside.l_iff _ _).mpr hy')
              · rintro rfl
                exact href ((Outside.r_iff _ _).mpr hy')
            exact hfr ref h2 h3
          · intro ref h1 h2
            exact hfr ref (h2 p (by simp [PTree.ptrs])).2
              (h2.mono (by simp +contextual [PTree.ptrs]))

/-- The private `find` returns what the search of the tree returns. -/
theorem Impl.private_find_refines (it : Items K) (key : K) : ∀ (T : PTree) (fuel : Nat) (s : Treap)
    (t : Option Nat) (depth : Int), Rep s T t → T.size < fuel →
      Impl.find it fuel s t key depth = some (T.find it key) := by
  intro T
  induction T with
  | nil =>
    intro fuel s t depth hrep hfuel
    cases fuel with
    | zero => simp at hfuel
    | succ fuel =>
      have ht : t = none := hrep
      subst ht
      simp [Impl.find, PTree.find]
  | node L p R ihL ihR =>
    intro fuel s t depth hrep hfuel
    cases fuel with
    | zero => simp at hfuel
    | succ fuel =>
      obtain ⟨ht, hL, hR⟩ := hrep
      subst ht
      simp only [PTree.size] at hfuel
      rw [Impl.find, PTree.find]
      split_ifs
      · rfl
      · exact ihL fuel s (s.l p) (depth + 1) hL (by omega)
      · exact ihR fuel s (s.r p) (depth + 1) hR (by omega)

/-! ## The search-tree property -/

theorem PTree.rootPtr_mem {T : PTree} {q : Nat} (h : T.rootPtr = some q) : q ∈ T.ptrs := by
  cases T with
  | nil => simp [PTree.rootPtr] at h
  | node L p R =>
    simp only [PTree.rootPtr, Option.some.injEq] at h
    simp [PTree.ptrs, h]

/-- In a search tree `split` sends the identifiers up to the key to the left
and the identifiers above the key to the right. -/
theorem PTree.split_bounds (it : Items K) (key : K) : ∀ (T : PTree), SearchTree it T →
    (∀ q ∈ (T.split it key).1.ptrs, it.id q ≤ key) ∧
      (∀ q ∈ (T.split it key).2.ptrs, key < it.id q) := by
  intro T
  induction T with
  | nil => intro _; simp [PTree.split, PTree.ptrs]
  | node L p R ihL ihR =>
    intro h
    obtain ⟨hl, hr, hL, hR⟩ := h
    rw [PTree.split]
    by_cases hk : keyCompare key (it.id p) < 0
    · simp only [hk, if_true]
      have hkp : key < it.id p := (keyCompare_neg_iff _ _).mp hk
      refine ⟨(ihL hL).1, ?_⟩
      intro q hq
      simp only [PTree.ptrs, List.mem_append, List.mem_cons] at hq
      rcases hq with hq | rfl | hq
      · exact (ihL hL).2 q hq
      · exact hkp
      · exact lt_trans hkp (hr q hq)
    · simp only [hk, if_false]
      have hkp : it.id p ≤ key := not_lt.mp fun h => hk ((keyCompare_neg_iff _ _).mpr h)
      refine ⟨?_, (ihR hR).2⟩
      intro q hq
      simp only [PTree.ptrs, List.mem_append, List.mem_cons] at hq
      rcases hq with hq | rfl | hq
      · exact le_of_lt (lt_of_lt_of_le (hl q hq) hkp)
      · exact hkp
      · exact (ihR hR).1 q hq

/-- Both halves `split` makes of a search tree are search trees. -/
theorem PTree.split_searchTree (it : Items K) (key : K) : ∀ (T : PTree), SearchTree it T →
    SearchTree it (T.split it key).1 ∧ SearchTree it (T.split it key).2 := by
  intro T
  induction T with
  | nil => intro _; simp [PTree.split, SearchTree]
  | node L p R ihL ihR =>
    intro h
    obtain ⟨hl, hr, hL, hR⟩ := h
    rw [PTree.split]
    split_ifs
    · exact ⟨(ihL hL).1, fun q hq => hl q (PTree.mem_split_snd hq), hr, (ihL hL).2, hR⟩
    · exact ⟨⟨hl, fun q hq => hr q (PTree.mem_split_fst hq), hL, (ihR hR).1⟩, (ihR hR).2⟩

/-- The private `insert` of an item with a new identifier keeps a search tree a
search tree. -/
theorem PTree.insert_searchTree (it : Items K) (x : Nat) : ∀ (T : PTree) (c : Rand),
    SearchTree it T → (∀ q ∈ T.ptrs, it.id q ≠ it.id x) →
      SearchTree it (T.insert it x c).1 := by
  intro T
  induction T with
  | nil => intro c _ _; simp [PTree.insert, SearchTree, PTree.ptrs]
  | node L p R ihL ihR =>
    intro c h hx
    have hb := PTree.split_bounds it (it.id x) (PTree.node L p R) h
    have hs := PTree.split_searchTree it (it.id x) (PTree.node L p R) h
    obtain ⟨hl, hr, hL, hR⟩ := h
    have hxp : it.id p ≠ it.id x := hx p (by simp [PTree.ptrs])
    have hxL : ∀ q ∈ L.ptrs, it.id q ≠ it.id x := fun q hq => hx q (by simp [PTree.ptrs, hq])
    have hxR : ∀ q ∈ R.ptrs, it.id q ≠ it.id x := fun q hq => hx q (by simp [PTree.ptrs, hq])
    rw [PTree.insert]
    split_ifs with hc hk
    · refine ⟨fun q hq => ?_, hb.2, hs.1, hs.2⟩
      exact lt_of_le_of_ne (hb.1 q hq) (hx q (PTree.mem_split_fst hq))
    · have hkp : it.id x < it.id p := (keyCompare_neg_iff _ _).mp hk
      refine ⟨fun q hq => ?_, hr, ihL _ hL hxL, hR⟩
      rcases PTree.mem_insert.mp hq with rfl | hq
      · exact hkp
      · exact hl q hq
    · have hkp : it.id p < it.id x :=
        lt_of_le_of_ne (not_lt.mp fun h => hk ((keyCompare_neg_iff _ _).mpr h)) hxp
      refine ⟨hl, fun q hq => ?_, hL, ihR _ hR hxR⟩
      rcases PTree.mem_insert.mp hq with rfl | hq
      · exact hkp
      · exact hr q hq

/-- The merge of two search trees, the first wholly below the second, is a
search tree. -/
theorem PTree.merge_searchTree (it : Items K) : ∀ (A B : PTree) (c : Rand), SearchTree it A →
    SearchTree it B → (∀ a ∈ A.ptrs, ∀ b ∈ B.ptrs, it.id a < it.id b) →
      SearchTree it (A.merge it B c).1 := by
  intro A
  induction A with
  | nil => intro B c _ hB _; simpa [PTree.merge] using hB
  | node L1 p R1 _ ihR1 =>
    intro B
    induction B with
    | nil => intro c hA _ _; simpa [PTree.merge] using hA
    | node L2 q R2 ihL2 _ =>
      intro c hA hB hlt
      have hA0 := hA
      have hB0 := hB
      obtain ⟨hl1, hr1, hL1, hR1⟩ := hA
      obtain ⟨hl2, hr2, hL2, hR2⟩ := hB
      rw [PTree.merge]
      split_ifs
      · refine ⟨hl1, fun y hy => ?_, hL1, ihR1 _ _ hR1 hB0 fun a ha b hb =>
          hlt a (by simp [PTree.ptrs, ha]) b hb⟩
        rw [PTree.merge_ptrs] at hy
        rcases List.mem_append.mp hy with hy | hy
        · exact hr1 y hy
        · exact hlt p (by simp [PTree.ptrs]) y hy
      · refine ⟨fun y hy => ?_, hr2, ihL2 _ hA0 hL2 fun a ha b hb =>
          hlt a ha b (by simp [PTree.ptrs, hb]), hR2⟩
        rw [PTree.merge_ptrs] at hy
        rcases List.mem_append.mp hy with hy | hy
        · exact hlt y hy q (by simp [PTree.ptrs])
        · exact hl2 y hy

/-- The private `erase` keeps a search tree a search tree. -/
theorem PTree.erase_searchTree (it : Items K) (key : K) : ∀ (T : PTree) (c : Rand)
    (o : PTree × Rand), SearchTree it T → T.erase it key c = some o → SearchTree it o.1 := by
  intro T
  induction T with
  | nil => intro c o _ h; simp [PTree.erase] at h
  | node L p R ihL ihR =>
    intro c o hT h
    obtain ⟨hl, hr, hL, hR⟩ := hT
    rw [PTree.erase] at h
    split_ifs at h with h0 h1
    · rw [← Option.some.inj h]
      exact PTree.merge_searchTree it L R c hL hR fun a ha b hb => lt_trans (hl a ha) (hr b hb)
    · cases hLe : PTree.erase it key L c with
      | none => rw [hLe] at h; simp at h
      | some o' =>
        rw [hLe] at h
        rw [← Option.some.inj h]
        exact ⟨fun y hy => hl y (PTree.mem_of_mem_erase hLe hy), hr, ihL c o' hL hLe, hR⟩
    · cases hRe : PTree.erase it key R c with
      | none => rw [hRe] at h; simp at h
      | some o' =>
        rw [hRe] at h
        rw [← Option.some.inj h]
        exact ⟨hl, fun y hy => hr y (PTree.mem_of_mem_erase hRe hy), hL, ihR c o' hR hRe⟩

/-- A search tree holds no item twice, and no identifier twice. -/
theorem SearchTree.id_inj {it : Items K} : ∀ {T : PTree}, SearchTree it T →
    T.ptrs.Nodup ∧ ∀ a ∈ T.ptrs, ∀ b ∈ T.ptrs, it.id a = it.id b → a = b := by
  intro T
  induction T with
  | nil => intro _; simp [PTree.ptrs]
  | node L p R ihL ihR =>
    intro h
    obtain ⟨hl, hr, hL, hR⟩ := h
    have hpL : p ∉ L.ptrs := fun h => lt_irrefl _ (hl p h)
    have hpR : p ∉ R.ptrs := fun h => lt_irrefl _ (hr p h)
    have hLR : ∀ y ∈ L.ptrs, y ∉ R.ptrs := fun y hy hy' =>
      lt_irrefl _ (lt_trans (hl y hy) (hr y hy'))
    constructor
    · simp only [PTree.ptrs]
      rw [List.nodup_append]
      refine ⟨(ihL hL).1, List.nodup_cons.mpr ⟨hpR, (ihR hR).1⟩, ?_⟩
      intro y hy hy'
      rcases List.mem_cons.mp hy' with rfl | hy'
      · exact hpL hy
      · exact hLR y hy hy'
    · intro a ha b hb e
      simp only [PTree.ptrs, List.mem_append, List.mem_cons] at ha hb
      rcases ha with ha | rfl | ha <;> rcases hb with hb | rfl | hb
      · exact (ihL hL).2 a ha b hb e
      · exact absurd e (ne_of_lt (hl a ha))
      · exact absurd e (ne_of_lt (lt_trans (hl a ha) (hr b hb)))
      · exact absurd e.symm (ne_of_lt (hl b hb))
      · rfl
      · exact absurd e (ne_of_lt (hr b hb))
      · exact absurd e.symm (ne_of_lt (lt_trans (hl b hb) (hr a ha)))
      · exact absurd e.symm (ne_of_lt (hr a ha))
      · exact (ihR hR).2 a ha b hb e

/-- In a search tree the private `erase` succeeds on the identifier of every
item of the tree. -/
theorem PTree.erase_isSome (it : Items K) (key : K) : ∀ (T : PTree) (c : Rand),
    SearchTree it T → (∃ p ∈ T.ptrs, it.id p = key) → ∃ o, T.erase it key c = some o := by
  intro T
  induction T with
  | nil => intro c _ h; simp [PTree.ptrs] at h
  | node L p R ihL ihR =>
    intro c hT h
    obtain ⟨hl, hr, hL, hR⟩ := hT
    obtain ⟨x, hx, hxk⟩ := h
    rw [PTree.erase]
    simp only [PTree.ptrs, List.mem_append, List.mem_cons] at hx
    by_cases h0 : keyCompare (it.id p) key = 0
    · simp [h0]
    · simp only [h0, if_false]
      have hne : it.id p ≠ key := fun e => h0 ((keyCompare_zero_iff _ _).mpr e)
      by_cases h1 : keyCompare (it.id p) key > 0
      · simp only [h1, if_true]
        have hlt : key < it.id p := (keyCompare_pos_iff _ _).mp h1
        rcases hx with hx | rfl | hx
        · obtain ⟨o, ho⟩ := ihL c hL ⟨x, hx, hxk⟩
          exact ⟨_, by rw [ho]; rfl⟩
        · exact absurd hxk hne
        · exact absurd (hxk ▸ hr x hx) (not_lt.mpr (le_of_lt hlt))
      · simp only [h1, if_false]
        have hlt : it.id p < key :=
          lt_of_le_of_ne (not_lt.mp fun h => h1 ((keyCompare_pos_iff _ _).mpr h)) hne
        rcases hx with hx | rfl | hx
        · exact absurd (hxk ▸ hl x hx) (not_lt.mpr (le_of_lt hlt))
        · exact absurd hxk hne
        · obtain ⟨o, ho⟩ := ihR c hR ⟨x, hx, hxk⟩
          exact ⟨_, by rw [ho]; rfl⟩

/-- The private `erase` throws when no item of the tree has the identifier. -/
theorem PTree.erase_eq_none (it : Items K) (key : K) (T : PTree) (c : Rand)
    (h : ∀ p ∈ T.ptrs, it.id p ≠ key) : T.erase it key c = none := by
  cases ho : T.erase it key c with
  | none => rfl
  | some o =>
    obtain ⟨xs, p, ys, hp, h1, _⟩ := PTree.erase_ptrs it key T c o ho
    exact absurd hp (h p (by simp [h1]))

/-- What `find` returns is an item of the tree with the identifier asked for. -/
theorem PTree.find_some (it : Items K) (key : K) : ∀ (T : PTree) (p : Nat),
    T.find it key = some p → p ∈ T.ptrs ∧ it.id p = key := by
  intro T
  induction T with
  | nil => intro p h; simp [PTree.find] at h
  | node L q R ihL ihR =>
    intro p h
    rw [PTree.find] at h
    split_ifs at h with h0 h1
    · have e := Option.some.inj h
      subst e
      exact ⟨by simp [PTree.ptrs], (keyCompare_zero_iff _ _).mp h0⟩
    · exact ⟨by simp [PTree.ptrs, (ihL p h).1], (ihL p h).2⟩
    · exact ⟨by simp [PTree.ptrs, (ihR p h).1], (ihR p h).2⟩

/-- In a search tree `find` returns every item on its own identifier. -/
theorem PTree.find_mem (it : Items K) : ∀ (T : PTree) (p : Nat), SearchTree it T →
    p ∈ T.ptrs → T.find it (it.id p) = some p := by
  intro T
  induction T with
  | nil => intro p _ h; simp [PTree.ptrs] at h
  | node L q R ihL ihR =>
    intro p hT hp
    obtain ⟨hl, hr, hL, hR⟩ := hT
    simp only [PTree.ptrs, List.mem_append, List.mem_cons] at hp
    rw [PTree.find]
    rcases hp with hp | rfl | hp
    · have hlt := hl p hp
      have h0 : ¬ keyCompare (it.id q) (it.id p) = 0 := fun h =>
        absurd ((keyCompare_zero_iff _ _).mp h) (ne_of_gt hlt)
      have h1 : keyCompare (it.id q) (it.id p) > 0 := (keyCompare_pos_iff _ _).mpr hlt
      simp only [h0, if_false, h1, if_true]
      exact ihL p hL hp
    · simp [(keyCompare_zero_iff _ _).mpr rfl]
    · have hlt := hr p hp
      have h0 : ¬ keyCompare (it.id q) (it.id p) = 0 := fun h =>
        absurd ((keyCompare_zero_iff _ _).mp h) (ne_of_lt hlt)
      have h1 : ¬ keyCompare (it.id q) (it.id p) > 0 := fun h =>
        absurd ((keyCompare_pos_iff _ _).mp h) (not_lt.mpr (le_of_lt hlt))
      simp only [h0, if_false, h1]
      exact ihR p hR hp

/-- The search `find` returns nothing when no item has the identifier. -/
theorem PTree.find_eq_none (it : Items K) (key : K) (T : PTree)
    (h : ∀ p ∈ T.ptrs, it.id p ≠ key) : T.find it key = none := by
  cases hf : T.find it key with
  | none => rfl
  | some p => exact absurd (PTree.find_some it key T p hf).2 (h p (PTree.find_some it key T p hf).1)

/-! ## The heap property -/

omit [LinearOrder K] in
theorem HeapBelow.root_le {it : Items K} {T : PTree} {r : Nat} (h : HeapBelow it T)
    (hr : T.rootPtr = some r) : ∀ q ∈ T.ptrs, it.eventtime r ≤ it.eventtime q := by
  cases T with
  | nil => simp [PTree.rootPtr] at hr
  | node L p R =>
    simp only [PTree.rootPtr, Option.some.injEq] at hr
    subst hr
    intro q hq
    simp only [PTree.ptrs, List.mem_append, List.mem_cons] at hq
    rcases hq with hq | rfl | hq
    · exact h.1 q hq
    · exact le_refl _
    · exact h.2.1 q hq

omit [LinearOrder K] in
/-- The heap property between items and their children is the heap property
between items and everything below them. -/
theorem heapOrdered_iff_heapBelow (it : Items K) : ∀ (T : PTree),
    HeapOrdered it T ↔ HeapBelow it T := by
  intro T
  induction T with
  | nil => simp [HeapOrdered, HeapBelow]
  | node L p R ihL ihR =>
    constructor
    · rintro ⟨hl, hr, hL, hR⟩
      have hL' := ihL.mp hL
      have hR' := ihR.mp hR
      refine ⟨fun q hq => ?_, fun q hq => ?_, hL', hR'⟩
      · cases hLr : L.rootPtr with
        | none =>
          cases L with
          | nil => simp [PTree.ptrs] at hq
          | node _ _ _ => simp [PTree.rootPtr] at hLr
        | some r => exact le_trans (hl r hLr) (hL'.root_le hLr q hq)
      · cases hRr : R.rootPtr with
        | none =>
          cases R with
          | nil => simp [PTree.ptrs] at hq
          | node _ _ _ => simp [PTree.rootPtr] at hRr
        | some r => exact le_trans (hr r hRr) (hR'.root_le hRr q hq)
    · rintro ⟨hl, hr, hL, hR⟩
      exact ⟨fun q hq => hl q (PTree.rootPtr_mem hq), fun q hq => hr q (PTree.rootPtr_mem hq),
        ihL.mpr hL, ihR.mpr hR⟩

/-- Both halves `split` makes of a heap-ordered tree are heap-ordered. -/
theorem PTree.split_heapBelow (it : Items K) (key : K) : ∀ (T : PTree), HeapBelow it T →
    HeapBelow it (T.split it key).1 ∧ HeapBelow it (T.split it key).2 := by
  intro T
  induction T with
  | nil => intro _; simp [PTree.split, HeapBelow]
  | node L p R ihL ihR =>
    intro h
    obtain ⟨hl, hr, hL, hR⟩ := h
    rw [PTree.split]
    split_ifs
    · exact ⟨(ihL hL).1, fun q hq => hl q (PTree.mem_split_snd hq), hr, (ihL hL).2, hR⟩
    · exact ⟨⟨hl, fun q hq => hr q (PTree.mem_split_fst hq), hL, (ihR hR).1⟩, (ihR hR).2⟩

/-- The private `insert` keeps a heap-ordered tree heap-ordered. -/
theorem PTree.insert_heapBelow (it : Items K) (x : Nat) : ∀ (T : PTree) (c : Rand),
    HeapBelow it T → HeapBelow it (T.insert it x c).1 := by
  intro T
  induction T with
  | nil => intro c _; simp [PTree.insert, HeapBelow, PTree.ptrs]
  | node L p R ihL ihR =>
    intro c h
    have hs := PTree.split_heapBelow it (it.id x) (PTree.node L p R) h
    have hroot := h.root_le (T := PTree.node L p R) rfl
    obtain ⟨hl, hr, hL, hR⟩ := h
    rw [PTree.insert]
    split_ifs with hc hk
    · have hxp := comparePriority_pos_le hc
      exact ⟨fun q hq => le_trans hxp (hroot q (PTree.mem_split_fst hq)),
        fun q hq => le_trans hxp (hroot q (PTree.mem_split_snd hq)), hs.1, hs.2⟩
    · have hpx := comparePriority_not_pos_le hc
      refine ⟨fun q hq => ?_, hr, ihL _ hL, hR⟩
      rcases PTree.mem_insert.mp hq with rfl | hq
      · exact hpx
      · exact hl q hq
    · have hpx := comparePriority_not_pos_le hc
      refine ⟨hl, fun q hq => ?_, hL, ihR _ hR⟩
      rcases PTree.mem_insert.mp hq with rfl | hq
      · exact hpx
      · exact hr q hq

omit [LinearOrder K] in
/-- The merge of two heap-ordered trees is heap-ordered. -/
theorem PTree.merge_heapBelow (it : Items K) : ∀ (A B : PTree) (c : Rand), HeapBelow it A →
    HeapBelow it B → HeapBelow it (A.merge it B c).1 := by
  intro A
  induction A with
  | nil => intro B c _ hB; simpa [PTree.merge] using hB
  | node L1 p R1 _ ihR1 =>
    intro B
    induction B with
    | nil => intro c hA _; simpa [PTree.merge] using hA
    | node L2 q R2 ihL2 _ =>
      intro c hA hB
      have hrA := hA.root_le (T := PTree.node L1 p R1) rfl
      have hrB := hB.root_le (T := PTree.node L2 q R2) rfl
      have hA0 := hA
      have hB0 := hB
      obtain ⟨hl1, hr1, hL1, hR1⟩ := hA
      obtain ⟨hl2, hr2, hL2, hR2⟩ := hB
      rw [PTree.merge]
      split_ifs with hc
      · have hpq := comparePriority_pos_le hc
        refine ⟨hl1, fun y hy => ?_, hL1, ihR1 _ _ hR1 hB0⟩
        rw [PTree.merge_ptrs] at hy
        rcases List.mem_append.mp hy with hy | hy
        · exact hr1 y hy
        · exact le_trans hpq (hrB y hy)
      · have hqp := comparePriority_not_pos_le hc
        refine ⟨fun y hy => ?_, hr2, ihL2 _ hA0 hL2, hR2⟩
        rw [PTree.merge_ptrs] at hy
        rcases List.mem_append.mp hy with hy | hy
        · exact le_trans hqp (hrA y hy)
        · exact hl2 y hy

/-- The private `erase` keeps a heap-ordered tree heap-ordered. -/
theorem PTree.erase_heapBelow (it : Items K) (key : K) : ∀ (T : PTree) (c : Rand)
    (o : PTree × Rand), HeapBelow it T → T.erase it key c = some o → HeapBelow it o.1 := by
  intro T
  induction T with
  | nil => intro c o _ h; simp [PTree.erase] at h
  | node L p R ihL ihR =>
    intro c o hT h
    obtain ⟨hl, hr, hL, hR⟩ := hT
    rw [PTree.erase] at h
    split_ifs at h with h0 h1
    · rw [← Option.some.inj h]
      exact PTree.merge_heapBelow it L R c hL hR
    · cases hLe : PTree.erase it key L c with
      | none => rw [hLe] at h; simp at h
      | some o' =>
        rw [hLe] at h
        rw [← Option.some.inj h]
        exact ⟨fun y hy => hl y (PTree.mem_of_mem_erase hLe hy), hr, ihL c o' hL hLe, hR⟩
    · cases hRe : PTree.erase it key R c with
      | none => rw [hRe] at h; simp at h
      | some o' =>
        rw [hRe] at h
        rw [← Option.some.inj h]
        exact ⟨hl, fun y hy => hr y (PTree.mem_of_mem_erase hRe hy), hL, ihR c o' hR hRe⟩

/-! ## The public members -/

theorem PTree.size_eq_length (T : PTree) : T.size = T.ptrs.length := by
  induction T with
  | nil => rfl
  | node L p R ihL ihR => simp [PTree.size, PTree.ptrs, ihL, ihR]; omega

theorem Shape.root_eq {s : Treap} {T : PTree} (h : Shape s T) : s.root = T.rootPtr :=
  h.1.rootPtr

theorem Shape.shape_unique {s : Treap} {T T' : PTree} (h : Shape s T) (h' : Shape s T') : T = T' :=
  h.1.tree_unique h'.1

/-- The public `insert` of an item that is not linked ends normally, links the
items of the tree with `x` inserted, and writes nothing but `root`, the fields
of `x` and the fields of the linked items. -/
theorem Treap.insert_refines (it : Items K) (x : Nat) (T : PTree) (fuel : Nat) (s : Treap)
    (c : Rand) (hs : Shape s T) (hx : x ∉ T.ptrs) (hfuel : T.size + 1 < fuel) :
    ∃ s', Treap.insert it fuel s c (some x) = some (Outcome.done s' (T.insert it x c).2) ∧
      Shape s' (T.insert it x c).1 ∧
      ∀ ref, ref ≠ Ref.root → Outside ref (x :: T.ptrs) → s'.get ref = s.get ref := by
  obtain ⟨hrep, hnd⟩ := hs
  have hnd' : (T.insert it x c).1.ptrs.Nodup :=
    (PTree.insert_perm it x T c).nodup_iff.mpr (List.nodup_cons.mpr ⟨hx, hnd⟩)
  have hfr1 : ∀ ref, ref ≠ Ref.l x → ref ≠ Ref.r x →
      ((s.set (Ref.l x) none).set (Ref.r x) none).get ref = s.get ref := by
    intro ref h1 h2
    rw [Treap.get_set_ne _ _ h2, Treap.get_set_ne _ _ h1]
  have hrep1 : Rep ((s.set (Ref.l x) none).set (Ref.r x) none) T
      (((s.set (Ref.l x) none).set (Ref.r x) none).get Ref.root) := by
    rw [hfr1 _ (by simp) (by simp)]
    refine hrep.frame_get fun ref href => hfr1 ref ?_ ?_
    · rintro rfl
      exact href ((Outside.l_iff _ _).mpr hx)
    · rintro rfl
      exact href ((Outside.r_iff _ _).mpr hx)
  have hl1 : ((s.set (Ref.l x) none).set (Ref.r x) none).l x = none := by
    rw [← Treap.get_l, Treap.get_set_ne _ _ (by simp), Treap.get_set_same]
  have hr1 : ((s.set (Ref.l x) none).set (Ref.r x) none).r x = none := by
    rw [← Treap.get_r, Treap.get_set_same]
  obtain ⟨s', hs', hrep', hfr'⟩ := Impl.private_insert_refines it x T fuel _ c Ref.root hrep1 hnd hx
    hl1 hr1 hfuel (Outside.root _)
  have hframe : ∀ ref, ref ≠ Ref.root → Outside ref (x :: T.ptrs) → s'.get ref = s.get ref := by
    intro ref h1 h2
    rw [hfr' ref h1 h2]
    exact hfr1 ref (h2 x (by simp)).1 (h2 x (by simp)).2
  by_cases he : ((s.set (Ref.l x) none).set (Ref.r x) none).empty = true
  · have hroot : ((s.set (Ref.l x) none).set (Ref.r x) none).get Ref.root = none := by
      simpa [Treap.empty, Treap.get] using he
    have hT : T = PTree.nil := by
      cases T with
      | nil => rfl
      | node L p R => rw [hroot] at hrep1; exact absurd hrep1.1 (by simp)
    subst hT
    cases fuel with
    | zero => simp at hfuel
    | succ fuel =>
      have e : Impl.insert it (fuel + 1) ((s.set (Ref.l x) none).set (Ref.r x) none) c
          Ref.root x = some (((s.set (Ref.l x) none).set (Ref.r x) none).set Ref.root (some x),
            c) := by
        simp [Impl.insert, hroot]
      rw [e] at hs'
      have e' := (Prod.mk.inj (Option.some.inj hs')).1
      refine ⟨s', ?_, ⟨hrep', hnd'⟩, hframe⟩
      simp only [Treap.insert, he, if_true, PTree.insert]
      rw [e']
  · refine ⟨s', ?_, ⟨hrep', hnd'⟩, hframe⟩
    simp only [Treap.insert, he]
    rw [hs']
    rfl

/-- The public `erase` ends normally when the private one finds the
identifier: it links the tree without the item, and writes nothing but `root`
and fields of items that stay linked. -/
theorem Treap.erase_refines_some (it : Items K) (key : K) (T : PTree) (fuel : Nat) (s : Treap)
    (c : Rand) (o : PTree × Rand) (hs : Shape s T) (ho : T.erase it key c = some o)
    (hfuel : T.size < fuel) :
    ∃ s', Treap.erase it fuel s c key = some (Outcome.done s' o.2) ∧ Shape s' o.1 ∧
      ∀ ref, ref ≠ Ref.root → Outside ref o.1.ptrs → s'.get ref = s.get ref := by
  obtain ⟨hrep, hnd⟩ := hs
  obtain ⟨s', hs', hrep', hfr'⟩ := Impl.private_erase_refines_some it key T fuel s c Ref.root o ho hrep
    hnd hfuel (Outside.root _)
  have he : s.empty = false := by
    cases T with
    | nil => simp [PTree.erase] at ho
    | node L p R =>
      have : s.root = some p := hrep.1
      simp [Treap.empty, this]
  refine ⟨s', ?_, ⟨hrep', PTree.erase_nodup ho hnd⟩, hfr'⟩
  simp only [Treap.erase, he]
  exact hs'

/-- The public `erase` throws, with the state it was given, when the private
one finds no item with the identifier. -/
theorem Treap.erase_refines_none (it : Items K) (key : K) (T : PTree) (fuel : Nat) (s : Treap)
    (c : Rand) (hs : Shape s T) (ho : T.erase it key c = none) (hfuel : T.size < fuel) :
    Treap.erase it fuel s c key = some (Outcome.thrown logic_error.erase_missing s c) := by
  unfold Treap.erase
  split_ifs
  · rfl
  · exact Impl.private_erase_refines_none it key T fuel s c Ref.root ho hs.1 hfuel

/-- The public `find` returns what the search of the linked tree returns. -/
theorem Treap.find_refines (it : Items K) (key : K) (T : PTree) (fuel : Nat) (s : Treap)
    (hs : Shape s T) (hfuel : T.size < fuel) :
    Treap.find it fuel s key = some (T.find it key) := by
  unfold Treap.find
  split_ifs with he
  · have hT : T = PTree.nil := by
      cases T with
      | nil => rfl
      | node L p R =>
        have : s.root = some p := hs.1.1
        simp [Treap.empty, this] at he
    subst hT
    rfl
  · exact Impl.private_find_refines it key T fuel s s.root 0 hs.1 hfuel

/-! ## Changes of the event times -/

omit [LinearOrder K] in
/-- The result of `merge` depends on the event times of the merged items only. -/
theorem PTree.merge_congr (it it' : Items K) : ∀ (A B : PTree) (c : Rand),
    (∀ q ∈ A.ptrs ++ B.ptrs, it'.eventtime q = it.eventtime q) →
      A.merge it' B c = A.merge it B c := by
  intro A
  induction A with
  | nil => intro B c _; simp [PTree.merge]
  | node L1 p R1 _ ihR1 =>
    intro B
    induction B with
    | nil => intro c _; simp [PTree.merge]
    | node L2 q R2 ihL2 _ =>
      intro c h
      have hp : it'.eventtime p = it.eventtime p := h p (by simp [PTree.ptrs])
      have hq : it'.eventtime q = it.eventtime q := h q (by simp [PTree.ptrs])
      rw [PTree.merge, PTree.merge, hp, hq]
      rw [ihR1 (PTree.node L2 q R2) _ fun y hy => h y (by
        simp only [PTree.ptrs, List.mem_append, List.mem_cons] at hy ⊢
        tauto)]
      rw [ihL2 _ fun y hy => h y (by
        simp only [PTree.ptrs, List.mem_append, List.mem_cons] at hy ⊢
        tauto)]

/-- The result of the private `erase` on a search tree does not depend on the
event time of the item it removes. -/
theorem PTree.erase_congr (it it' : Items K) (key : K) (hid : it'.id = it.id) :
    ∀ (T : PTree) (c : Rand), SearchTree it T →
      (∀ q ∈ T.ptrs, it.id q ≠ key → it'.eventtime q = it.eventtime q) →
      T.erase it' key c = T.erase it key c := by
  intro T
  induction T with
  | nil => intro c _ _; simp [PTree.erase]
  | node L p R ihL ihR =>
    intro c hT h
    obtain ⟨hl, hr, hL, hR⟩ := hT
    rw [PTree.erase, PTree.erase, hid]
    by_cases h0 : keyCompare (it.id p) key = 0
    · simp only [h0, if_true]
      have hk : it.id p = key := (keyCompare_zero_iff _ _).mp h0
      rw [PTree.merge_congr it it' L R c]
      intro y hy
      rcases List.mem_append.mp hy with hy | hy
      · exact h y (by simp [PTree.ptrs, hy]) (hk ▸ ne_of_lt (hl y hy))
      · exact h y (by simp [PTree.ptrs, hy]) (hk ▸ (ne_of_lt (hr y hy)).symm)
    · simp only [h0, if_false]
      rw [ihL c hL fun y hy => h y (by simp [PTree.ptrs, hy]),
        ihR c hR fun y hy => h y (by simp [PTree.ptrs, hy])]

omit [LinearOrder K] in
theorem HeapBelow.congr_eventtime {it it' : Items K} : ∀ {T : PTree}, HeapBelow it T →
    (∀ q ∈ T.ptrs, it'.eventtime q = it.eventtime q) → HeapBelow it' T := by
  intro T
  induction T with
  | nil => intro _ _; trivial
  | node L p R ihL ihR =>
    intro h he
    obtain ⟨hl, hr, hL, hR⟩ := h
    have hp := he p (by simp [PTree.ptrs])
    refine ⟨fun q hq => ?_, fun q hq => ?_, ihL hL fun q hq => he q (by simp [PTree.ptrs, hq]),
      ihR hR fun q hq => he q (by simp [PTree.ptrs, hq])⟩
    · rw [hp, he q (by simp [PTree.ptrs, hq])]
      exact hl q hq
    · rw [hp, he q (by simp [PTree.ptrs, hq])]
      exact hr q hq

theorem SearchTree.congr_id {it it' : Items K} : ∀ {T : PTree}, SearchTree it T →
    (∀ q ∈ T.ptrs, it'.id q = it.id q) → SearchTree it' T := by
  intro T
  induction T with
  | nil => intro _ _; trivial
  | node L p R ihL ihR =>
    intro h he
    obtain ⟨hl, hr, hL, hR⟩ := h
    have hp := he p (by simp [PTree.ptrs])
    refine ⟨fun q hq => ?_, fun q hq => ?_, ihL hL fun q hq => he q (by simp [PTree.ptrs, hq]),
      ihR hR fun q hq => he q (by simp [PTree.ptrs, hq])⟩
    · rw [hp, he q (by simp [PTree.ptrs, hq])]
      exact hl q hq
    · rw [hp, he q (by simp [PTree.ptrs, hq])]
      exact hr q hq

/-- In a search tree the private `erase` removes exactly the item with the
identifier. -/
theorem PTree.mem_erase_iff {it : Items K} {key : K} {T : PTree} {c : Rand}
    {o : PTree × Rand} (hT : SearchTree it T) (ho : T.erase it key c = some o) (q : Nat) :
    q ∈ o.1.ptrs ↔ q ∈ T.ptrs ∧ it.id q ≠ key := by
  obtain ⟨xs, p, ys, hp, h1, h2⟩ := PTree.erase_ptrs it key T c o ho
  obtain ⟨hnd, hinj⟩ := hT.id_inj
  rw [h1] at hnd hinj
  have hpn : p ∉ xs ++ ys := by
    have := hnd.perm List.perm_middle
    exact (List.nodup_cons.mp this).1
  rw [h1, h2]
  constructor
  · intro hq
    refine ⟨by simp only [List.mem_append, List.mem_cons] at hq ⊢; tauto, fun e => ?_⟩
    have : q = p := hinj q (by simp only [List.mem_append, List.mem_cons] at hq ⊢; tauto) p
      (by simp) (e.trans hp.symm)
    exact hpn (this ▸ hq)
  · rintro ⟨hq, hne⟩
    have : q ≠ p := fun e => hne (e ▸ hp)
    simp only [List.mem_append, List.mem_cons] at hq ⊢
    tauto

/-- The public `erase(node)` of an item is `erase(key)` on its identifier. -/
theorem Treap.erase_node_some (it : Items K) (fuel : Nat) (s : Treap) (c : Rand) (x : Nat) :
    Treap.erase_node it fuel s c (some x) = Treap.erase it fuel s c (it.id x) := by
  unfold Treap.erase_node Treap.erase
  split_ifs
  · rfl
  · simp [getKey, Treap.erase, *]

/-- The member `decrease_key` on a linked item of a search tree: the private
`erase` finds the item, and the index is left linking the tree in which the
item has been erased and inserted again. -/
theorem Treap.decrease_key_refines (it : Items K) (x : Nat) (T : PTree) (fuel : Nat)
    (s : Treap) (c : Rand) (hs : Shape s T) (hbst : SearchTree it T) (hx : x ∈ T.ptrs)
    (hfuel : T.size < fuel) :
    ∃ o s', T.erase it (it.id x) c = some o ∧
      Treap.decrease_key it fuel s c (some x) =
        some (Outcome.done s' (o.1.insert it x o.2).2) ∧
      Shape s' (o.1.insert it x o.2).1 := by
  obtain ⟨o, ho⟩ := PTree.erase_isSome it (it.id x) T c hbst ⟨x, hx, rfl⟩
  obtain ⟨s1, hs1, hshape1, _⟩ := Treap.erase_refines_some it (it.id x) T fuel s c o hs ho hfuel
  have hxo : x ∉ o.1.ptrs := fun h => ((PTree.mem_erase_iff hbst ho x).mp h).2 rfl
  have hsize : o.1.size + 1 = T.size := by
    obtain ⟨xs, p, ys, _, h1, h2⟩ := PTree.erase_ptrs it (it.id x) T c o ho
    rw [PTree.size_eq_length, PTree.size_eq_length, h1, h2]
    simp
    omega
  obtain ⟨s', hs', hshape', _⟩ := Treap.insert_refines it x o.1 fuel s1 o.2 hshape1 hxo
    (by omega)
  refine ⟨o, s', ho, ?_, hshape'⟩
  unfold Treap.decrease_key
  rw [Treap.erase_node_some, hs1]
  exact hs'

/-- The member `decrease_key` after the event time of a linked item has been
set: the index is left linking a tree of the same items, with both invariants
for the event times as they now are. -/
theorem Treap.decrease_key_invariants (it : Items K) (s : Treap) (T : PTree) (x p : Nat)
    (c : Rand) (fuel : Nat) (hs : Shape s T) (hheap : HeapBelow it T) (hbst : SearchTree it T)
    (hx : x ∈ T.ptrs) (hfuel : T.size < fuel) :
    ∃ s' c' T', Treap.decrease_key (it.setEventtime x p) fuel s c (some x) =
        some (Outcome.done s' c') ∧ Shape s' T' ∧ HeapBelow (it.setEventtime x p) T' ∧
      SearchTree (it.setEventtime x p) T' ∧ ∀ q, q ∈ T'.ptrs ↔ q ∈ T.ptrs := by
  have hbst' : SearchTree (it.setEventtime x p) T := hbst.congr_id fun _ _ => rfl
  obtain ⟨o, s', ho, hs', hshape'⟩ := Treap.decrease_key_refines (it.setEventtime x p) x T fuel
    s c hs hbst' hx hfuel
  have hmem := PTree.mem_erase_iff hbst' ho
  have hinj := hbst'.id_inj.2
  have hxo : x ∉ o.1.ptrs := fun h => ((hmem x).mp h).2 rfl
  have ho' : T.erase it (it.id x) c = some o := by
    rw [← ho]
    refine (PTree.erase_congr it (it.setEventtime x p) (it.id x) rfl T c hbst ?_).symm
    intro q hq hne
    have hqx : q ≠ x := fun e => hne (e ▸ rfl)
    simp [Items.setEventtime, Function.update, hqx]
  have hheap1 : HeapBelow (it.setEventtime x p) o.1 := by
    refine (PTree.erase_heapBelow it (it.id x) T c o hheap ho').congr_eventtime fun q hq => ?_
    have hqx : q ≠ x := fun e => hxo (e ▸ hq)
    simp [Items.setEventtime, Function.update, hqx]
  refine ⟨s', _, _, hs', hshape', PTree.insert_heapBelow _ x o.1 o.2 hheap1,
    PTree.insert_searchTree _ x o.1 o.2 (PTree.erase_searchTree _ _ T c o hbst' ho) ?_, ?_⟩
  · intro q hq
    exact ((hmem q).mp hq).2
  · intro q
    rw [PTree.mem_insert, hmem]
    constructor
    · rintro (rfl | h)
      · exact hx
      · exact h.1
    · intro hq
      by_cases e : q = x
      · exact Or.inl e
      · exact Or.inr ⟨hq, fun h => e (hinj q hq x hx h)⟩

/-! ## More fuel changes no result -/

theorem Impl.split_mono (it : Items K) : ∀ (fuel : Nat) (s : Treap) (t : Option Nat) (key : K)
    (l r : Ref) (s' : Treap), Impl.split it fuel s t key l r = some s' →
      ∀ fuel', fuel ≤ fuel' → Impl.split it fuel' s t key l r = some s' := by
  intro fuel
  induction fuel with
  | zero => intro s t key l r s' h; simp [Impl.split] at h
  | succ fuel ih =>
    intro s t key l r s' h fuel' hle
    obtain ⟨n, rfl⟩ : ∃ n, fuel' = n + 1 := ⟨fuel' - 1, by omega⟩
    cases t with
    | none => simpa [Impl.split] using h
    | some t =>
      rw [Impl.split] at h ⊢
      split_ifs at h ⊢
      · obtain ⟨s1, h1, h2⟩ := Option.map_eq_some'.mp h
        rw [ih _ _ _ _ _ _ h1 n (by omega)]
        simpa using h2
      · obtain ⟨s1, h1, h2⟩ := Option.map_eq_some'.mp h
        rw [ih _ _ _ _ _ _ h1 n (by omega)]
        simpa using h2

theorem Impl.private_insert_mono (it : Items K) : ∀ (fuel : Nat) (s : Treap) (c : Rand) (t : Ref)
    (x : Nat) (o : Treap × Rand), Impl.insert it fuel s c t x = some o →
      ∀ fuel', fuel ≤ fuel' → Impl.insert it fuel' s c t x = some o := by
  intro fuel
  induction fuel with
  | zero => intro s c t x o h; simp [Impl.insert] at h
  | succ fuel ih =>
    intro s c t x o h fuel' hle
    obtain ⟨n, rfl⟩ : ∃ n, fuel' = n + 1 := ⟨fuel' - 1, by omega⟩
    rw [Impl.insert] at h ⊢
    cases hg : s.get t with
    | none => simpa [hg] using h
    | some p =>
      simp only [hg] at h ⊢
      split_ifs at h ⊢
      · obtain ⟨s1, h1, h2⟩ := Option.map_eq_some'.mp h
        rw [Impl.split_mono it _ _ _ _ _ _ _ h1 n (by omega)]
        simpa using h2
      all_goals exact ih _ _ _ _ _ h n (by omega)

omit [LinearOrder K] in
theorem Impl.merge_mono (it : Items K) : ∀ (fuel : Nat) (s : Treap) (c : Rand) (t : Ref)
    (l r : Option Nat) (o : Treap × Rand), Impl.merge it fuel s c t l r = some o →
      ∀ fuel', fuel ≤ fuel' → Impl.merge it fuel' s c t l r = some o := by
  intro fuel
  induction fuel with
  | zero => intro s c t l r o h; simp [Impl.merge] at h
  | succ fuel ih =>
    intro s c t l r o h fuel' hle
    obtain ⟨n, rfl⟩ : ∃ n, fuel' = n + 1 := ⟨fuel' - 1, by omega⟩
    cases l with
    | none => simpa [Impl.merge] using h
    | some l =>
      cases r with
      | none => simpa [Impl.merge] using h
      | some r =>
        rw [Impl.merge] at h ⊢
        split_ifs at h ⊢
        · obtain ⟨s1, h1, h2⟩ := Option.map_eq_some'.mp h
          rw [ih _ _ _ _ _ _ h1 n (by omega)]
          simpa using h2
        · obtain ⟨s1, h1, h2⟩ := Option.map_eq_some'.mp h
          rw [ih _ _ _ _ _ _ h1 n (by omega)]
          simpa using h2

theorem Impl.private_erase_mono (it : Items K) : ∀ (fuel : Nat) (s : Treap) (c : Rand) (t : Ref)
    (key : K) (o : Outcome), Impl.erase it fuel s c t key = some o →
      ∀ fuel', fuel ≤ fuel' → Impl.erase it fuel' s c t key = some o := by
  intro fuel
  induction fuel with
  | zero => intro s c t key o h; simp [Impl.erase] at h
  | succ fuel ih =>
    intro s c t key o h fuel' hle
    obtain ⟨n, rfl⟩ : ∃ n, fuel' = n + 1 := ⟨fuel' - 1, by omega⟩
    rw [Impl.erase] at h ⊢
    cases hg : s.get t with
    | none => simpa [hg] using h
    | some p =>
      simp only [hg] at h ⊢
      split_ifs at h ⊢
      · obtain ⟨s1, h1, h2⟩ := Option.map_eq_some'.mp h
        rw [Impl.merge_mono it _ _ _ _ _ _ _ h1 n (by omega)]
        simpa using h2
      all_goals exact ih _ _ _ _ _ h n (by omega)

theorem Impl.private_find_mono (it : Items K) : ∀ (fuel : Nat) (s : Treap) (t : Option Nat) (key : K)
    (depth : Int) (o : Option Nat), Impl.find it fuel s t key depth = some o →
      ∀ fuel', fuel ≤ fuel' → Impl.find it fuel' s t key depth = some o := by
  intro fuel
  induction fuel with
  | zero => intro s t key depth o h; simp [Impl.find] at h
  | succ fuel ih =>
    intro s t key depth o h fuel' hle
    obtain ⟨n, rfl⟩ : ∃ n, fuel' = n + 1 := ⟨fuel' - 1, by omega⟩
    cases t with
    | none => simpa [Impl.find] using h
    | some t =>
      rw [Impl.find] at h ⊢
      split_ifs at h ⊢
      · exact h
      · exact ih _ _ _ _ _ h n (by omega)
      · exact ih _ _ _ _ _ h n (by omega)

theorem Treap.find_mono (it : Items K) (fuel : Nat) (s : Treap) (key : K) (o : Option Nat)
    (h : Treap.find it fuel s key = some o) (fuel' : Nat) (hle : fuel ≤ fuel') :
    Treap.find it fuel' s key = some o := by
  simp only [Treap.find] at h ⊢
  split_ifs at h ⊢
  · exact h
  · exact Impl.private_find_mono it _ _ _ _ _ _ h fuel' hle

theorem Treap.insert_mono (it : Items K) (fuel : Nat) (s : Treap) (c : Rand) (node : Option Nat)
    (o : Outcome) (h : Treap.insert it fuel s c node = some o) (fuel' : Nat)
    (hle : fuel ≤ fuel') : Treap.insert it fuel' s c node = some o := by
  cases node with
  | none => simpa [Treap.insert] using h
  | some x =>
    simp only [Treap.insert] at h ⊢
    split_ifs at h ⊢
    · exact h
    · obtain ⟨s1, h1, h2⟩ := Option.map_eq_some'.mp h
      rw [Impl.private_insert_mono it _ _ _ _ _ _ h1 fuel' hle]
      simpa using h2

theorem Treap.erase_mono (it : Items K) (fuel : Nat) (s : Treap) (c : Rand) (key : K)
    (o : Outcome) (h : Treap.erase it fuel s c key = some o) (fuel' : Nat)
    (hle : fuel ≤ fuel') : Treap.erase it fuel' s c key = some o := by
  simp only [Treap.erase] at h ⊢
  split_ifs at h ⊢
  · exact h
  · exact Impl.private_erase_mono it _ _ _ _ _ _ h fuel' hle

theorem Treap.decrease_key_mono (it : Items K) (fuel : Nat) (s : Treap) (c : Rand) (x : Nat)
    (o : Outcome) (h : Treap.decrease_key it fuel s c (some x) = some o) (fuel' : Nat)
    (hle : fuel ≤ fuel') : Treap.decrease_key it fuel' s c (some x) = some o := by
  simp only [Treap.decrease_key, Treap.erase_node_some] at h ⊢
  cases he : Treap.erase it fuel s c (it.id x) with
  | none => simp [he] at h
  | some o1 =>
    rw [Treap.erase_mono it _ _ _ _ _ he fuel' hle]
    rw [he] at h
    cases o1 with
    | thrown e s1 c1 => exact h
    | done s1 c1 => exact Treap.insert_mono it _ _ _ _ _ h fuel' hle

/-! ## Every index the cache can reach keeps the invariants -/

theorem Linked.iff_mem {s : Treap} {T : PTree} (hs : Shape s T) (q : Nat) :
    Linked s q ↔ q ∈ T.ptrs := by
  constructor
  · rintro ⟨T', hs', hq⟩
    rw [hs.shape_unique hs']
    exact hq
  · intro hq
    exact ⟨T, hs, hq⟩

/-- Every reachable index links a tree with the heap and the search-tree
properties. -/
theorem Reachable.invariants {it : Items K} {s : Treap} (h : Reachable it s) :
    ∃ T, Shape s T ∧ HeapBelow it T ∧ SearchTree it T := by
  induction h with
  | new it l r => exact ⟨PTree.nil, ⟨rfl, List.nodup_nil⟩, trivial, trivial⟩
  | @insert it s fuel c x s' c' _ hpre hrun ih =>
    obtain ⟨T, hs, hheap, hbst⟩ := ih
    have hx : ∀ q ∈ T.ptrs, it.id q ≠ it.id x := fun q hq => hpre q ⟨T, hs, hq⟩
    obtain ⟨s2, hs2, hshape, _⟩ := Treap.insert_refines it x T (max fuel (T.size + 2)) s c hs
      (fun h => hx x h rfl) (by omega)
    rw [Treap.insert_mono it _ _ _ _ _ hrun _ (le_max_left _ _)] at hs2
    have e : s' = s2 := by injection (Option.some.inj hs2)
    subst e
    exact ⟨_, hshape, PTree.insert_heapBelow it x T c hheap,
      PTree.insert_searchTree it x T c hbst hx⟩
  | @erase it s fuel c key s' c' _ hpre hrun ih =>
    obtain ⟨T, hs, hheap, hbst⟩ := ih
    obtain ⟨q, hq, hqk⟩ := hpre
    obtain ⟨o, ho⟩ := PTree.erase_isSome it key T c hbst ⟨q, (Linked.iff_mem hs q).mp hq, hqk⟩
    obtain ⟨s2, hs2, hshape, _⟩ := Treap.erase_refines_some it key T (max fuel (T.size + 1)) s c
      o hs ho (by omega)
    rw [Treap.erase_mono it _ _ _ _ _ hrun _ (le_max_left _ _)] at hs2
    have e : s' = s2 := by injection (Option.some.inj hs2)
    subst e
    exact ⟨_, hshape, PTree.erase_heapBelow it key T c o hheap ho,
      PTree.erase_searchTree it key T c o hbst ho⟩
  | @erase_node it s fuel c x s' c' _ hpre hrun ih =>
    obtain ⟨T, hs, hheap, hbst⟩ := ih
    rw [Treap.erase_node_some] at hrun
    obtain ⟨o, ho⟩ := PTree.erase_isSome it (it.id x) T c hbst
      ⟨x, (Linked.iff_mem hs x).mp hpre, rfl⟩
    obtain ⟨s2, hs2, hshape, _⟩ := Treap.erase_refines_some it (it.id x) T
      (max fuel (T.size + 1)) s c o hs ho (by omega)
    rw [Treap.erase_mono it _ _ _ _ _ hrun _ (le_max_left _ _)] at hs2
    have e : s' = s2 := by injection (Option.some.inj hs2)
    subst e
    exact ⟨_, hshape, PTree.erase_heapBelow it _ T c o hheap ho,
      PTree.erase_searchTree it _ T c o hbst ho⟩
  | @decrease_key it s fuel c x p s' c' _ hpre hrun ih =>
    obtain ⟨T, hs, hheap, hbst⟩ := ih
    obtain ⟨s2, c2, T2, hs2, hshape, hheap2, hbst2, _⟩ := Treap.decrease_key_invariants it s T x
      p c (max fuel (T.size + 1)) hs hheap hbst ((Linked.iff_mem hs x).mp hpre) (by omega)
    rw [Treap.decrease_key_mono _ _ _ _ _ _ hrun _ (le_max_left _ _)] at hs2
    have e : s' = s2 := by injection (Option.some.inj hs2)
    subst e
    exact ⟨T2, hshape, hheap2, hbst2⟩
  | @outside it it' s _ hpre ih =>
    obtain ⟨T, hs, hheap, hbst⟩ := ih
    exact ⟨T, hs, hheap.congr_eventtime fun q hq => (hpre q ⟨T, hs, hq⟩).2,
      hbst.congr_id fun q hq => (hpre q ⟨T, hs, hq⟩).1⟩

/-! ## The claims -/

/-- C1: `insert` preserves both invariants.  For every index that links a tree
with the heap property (the priority of every item is at most that of each of
its children) and the search-tree property, for every item `x` whose identifier
is not that of a linked item, and for every random stream, `insert(x)` ends
normally and the index it leaves again links a tree with the heap property and
the search-tree property. -/
theorem insert_preserves_invariants (it : Items K) (s : Treap) (T : PTree) (x : Nat) (c : Rand)
    (fuel : Nat) (hs : Shape s T) (hheap : HeapOrdered it T) (hbst : SearchTree it T)
    (hx : ∀ q ∈ T.ptrs, it.id q ≠ it.id x) (hfuel : T.size + 1 < fuel) :
    ∃ s' c' T', Treap.insert it fuel s c (some x) = some (Outcome.done s' c') ∧ Shape s' T' ∧
      HeapOrdered it T' ∧ SearchTree it T' := by
  have hxT : x ∉ T.ptrs := fun h => hx x h rfl
  obtain ⟨s', hs', hshape, _⟩ := Treap.insert_refines it x T fuel s c hs hxT hfuel
  exact ⟨s', _, _, hs', hshape,
    (heapOrdered_iff_heapBelow it _).mpr
      (PTree.insert_heapBelow it x T c ((heapOrdered_iff_heapBelow it T).mp hheap)),
    PTree.insert_searchTree it x T c hbst hx⟩

/-- Witness of C1: the item at address `4` inserted in the index of `A`, `B`, `C`. -/
theorem insert_preserves_invariants_witness :
    ∃ s' c' T', Treap.insert exItems 5 exTreap exRand (some 4) = some (Outcome.done s' c') ∧
      Shape s' T' ∧ HeapOrdered exItems T' ∧ SearchTree exItems T' :=
  insert_preserves_invariants exItems exTreap exTree 4 exRand 5 (by decide) (by decide)
    (by decide) (by decide) (by decide)

/-- C2: `erase` preserves both invariants.  For every index that links a tree
with the heap property and the search-tree property, for every key that is the
identifier of a linked item, and for every random stream, `erase(key)` ends
normally and the index it leaves again links a tree with the heap property and
the search-tree property. -/
theorem erase_preserves_invariants (it : Items K) (s : Treap) (T : PTree) (key : K) (c : Rand)
    (fuel : Nat) (hs : Shape s T) (hheap : HeapOrdered it T) (hbst : SearchTree it T)
    (hkey : ∃ p ∈ T.ptrs, it.id p = key) (hfuel : T.size < fuel) :
    ∃ s' c' T', Treap.erase it fuel s c key = some (Outcome.done s' c') ∧ Shape s' T' ∧
      HeapOrdered it T' ∧ SearchTree it T' := by
  obtain ⟨o, ho⟩ := PTree.erase_isSome it key T c hbst hkey
  obtain ⟨s', hs', hshape, _⟩ := Treap.erase_refines_some it key T fuel s c o hs ho hfuel
  exact ⟨s', _, _, hs', hshape,
    (heapOrdered_iff_heapBelow it _).mpr
      (PTree.erase_heapBelow it key T c o ((heapOrdered_iff_heapBelow it T).mp hheap) ho),
    PTree.erase_searchTree it key T c o hbst ho⟩

/-- Witness of C2: the root `B` erased from the index of `A`, `B`, `C`. -/
theorem erase_preserves_invariants_witness :
    ∃ s' c' T', Treap.erase exItems 4 exTreap exRand 2 = some (Outcome.done s' c') ∧
      Shape s' T' ∧ HeapOrdered exItems T' ∧ SearchTree exItems T' :=
  erase_preserves_invariants exItems exTreap exTree 2 exRand 4 (by decide) (by decide)
    (by decide) (by decide) (by decide)

/-- C3: `decrease_key` repositions an item after its priority changed.  For
every index that linked a tree with the heap and search-tree properties, every
linked item `x` and every new event time `p` given to `x` (all other items
unchanged), `decrease_key(x)` ends normally and leaves an index that links a
tree with the heap property and the search-tree property for the event times as
they now are, made of the same items as before, for every random stream. -/
theorem decrease_key_repositions (it : Items K) (s : Treap) (T : PTree) (x p : Nat) (c : Rand)
    (fuel : Nat) (hs : Shape s T) (hheap : HeapOrdered it T) (hbst : SearchTree it T)
    (hx : x ∈ T.ptrs) (hfuel : T.size < fuel) :
    ∃ s' c' T', Treap.decrease_key (it.setEventtime x p) fuel s c (some x) =
        some (Outcome.done s' c') ∧ Shape s' T' ∧ HeapOrdered (it.setEventtime x p) T' ∧
      SearchTree (it.setEventtime x p) T' ∧ ∀ q, q ∈ T'.ptrs ↔ q ∈ T.ptrs := by
  obtain ⟨s', c', T', h1, h2, h3, h4, h5⟩ := Treap.decrease_key_invariants it s T x p c fuel hs
    ((heapOrdered_iff_heapBelow it T).mp hheap) hbst hx hfuel
  exact ⟨s', c', T', h1, h2, (heapOrdered_iff_heapBelow _ T').mpr h3, h4, h5⟩

/-- Witness of C3: the event time of the root `B` of the index of `A`, `B`, `C`
is raised from `3` to `10`. -/
theorem decrease_key_repositions_witness :
    ∃ s' c' T', Treap.decrease_key (exItems.setEventtime 2 10) 4 exTreap exRand (some 2) =
        some (Outcome.done s' c') ∧ Shape s' T' ∧ HeapOrdered (exItems.setEventtime 2 10) T' ∧
      SearchTree (exItems.setEventtime 2 10) T' ∧ ∀ q, q ∈ T'.ptrs ↔ q ∈ exTree.ptrs :=
  decrease_key_repositions exItems exTreap exTree 2 10 exRand 4 (by decide) (by decide)
    (by decide) (by decide) (by decide)

/-- C4: top correctness.  For every non-empty index reached from the empty
index by `insert`, `erase` and `decrease_key` calls that respect their
preconditions, whatever the random streams, `top()` is a linked item and its
event time is at most the event time of every linked item. -/
theorem top_minimal (it : Items K) (s : Treap) (h : Reachable it s) (hne : s.empty = false) :
    ∃ r, s.top = some r ∧ Linked s r ∧ ∀ q, Linked s q → it.eventtime r ≤ it.eventtime q := by
  obtain ⟨T, hs, hheap, _⟩ := h.invariants
  cases hr : s.root with
  | none => simp [Treap.empty, hr] at hne
  | some r =>
    have hroot : T.rootPtr = some r := by rw [← hs.root_eq, hr]
    refine ⟨r, hr, ⟨T, hs, PTree.rootPtr_mem hroot⟩, fun q hq => ?_⟩
    exact hheap.root_le hroot q ((Linked.iff_mem hs q).mp hq)

/-- The index after `insert(A); insert(B)` is one the cache can reach. -/
theorem exReached2_reachable : Reachable exItems exReached2 := by
  have h0 : Shape Treap.new PTree.nil := by decide
  have h1 : Shape exReached1 (PTree.node PTree.nil 1 PTree.nil) := by decide
  have r1 : Reachable exItems exReached1 := by
    refine Reachable.insert 3 exRand 1 exReached1 exRand
      (Reachable.new exItems (fun _ => none) (fun _ => none)) ?_ rfl
    intro q hq
    exact absurd ((Linked.iff_mem h0 q).mp hq) (by simp [PTree.ptrs])
  refine Reachable.insert 3 exRand 2 exReached2 exRand r1 ?_ rfl
  intro q hq
  have hq1 : q = 1 := by simpa [PTree.ptrs] using (Linked.iff_mem h1 q).mp hq
  subst hq1
  decide

/-- Witness of C4: the index after `insert(A); insert(B)`. -/
theorem top_minimal_witness :
    ∃ r, exReached2.top = some r ∧ Linked exReached2 r ∧
      ∀ q, Linked exReached2 q → exItems.eventtime r ≤ exItems.eventtime q :=
  top_minimal exItems exReached2 exReached2_reachable (by decide)

/-- C5: find completeness.  For every index that links a search tree (so that
no two linked items share an identifier) and every key, `find(key)` returns the
linked item whose identifier is `key` when there is one, and `NULL` when there
is none; in particular `find(x.identifier())` returns `x` after `insert(x)`,
and `find(k)` returns `NULL` after `erase(k)`. -/
theorem find_complete (it : Items K) (s : Treap) (T : PTree) (fuel : Nat) (hs : Shape s T)
    (hbst : SearchTree it T) (hfuel : T.size + 1 < fuel) :
    (∀ key p, p ∈ T.ptrs → it.id p = key → Treap.find it fuel s key = some (some p)) ∧
      (∀ key, (∀ p ∈ T.ptrs, it.id p ≠ key) → Treap.find it fuel s key = some none) ∧
      (∀ x c, (∀ q ∈ T.ptrs, it.id q ≠ it.id x) →
        ∃ s' c', Treap.insert it fuel s c (some x) = some (Outcome.done s' c') ∧
          Treap.find it fuel s' (it.id x) = some (some x)) ∧
      (∀ key c, (∃ p ∈ T.ptrs, it.id p = key) →
        ∃ s' c', Treap.erase it fuel s c key = some (Outcome.done s' c') ∧
          Treap.find it fuel s' key = some none) := by
  refine ⟨?_, ?_, ?_, ?_⟩
  · intro key p hp hk
    rw [Treap.find_refines it key T fuel s hs (by omega), ← hk, PTree.find_mem it T p hbst hp]
  · intro key h
    rw [Treap.find_refines it key T fuel s hs (by omega), PTree.find_eq_none it key T h]
  · intro x c hx
    obtain ⟨s', hs', hshape, _⟩ := Treap.insert_refines it x T fuel s c hs
      (fun h => hx x h rfl) hfuel
    have hsize : (T.insert it x c).1.size = T.size + 1 := by
      rw [PTree.size_eq_length, PTree.size_eq_length, (PTree.insert_perm it x T c).length_eq]
      rfl
    refine ⟨s', _, hs', ?_⟩
    rw [Treap.find_refines it (it.id x) _ fuel s' hshape (by omega),
      PTree.find_mem it _ x (PTree.insert_searchTree it x T c hbst hx)
        (PTree.mem_insert.mpr (Or.inl rfl))]
  · intro key c hkey
    obtain ⟨o, ho⟩ := PTree.erase_isSome it key T c hbst hkey
    obtain ⟨s', hs', hshape, _⟩ := Treap.erase_refines_some it key T fuel s c o hs ho (by omega)
    have hsize : o.1.size ≤ T.size := by
      obtain ⟨xs, p, ys, _, h1, h2⟩ := PTree.erase_ptrs it key T c o ho
      rw [PTree.size_eq_length, PTree.size_eq_length, h1, h2]
      simp
    refine ⟨s', _, hs', ?_⟩
    rw [Treap.find_refines it key _ fuel s' hshape (by omega), PTree.find_eq_none]
    intro p hp
    exact ((PTree.mem_erase_iff hbst ho p).mp hp).2

/-- Witness of C5: the index of `A`, `B`, `C`. -/
theorem find_complete_witness :
    (∀ key p, p ∈ exTree.ptrs → exItems.id p = key →
        Treap.find exItems 5 exTreap key = some (some p)) ∧
      (∀ key, (∀ p ∈ exTree.ptrs, exItems.id p ≠ key) →
        Treap.find exItems 5 exTreap key = some none) ∧
      (∀ x c, (∀ q ∈ exTree.ptrs, exItems.id q ≠ exItems.id x) →
        ∃ s' c', Treap.insert exItems 5 exTreap c (some x) = some (Outcome.done s' c') ∧
          Treap.find exItems 5 s' (exItems.id x) = some (some x)) ∧
      (∀ key c, (∃ p ∈ exTree.ptrs, exItems.id p = key) →
        ∃ s' c', Treap.erase exItems 5 exTreap c key = some (Outcome.done s' c') ∧
          Treap.find exItems 5 s' key = some none) :=
  find_complete exItems exTreap exTree 5 (by decide) (by decide) (by decide)

/-- C6: `insert` links exactly the inserted item and loses nothing.  For every
index, every item `x` whose identifier is not that of a linked item, and every
random stream, `insert(x)` ends normally and the linked items afterwards are
the items linked before together with `x`, each of them linked once. -/
theorem insert_links_exactly (it : Items K) (s : Treap) (T : PTree) (x : Nat) (c : Rand)
    (fuel : Nat) (hs : Shape s T) (hx : ∀ q ∈ T.ptrs, it.id q ≠ it.id x)
    (hfuel : T.size + 1 < fuel) :
    ∃ s' c' T', Treap.insert it fuel s c (some x) = some (Outcome.done s' c') ∧ Shape s' T' ∧
      T'.ptrs.Perm (x :: T.ptrs) ∧ T'.ptrs.Nodup := by
  obtain ⟨s', hs', hshape, _⟩ := Treap.insert_refines it x T fuel s c hs
    (fun h => hx x h rfl) hfuel
  exact ⟨s', _, _, hs', hshape, PTree.insert_perm it x T c, hshape.2⟩

/-- Witness of C6: the item at address `4` inserted in the index of `A`, `B`, `C`. -/
theorem insert_links_exactly_witness :
    ∃ s' c' T', Treap.insert exItems 5 exTreap exRand (some 4) = some (Outcome.done s' c') ∧
      Shape s' T' ∧ T'.ptrs.Perm (4 :: exTree.ptrs) ∧ T'.ptrs.Nodup :=
  insert_links_exactly exItems exTreap exTree 4 exRand 5 (by decide) (by decide) (by decide)

/-- C7: `erase` unlinks exactly the item with the given key.  For every index
that links a search tree, every key of a linked item, and every random stream,
`erase(key)` ends normally and the linked items afterwards are the items linked
before other than the one whose identifier is `key`. -/
theorem erase_unlinks_exactly (it : Items K) (s : Treap) (T : PTree) (key : K) (c : Rand)
    (fuel : Nat) (hs : Shape s T) (hbst : SearchTree it T)
    (hkey : ∃ p ∈ T.ptrs, it.id p = key) (hfuel : T.size < fuel) :
    ∃ s' c' T', Treap.erase it fuel s c key = some (Outcome.done s' c') ∧ Shape s' T' ∧
      ∀ q, q ∈ T'.ptrs ↔ q ∈ T.ptrs ∧ it.id q ≠ key := by
  obtain ⟨o, ho⟩ := PTree.erase_isSome it key T c hbst hkey
  obtain ⟨s', hs', hshape, _⟩ := Treap.erase_refines_some it key T fuel s c o hs ho hfuel
  exact ⟨s', _, _, hs', hshape, PTree.mem_erase_iff hbst ho⟩

/-- Witness of C7: the root `B` erased from the index of `A`, `B`, `C`. -/
theorem erase_unlinks_exactly_witness :
    ∃ s' c' T', Treap.erase exItems 4 exTreap exRand 2 = some (Outcome.done s' c') ∧
      Shape s' T' ∧ ∀ q, q ∈ T'.ptrs ↔ q ∈ exTree.ptrs ∧ exItems.id q ≠ 2 :=
  erase_unlinks_exactly exItems exTreap exTree 2 exRand 4 (by decide) (by decide) (by decide)
    (by decide)

/-- C8: round trip.  For every index that links a search tree, every item `x`
whose identifier is not that of a linked item, and every random stream,
`insert(x)` and then `erase(x.identifier())` both end normally and leave an
index that links the same items as before the `insert`. -/
theorem insert_erase_round_trip (it : Items K) (s : Treap) (T : PTree) (x : Nat) (c : Rand)
    (fuel : Nat) (hs : Shape s T) (hbst : SearchTree it T)
    (hx : ∀ q ∈ T.ptrs, it.id q ≠ it.id x) (hfuel : T.size + 1 < fuel) :
    ∃ s1 c1 s2 c2 T2, Treap.insert it fuel s c (some x) = some (Outcome.done s1 c1) ∧
      Treap.erase it fuel s1 c1 (it.id x) = some (Outcome.done s2 c2) ∧ Shape s2 T2 ∧
      ∀ q, q ∈ T2.ptrs ↔ q ∈ T.ptrs := by
  obtain ⟨s1, hs1, hshape1, _⟩ := Treap.insert_refines it x T fuel s c hs
    (fun h => hx x h rfl) hfuel
  have hbst1 := PTree.insert_searchTree it x T c hbst hx
  have hsize : (T.insert it x c).1.size = T.size + 1 := by
    rw [PTree.size_eq_length, PTree.size_eq_length, (PTree.insert_perm it x T c).length_eq]
    rfl
  obtain ⟨o, ho⟩ := PTree.erase_isSome it (it.id x) _ (T.insert it x c).2 hbst1
    ⟨x, PTree.mem_insert.mpr (Or.inl rfl), rfl⟩
  obtain ⟨s2, hs2, hshape2, _⟩ := Treap.erase_refines_some it (it.id x) _ fuel s1 _ o hshape1 ho
    (by omega)
  refine ⟨s1, _, s2, _, _, hs1, hs2, hshape2, fun q => ?_⟩
  rw [PTree.mem_erase_iff hbst1 ho, PTree.mem_insert]
  constructor
  · rintro ⟨rfl | h, hne⟩
    · exact absurd rfl hne
    · exact h
  · intro h
    exact ⟨Or.inr h, hx q h⟩

/-- Witness of C8: the item at address `4` inserted in the index of `A`, `B`,
`C` and erased again. -/
theorem insert_erase_round_trip_witness :
    ∃ s1 c1 s2 c2 T2, Treap.insert exItems 5 exTreap exRand (some 4) =
        some (Outcome.done s1 c1) ∧
      Treap.erase exItems 5 s1 c1 (exItems.id 4) = some (Outcome.done s2 c2) ∧ Shape s2 T2 ∧
      ∀ q, q ∈ T2.ptrs ↔ q ∈ exTree.ptrs :=
  insert_erase_round_trip exItems exTreap exTree 4 exRand 5 (by decide) (by decide) (by decide)
    (by decide)

/-- C9: `erase` fails exactly when the key is not linked, and failure changes
nothing.  For every index that links a search tree and every key, `erase(key)`
throws "erase: element does not exist" if and only if no linked item has the
identifier `key`; and whenever it throws, the error is that one and `root` and
the fields of all items are as they were before the call. -/
theorem erase_throws_iff_absent (it : Items K) (s : Treap) (T : PTree) (key : K) (c : Rand)
    (fuel : Nat) (hs : Shape s T) (hbst : SearchTree it T) (hfuel : T.size < fuel) :
    ((∃ s' c', Treap.erase it fuel s c key =
          some (Outcome.thrown logic_error.erase_missing s' c')) ↔
        ∀ p ∈ T.ptrs, it.id p ≠ key) ∧
      ∀ e s' c', Treap.erase it fuel s c key = some (Outcome.thrown e s' c') →
        e = logic_error.erase_missing ∧ s' = s ∧ c' = c := by
  cases ho : T.erase it key c with
  | none =>
    have hrun := Treap.erase_refines_none it key T fuel s c hs ho hfuel
    have habs : ∀ p ∈ T.ptrs, it.id p ≠ key := by
      intro p hp hk
      obtain ⟨o, ho'⟩ := PTree.erase_isSome it key T c hbst ⟨p, hp, hk⟩
      rw [ho] at ho'
      exact Option.noConfusion ho'
    refine ⟨⟨fun _ => habs, fun _ => ⟨s, c, hrun⟩⟩, ?_⟩
    intro e s' c' h
    rw [hrun] at h
    injection (Option.some.inj h) with h1 h2 h3
    exact ⟨h1.symm, h2.symm, h3.symm⟩
  | some o =>
    obtain ⟨s1, hrun, _, _⟩ := Treap.erase_refines_some it key T fuel s c o hs ho hfuel
    obtain ⟨xs, p, ys, hp, h1, _⟩ := PTree.erase_ptrs it key T c o ho
    refine ⟨⟨?_, fun h => absurd hp (h p (by simp [h1]))⟩, ?_⟩
    · rintro ⟨s', c', h⟩
      rw [hrun] at h
      exact Outcome.noConfusion (Option.some.inj h)
    · intro e s' c' h
      rw [hrun] at h
      exact Outcome.noConfusion (Option.some.inj h)

/-- Witness of C9: the index of `A`, `B`, `C` and the key `7`, which is not linked. -/
theorem erase_throws_iff_absent_witness :
    ((∃ s' c', Treap.erase exItems 4 exTreap exRand 7 =
          some (Outcome.thrown logic_error.erase_missing s' c')) ↔
        ∀ p ∈ exTree.ptrs, exItems.id p ≠ 7) ∧
      ∀ e s' c', Treap.erase exItems 4 exTreap exRand 7 = some (Outcome.thrown e s' c') →
        e = logic_error.erase_missing ∧ s' = exTreap ∧ c' = exRand :=
  erase_throws_iff_absent exItems exTreap exTree 7 exRand 4 (by decide) (by decide) (by decide)

/-- The scenario of C10 run with a recursion bound of `5`. -/
theorem scenario_five (c : Rand) (l r : Nat → Option Nat) :
    ∃ s1 c1 s2 c2 s3 c3 s4 c4 s5 c5,
      Treap.insert scItems 5 { root := none, l := l, r := r } c (some 10) =
        some (Outcome.done s1 c1) ∧
      Treap.insert scItems 5 s1 c1 (some 20) = some (Outcome.done s2 c2) ∧
      Treap.insert scItems 5 s2 c2 (some 30) = some (Outcome.done s3 c3) ∧
      s3.top.map scItems.id = some 2 ∧
      Treap.find scItems 5 s3 1 = some (some 10) ∧
      Treap.erase scItems 5 s3 c3 2 = some (Outcome.done s4 c4) ∧
      s4.top.map scItems.id = some 1 ∧
      Treap.decrease_key (scItems.setEventtime 10 10) 5 s4 c4 (some 10) =
        some (Outcome.done s5 c5) ∧
      s5.top.map (scItems.setEventtime 10 10).id = some 3 :=
  ⟨_, _, _, _, _, _, _, _, _, _, rfl, rfl, rfl, rfl, rfl, rfl, rfl, rfl, rfl⟩

/-- C10: the concrete scenario, for every random stream, every recursion bound
from `5` on and whatever the links of the items were before.  Starting from an
empty index, `insert` `A` (identifier 1, event time 5), `B` (2, 3) and `C`
(3, 8) in that order; then `top()` has the identifier 2 and `find(1)` returns
`A`; after `erase(2)`, `top()` has the identifier 1; after the event time of `A`
is set to 10 and `decrease_key(A)` is called, `top()` has the identifier 3. -/
theorem scenario (c : Rand) (l r : Nat → Option Nat) (n : Nat) :
    ∃ s1 c1 s2 c2 s3 c3 s4 c4 s5 c5,
      Treap.insert scItems (n + 5) { root := none, l := l, r := r } c (some 10) =
        some (Outcome.done s1 c1) ∧
      Treap.insert scItems (n + 5) s1 c1 (some 20) = some (Outcome.done s2 c2) ∧
      Treap.insert scItems (n + 5) s2 c2 (some 30) = some (Outcome.done s3 c3) ∧
      s3.top.map scItems.id = some 2 ∧
      Treap.find scItems (n + 5) s3 1 = some (some 10) ∧
      Treap.erase scItems (n + 5) s3 c3 2 = some (Outcome.done s4 c4) ∧
      s4.top.map scItems.id = some 1 ∧
      Treap.decrease_key (scItems.setEventtime 10 10) (n + 5) s4 c4 (some 10) =
        some (Outcome.done s5 c5) ∧
      s5.top.map (scItems.setEventtime 10 10).id = some 3 := by
  obtain ⟨s1, c1, s2, c2, s3, c3, s4, c4, s5, c5, h1, h2, h3, h4, h5, h6, h7, h8, h9⟩ :=
    scenario_five c l r
  have hle : 5 ≤ n + 5 := by omega
  exact ⟨s1, c1, s2, c2, s3, c3, s4, c4, s5, c5, Treap.insert_mono _ _ _ _ _ _ h1 _ hle,
    Treap.insert_mono _ _ _ _ _ _ h2 _ hle, Treap.insert_mono _ _ _ _ _ _ h3 _ hle, h4,
    Treap.find_mono _ _ _ _ _ h5 _ hle, Treap.erase_mono _ _ _ _ _ _ h6 _ hle, h7,
    Treap.decrease_key_mono _ _ _ _ _ _ h8 _ hle, h9⟩

/-- No item is linked in an index whose `root` is `NULL`, and only there. -/
theorem Shape.empty_iff {s : Treap} {T : PTree} (hs : Shape s T) :
    s.empty = true ↔ ∀ q, ¬ Linked s q := by
  constructor
  · intro he q hq
    have hq' := (Linked.iff_mem hs q).mp hq
    cases T with
    | nil => simp [PTree.ptrs] at hq'
    | node L p R =>
      have : s.root = some p := hs.1.1
      simp [Treap.empty, this] at he
  · intro h
    cases T with
    | nil =>
      have : s.root = none := hs.1
      simp [Treap.empty, this]
    | node L p R => exact absurd ⟨_, hs, by simp [PTree.ptrs]⟩ (h p)

/-- C11: the empty-index boundary.  On an index whose `root` is `NULL`,
whatever the links of the items, `empty()` is true, `top()` returns `NULL`,
`find(k)` returns `NULL` for every key, and `erase(k)` for every key and
`erase(item)` for every item, `NULL` included, throw "erase: element does not
exist" and leave the index as it was; and on every index, `empty()` is true
exactly when no item is linked. -/
theorem empty_index_boundary (it : Items K) (l r : Nat → Option Nat) (c : Rand) (fuel : Nat)
    (s : Treap) (T : PTree) (hs : Shape s T) :
    (Treap.empty { root := none, l := l, r := r } = true ∧
      Treap.top { root := none, l := l, r := r } = none ∧
      (∀ k : K, Treap.find it fuel { root := none, l := l, r := r } k = some none) ∧
      (∀ k : K, Treap.erase it fuel { root := none, l := l, r := r } c k =
        some (Outcome.thrown logic_error.erase_missing { root := none, l := l, r := r } c)) ∧
      (∀ node, Treap.erase_node it fuel { root := none, l := l, r := r } c node =
        some (Outcome.thrown logic_error.erase_missing { root := none, l := l, r := r } c)) ∧
      logic_error.erase_missing.what = "erase: element does not exist") ∧
      (s.empty = true ↔ ∀ q, ¬ Linked s q) :=
  ⟨⟨rfl, rfl, fun _ => rfl, fun _ => rfl, fun _ => rfl, rfl⟩, hs.empty_iff⟩

/-- Witness of C11: a new index, and the index of `A`, `B`, `C` for the last part. -/
theorem empty_index_boundary_witness :
    (Treap.empty Treap.new = true ∧ Treap.top Treap.new = none ∧
      (∀ k : Nat, Treap.find exItems 0 Treap.new k = some none) ∧
      (∀ k : Nat, Treap.erase exItems 0 Treap.new exRand k =
        some (Outcome.thrown logic_error.erase_missing Treap.new exRand)) ∧
      (∀ node, Treap.erase_node exItems 0 Treap.new exRand node =
        some (Outcome.thrown logic_error.erase_missing Treap.new exRand)) ∧
      logic_error.erase_missing.what = "erase: element does not exist") ∧
      (exTreap.empty = true ↔ ∀ q, ¬ Linked exTreap q) :=
  empty_index_boundary exItems (fun _ => none) (fun _ => none) exRand 0 exTreap exTree
    (by decide)

/-- The private `erase` throws nothing but "erase: element does not exist", and
throws it on the state it was called on. -/
theorem Impl.private_erase_thrown (it : Items K) : ∀ (fuel : Nat) (s : Treap) (c : Rand)
    (t : Ref) (key : K) (e : logic_error) (s1 : Treap) (c1 : Rand),
    Impl.erase it fuel s c t key = some (Outcome.thrown e s1 c1) →
      e = logic_error.erase_missing ∧ s1 = s ∧ c1 = c := by
  intro fuel
  induction fuel with
  | zero => intro s c t key e s1 c1 h; simp [Impl.erase] at h
  | succ fuel ih =>
    intro s c t key e s1 c1 h
    rw [Impl.erase] at h
    cases hg : s.get t with
    | none =>
      simp only [hg] at h
      injection (Option.some.inj h) with h1 h2 h3
      exact ⟨h1.symm, h2.symm, h3.symm⟩
    | some p =>
      simp only [hg] at h
      split_ifs at h
      · obtain ⟨o, _, h2⟩ := Option.map_eq_some'.mp h
        exact Outcome.noConfusion h2
      all_goals exact ih _ _ _ _ _ _ _ h

/-- The public `erase(node)` throws on the state it was called on. -/
theorem Treap.erase_node_thrown (it : Items K) (fuel : Nat) (s : Treap) (c : Rand)
    (node : Option Nat) (e : logic_error) (s1 : Treap) (c1 : Rand)
    (h : Treap.erase_node it fuel s c node = some (Outcome.thrown e s1 c1)) :
    s1 = s ∧ c1 = c := by
  unfold Treap.erase_node at h
  split_ifs at h with he
  · injection (Option.some.inj h) with h1 h2 h3
    exact ⟨h2.symm, h3.symm⟩
  · cases node with
    | none =>
      simp only [getKey] at h
      injection (Option.some.inj h) with h1 h2 h3
      exact ⟨h2.symm, h3.symm⟩
    | some x =>
      simp only [getKey, Treap.erase, he] at h
      exact (Impl.private_erase_thrown it _ _ _ _ _ _ _ _ h).2

/-- C12: `decrease_key` equivalence.  For every index, every item (`NULL`
included), every random stream and every recursion bound, `decrease_key(x)`
ends exactly as `erase(x)` followed by `insert(x)` on the same stream does:
with the same index and the same stream left, or with the same error thrown
on the same state; and when `erase(x)` throws, `decrease_key(x)` throws that
error on the state `erase(x)` threw it on: no `insert` is performed. -/
theorem decrease_key_is_erase_then_insert (it : Items K) (fuel : Nat) (s : Treap) (c : Rand)
    (node : Option Nat) :
    Treap.decrease_key it fuel s c node = erase_then_insert it fuel s c node ∧
      ∀ e s1 c1, Treap.erase_node it fuel s c node = some (Outcome.thrown e s1 c1) →
        Treap.decrease_key it fuel s c node = some (Outcome.thrown e s1 c1) ∧ s1 = s ∧
          c1 = c := by
  constructor
  · unfold Treap.decrease_key erase_then_insert
    cases Treap.erase_node it fuel s c node with
    | none => rfl
    | some o => cases o <;> rfl
  · intro e s1 c1 h
    exact ⟨by unfold Treap.decrease_key; rw [h], Treap.erase_node_thrown it fuel s c node e s1 c1 h⟩

/-- C13: `insert` rejects an absent item without touching the index.  For
every index, `insert(NULL)` throws "insert: can't insert NULL" and `root` and
the links of all items are as before the call; `insert` of an item that is not
`NULL` throws nothing. -/
theorem insert_null_rejected (it : Items K) (fuel : Nat) (s : Treap) (c : Rand) :
    Treap.insert it fuel s c none = some (Outcome.thrown logic_error.insert_null s c) ∧
      logic_error.insert_null.what = "insert: can't insert NULL" ∧
      ∀ x e s' c', Treap.insert it fuel s c (some x) ≠ some (Outcome.thrown e s' c') := by
  refine ⟨rfl, rfl, ?_⟩
  intro x e s' c' h
  simp only [Treap.insert] at h
  split_ifs at h
  · exact Outcome.noConfusion (Option.some.inj h)
  · obtain ⟨o, _, h2⟩ := Option.map_eq_some'.mp h
    exact Outcome.noConfusion h2

/-- Clearing the two links of an item makes the values they held irrelevant. -/
theorem Treap.clear_links (s : Treap) (x : Nat) (a b : Option Nat) :
    (((s.set (Ref.l x) a).set (Ref.r x) b).set (Ref.l x) none).set (Ref.r x) none =
      (s.set (Ref.l x) none).set (Ref.r x) none := by
  simp [Treap.set, Function.update_idem]

/-- C15: `insert` discards the prior linkage of the item.  For every index,
every item that is not `NULL`, every random stream and every recursion bound,
`insert(item)` ends in the same way, with the same index, whatever the `l` and
`r` links of the item hold when it is called: as if both held `NULL`.  And on an
index whose `root` is `NULL` it makes the item the root, with both its links
`NULL` and the links of all other items as they were. -/
theorem insert_discards_links (it : Items K) (fuel : Nat) (s : Treap) (c : Rand) (x : Nat)
    (a b : Option Nat) (l r : Nat → Option Nat) :
    Treap.insert it fuel ((s.set (Ref.l x) a).set (Ref.r x) b) c (some x) =
        Treap.insert it fuel ((s.set (Ref.l x) none).set (Ref.r x) none) c (some x) ∧
      ∃ s', Treap.insert it fuel { root := none, l := l, r := r } c (some x) =
          some (Outcome.done s' c) ∧
        s'.root = some x ∧ s'.l x = none ∧ s'.r x = none ∧
        ∀ q, q ≠ x → s'.l q = l q ∧ s'.r q = r q := by
  refine ⟨?_, ?_⟩
  · simp only [Treap.insert, Treap.clear_links]
  · refine ⟨_, rfl, rfl, ?_, ?_, ?_⟩
    · simp [Treap.set]
    · simp [Treap.set]
    · intro q hq
      simp [Treap.set, Function.update, hq]

/-- When the private `erase` leaves the root of a tree in the tree, it leaves it
at the root. -/
theorem PTree.erase_rootPtr {it : Items K} {key : K} {T : PTree} {c : Rand}
    {o : PTree × Rand} (hnd : T.ptrs.Nodup) (ho : T.erase it key c = some o) (q : Nat)
    (hq : T.rootPtr = some q) (hqo : q ∈ o.1.ptrs) : o.1.rootPtr = some q := by
  cases T with
  | nil => simp [PTree.rootPtr] at hq
  | node L p R =>
    simp only [PTree.rootPtr, Option.some.injEq] at hq
    subst hq
    rw [PTree.erase] at ho
    split_ifs at ho
    · rw [← Option.some.inj ho, PTree.merge_ptrs] at hqo
      have hnd' : (L.ptrs ++ p :: R.ptrs).Nodup := hnd
      exact absurd hqo (List.nodup_cons.mp (hnd'.perm List.perm_middle)).1
    · obtain ⟨o', _, h2⟩ := Option.map_eq_some'.mp ho
      rw [← h2]
      rfl
    · obtain ⟨o', _, h2⟩ := Option.map_eq_some'.mp ho
      rw [← h2]
      rfl

/-- What a normal end of the public `erase` leaves: the tree without one item
that has the identifier, the links of that item as they were, and every place
as it was other than the links of the items still linked and, when it
referred to the removed item, `root`. -/
theorem Treap.erase_done_frame (it : Items K) (s : Treap) (T : PTree) (key : K) (c : Rand)
    (fuel : Nat) (s' : Treap) (c' : Rand) (hs : Shape s T)
    (hrun : Treap.erase it fuel s c key = some (Outcome.done s' c')) :
    ∃ T' p, Shape s' T' ∧ p ∈ T.ptrs ∧ it.id p = key ∧
      (∀ q, q ∈ T'.ptrs ↔ q ∈ T.ptrs ∧ q ≠ p) ∧ s'.l p = s.l p ∧ s'.r p = s.r p ∧
      ∀ ref, (ref = Ref.root → s.root ≠ some p) → Outside ref T'.ptrs →
        s'.get ref = s.get ref := by
  have hrun' := Treap.erase_mono it _ _ _ _ _ hrun (max fuel (T.size + 1)) (le_max_left _ _)
  cases ho : T.erase it key c with
  | none =>
    rw [Treap.erase_refines_none it key T _ s c hs ho (by omega)] at hrun'
    exact Outcome.noConfusion (Option.some.inj hrun')
  | some o =>
    obtain ⟨s2, hs2, hshape, hfr⟩ := Treap.erase_refines_some it key T
      (max fuel (T.size + 1)) s c o hs ho (by omega)
    rw [hrun'] at hs2
    have e : s' = s2 := by injection (Option.some.inj hs2)
    subst e
    obtain ⟨xs, p, ys, hp, h1, h2⟩ := PTree.erase_ptrs it key T c o ho
    have hnd := hs.2
    rw [h1] at hnd
    have hpn : p ∉ xs ++ ys := (List.nodup_cons.mp (hnd.perm List.perm_middle)).1
    have hmem : ∀ q, q ∈ o.1.ptrs ↔ q ∈ T.ptrs ∧ q ≠ p := by
      intro q
      rw [h1, h2]
      constructor
      · intro hq
        refine ⟨by simp only [List.mem_append, List.mem_cons] at hq ⊢; tauto, ?_⟩
        rintro rfl
        exact hpn hq
      · rintro ⟨hq, hne⟩
        simp only [List.mem_append, List.mem_cons] at hq ⊢
        tauto
    have hpo : p ∉ o.1.ptrs := fun h => ((hmem p).mp h).2 rfl
    refine ⟨o.1, p, hshape, by simp [h1], hp, hmem, ?_, ?_, ?_⟩
    · exact hfr (Ref.l p) (by simp) ((Outside.l_iff _ _).mpr hpo)
    · exact hfr (Ref.r p) (by simp) ((Outside.r_iff _ _).mpr hpo)
    · intro ref hroot hout
      by_cases hr : ref = Ref.root
      · subst hr
        have hsp := hroot rfl
        show s'.root = s.root
        cases hq : T.rootPtr with
        | none =>
          cases T with
          | nil => simp [PTree.erase] at ho
          | node _ _ _ => simp [PTree.rootPtr] at hq
        | some q =>
          have hsq : s.root = some q := by rw [hs.root_eq, hq]
          have hqp : q ≠ p := fun e => hsp (e ▸ hsq)
          have hqo : q ∈ o.1.ptrs := (hmem q).mpr ⟨PTree.rootPtr_mem hq, hqp⟩
          rw [hshape.root_eq, PTree.erase_rootPtr hs.2 ho q hq hqo, hsq]
      · exact hfr ref hr hout

/-- C14: `erase` does not clear the links of the item it removes.  For every
index and every key, when `erase(key)` ends normally it has removed one linked
item with that identifier; the `l` and `r` links of that item hold the values
they held before the call; and the only places whose value `erase` has changed
are links of items that are still linked and, when it referred to the removed
item, `root`. -/
theorem erase_keeps_removed_links (it : Items K) (s : Treap) (T : PTree) (key : K) (c : Rand)
    (fuel : Nat) (s' : Treap) (c' : Rand) (hs : Shape s T)
    (hrun : Treap.erase it fuel s c key = some (Outcome.done s' c')) :
    ∃ T' p, Shape s' T' ∧ p ∈ T.ptrs ∧ it.id p = key ∧
      (∀ q, q ∈ T'.ptrs ↔ q ∈ T.ptrs ∧ q ≠ p) ∧ s'.l p = s.l p ∧ s'.r p = s.r p ∧
      ∀ ref, (ref = Ref.root → s.root ≠ some p) → Outside ref T'.ptrs →
        s'.get ref = s.get ref :=
  Treap.erase_done_frame it s T key c fuel s' c' hs hrun

/-- Witness of C14: the root `B` erased from the index of `A`, `B`, `C`. -/
theorem erase_keeps_removed_links_witness :
    ∃ T' p, Shape (stateAfter (Treap.erase exItems 4 exTreap exRand 2)) T' ∧ p ∈ exTree.ptrs ∧
      exItems.id p = 2 ∧ (∀ q, q ∈ T'.ptrs ↔ q ∈ exTree.ptrs ∧ q ≠ p) ∧
      (stateAfter (Treap.erase exItems 4 exTreap exRand 2)).l p = exTreap.l p ∧
      (stateAfter (Treap.erase exItems 4 exTreap exRand 2)).r p = exTreap.r p ∧
      ∀ ref, (ref = Ref.root → exTreap.root ≠ some p) → Outside ref T'.ptrs →
        (stateAfter (Treap.erase exItems 4 exTreap exRand 2)).get ref = exTreap.get ref :=
  erase_keeps_removed_links exItems exTreap exTree 2 exRand 4
    (stateAfter (Treap.erase exItems 4 exTreap exRand 2)) exRand (by decide) rfl

/-- Counterexample to C16 as stated: `split` of the tree made of the single item
`A` (identifier 1) by the key 1, with the links of the item at address 9 as
`l` and `r`.  The code takes the branch `else { split(t->r, ..); l = t; }`: the
item ends up in the left half and the right half is empty, whereas the claim
puts an item whose identifier equals the key in the right half. -/
theorem split_equal_key_goes_left :
    ∃ s', Impl.split exItems 2 exOne (some 1) 1 (Ref.l 9) (Ref.r 9) = some s' ∧
      Rep exOne (PTree.node PTree.nil 1 PTree.nil) (some 1) ∧
      SearchTree exItems (PTree.node PTree.nil 1 PTree.nil) ∧
      Rep s' (PTree.node PTree.nil 1 PTree.nil) (s'.get (Ref.l 9)) ∧
      Rep s' PTree.nil (s'.get (Ref.r 9)) ∧
      ¬ ((∀ q, q ∈ (PTree.node PTree.nil 1 PTree.nil).ptrs ↔
            q ∈ (PTree.node PTree.nil 1 PTree.nil).ptrs ∧ exItems.id q < 1) ∧
          ∀ q, q ∈ PTree.nil.ptrs ↔
            q ∈ (PTree.node PTree.nil 1 PTree.nil).ptrs ∧ 1 ≤ exItems.id q) := by
  refine ⟨_, rfl, by decide, by decide, by decide, by decide, ?_⟩
  rintro ⟨_, h⟩
  have := (h 1).mpr (by decide)
  simp [PTree.ptrs] at this

/-- C16, amended: `split` partitions by less-or-equal / greater.  For every
search tree `T` under a pointer `t` and every key `k`, `split(t, k, l, r)`
returns and leaves in `l` a tree of exactly the items of `T` whose identifier
is at most `k`, in `r` a tree of exactly the items of `T` whose identifier is
greater than `k` (an item whose identifier equals `k` ends up in `l`), and
every item of `T` is in exactly one of the two. -/
theorem split_partitions (it : Items K) (key : K) (T : PTree) (fuel : Nat) (s : Treap)
    (t : Option Nat) (lref rref : Ref) (hrep : Rep s T t) (hbst : SearchTree it T)
    (hfuel : T.size < fuel) (hne : lref ≠ rref) (hol : Outside lref T.ptrs)
    (hor : Outside rref T.ptrs) :
    ∃ s' A B, Impl.split it fuel s t key lref rref = some s' ∧ Rep s' A (s'.get lref) ∧
      Rep s' B (s'.get rref) ∧ (∀ q, q ∈ A.ptrs ↔ q ∈ T.ptrs ∧ it.id q ≤ key) ∧
      (∀ q, q ∈ B.ptrs ↔ q ∈ T.ptrs ∧ key < it.id q) ∧
      ∀ q ∈ T.ptrs, (q ∈ A.ptrs ∧ q ∉ B.ptrs) ∨ (q ∉ A.ptrs ∧ q ∈ B.ptrs) := by
  obtain ⟨s', hs', hA, hB, _⟩ := Impl.split_refines it key T fuel s t lref rref hrep
    hbst.id_inj.1 hfuel hne hol hor
  have hb := PTree.split_bounds it key T hbst
  have hp := PTree.split_ptrs it key T
  have hmem : ∀ q, q ∈ T.ptrs ↔ q ∈ (T.split it key).1.ptrs ∨ q ∈ (T.split it key).2.ptrs := by
    intro q
    rw [← hp, List.mem_append]
  have hA' : ∀ q, q ∈ (T.split it key).1.ptrs ↔ q ∈ T.ptrs ∧ it.id q ≤ key := by
    intro q
    constructor
    · exact fun h => ⟨(hmem q).mpr (Or.inl h), hb.1 q h⟩
    · rintro ⟨h1, h2⟩
      rcases (hmem q).mp h1 with h | h
      · exact h
      · exact absurd (hb.2 q h) (not_lt.mpr h2)
  have hB' : ∀ q, q ∈ (T.split it key).2.ptrs ↔ q ∈ T.ptrs ∧ key < it.id q := by
    intro q
    constructor
    · exact fun h => ⟨(hmem q).mpr (Or.inr h), hb.2 q h⟩
    · rintro ⟨h1, h2⟩
      rcases (hmem q).mp h1 with h | h
      · exact absurd h2 (not_lt.mpr (hb.1 q h))
      · exact h
  refine ⟨s', _, _, hs', hA, hB, hA', hB', ?_⟩
  intro q hq
  by_cases hk : it.id q ≤ key
  · exact Or.inl ⟨(hA' q).mpr ⟨hq, hk⟩, fun h => absurd ((hB' q).mp h).2 (not_lt.mpr hk)⟩
  · exact Or.inr ⟨fun h => hk ((hA' q).mp h).2, (hB' q).mpr ⟨hq, not_le.mp hk⟩⟩

/-- Witness of C16, amended: the tree of `A`, `B`, `C` split by the identifier
of `B` into the links of the item at address 9. -/
theorem split_partitions_witness :
    ∃ s' A B, Impl.split exItems 4 exTreap (some 2) 2 (Ref.l 9) (Ref.r 9) = some s' ∧
      Rep s' A (s'.get (Ref.l 9)) ∧ Rep s' B (s'.get (Ref.r 9)) ∧
      (∀ q, q ∈ A.ptrs ↔ q ∈ exTree.ptrs ∧ exItems.id q ≤ 2) ∧
      (∀ q, q ∈ B.ptrs ↔ q ∈ exTree.ptrs ∧ 2 < exItems.id q) ∧
      ∀ q ∈ exTree.ptrs, (q ∈ A.ptrs ∧ q ∉ B.ptrs) ∨ (q ∉ A.ptrs ∧ q ∈ B.ptrs) :=
  split_partitions exItems 2 exTree 4 exTreap (some 2) (Ref.l 9) (Ref.r 9) (by decide)
    (by decide) (by decide) (by decide) ((Outside.l_iff _ _).mpr (by decide))
    ((Outside.r_iff _ _).mpr (by decide))

omit [LinearOrder K] in
/-- The root of a merge of two trees that are not empty is the root of one of
them, chosen by `comparePriority`. -/
theorem PTree.merge_rootPtr (it : Items K) (L1 : PTree) (p : Nat) (R1 L2 : PTree) (q : Nat)
    (R2 : PTree) (c : Rand) :
    ((PTree.node L1 p R1).merge it (PTree.node L2 q R2) c).1.rootPtr =
      if (comparePriority c (it.eventtime p) (it.eventtime q)).1 > 0 then some p else some q := by
  rw [PTree.merge]
  split_ifs <;> rfl

omit [LinearOrder K] in
theorem PTree.merge_nil_left (it : Items K) (B : PTree) (c : Rand) :
    PTree.nil.merge it B c = (B, c) := by
  simp [PTree.merge]

/-- C17: `merge` builds a valid treap from two ordered treaps.  For every pair
of trees `A` under `l` and `B` under `r` that both have the heap and the
search-tree properties, every identifier of `A` being less than every
identifier of `B`, and for every random stream, `merge(t, l, r)` returns and
leaves in `t` a tree with the heap and the search-tree properties, made of
exactly the items of `A` followed by those of `B`; it is `B` when `l` is `NULL`
and `A` when `r` is `NULL`; and its root is the root of the side whose root has
the strictly smaller event time, and one of the two roots in any case. -/
theorem merge_builds_treap (it : Items K) (A B : PTree) (fuel : Nat) (s : Treap) (c : Rand)
    (tref : Ref) (l r : Option Nat) (hA : Rep s A l) (hB : Rep s B r)
    (hheapA : HeapOrdered it A) (hheapB : HeapOrdered it B) (hbstA : SearchTree it A)
    (hbstB : SearchTree it B) (hlt : ∀ a ∈ A.ptrs, ∀ b ∈ B.ptrs, it.id a < it.id b)
    (hfuel : A.size + B.size < fuel) (hout : Outside tref (A.ptrs ++ B.ptrs)) :
    ∃ s' c' M, Impl.merge it fuel s c tref l r = some (s', c') ∧ Rep s' M (s'.get tref) ∧
      HeapOrdered it M ∧ SearchTree it M ∧ M.ptrs = A.ptrs ++ B.ptrs ∧
      (l = none → M = B ∧ s'.get tref = r) ∧ (r = none → M = A ∧ s'.get tref = l) ∧
      ∀ p q, l = some p → r = some q →
        (it.eventtime p < it.eventtime q → s'.get tref = some p) ∧
        (it.eventtime q < it.eventtime p → s'.get tref = some q) ∧
        (s'.get tref = some p ∨ s'.get tref = some q) := by
  have hnd : (A.ptrs ++ B.ptrs).Nodup := by
    rw [List.nodup_append]
    refine ⟨hbstA.id_inj.1, hbstB.id_inj.1, ?_⟩
    intro a ha hb
    exact lt_irrefl _ (hlt a ha a hb)
  obtain ⟨s', hs', hM, _⟩ := Impl.merge_refines it A B fuel s c tref l r hA hB hnd hfuel hout
  have hroot := hM.rootPtr
  refine ⟨s', _, _, hs', hM,
    (heapOrdered_iff_heapBelow it _).mpr (PTree.merge_heapBelow it A B c
      ((heapOrdered_iff_heapBelow it A).mp hheapA) ((heapOrdered_iff_heapBelow it B).mp hheapB)),
    PTree.merge_searchTree it A B c hbstA hbstB hlt, PTree.merge_ptrs it A B c, ?_, ?_, ?_⟩
  · intro hl
    have hAnil : A = PTree.nil := by
      cases A with
      | nil => rfl
      | node _ _ _ => rw [hl] at hA; exact absurd hA.1 (by simp)
    subst hAnil
    rw [PTree.merge_nil_left] at hroot ⊢
    exact ⟨rfl, hroot.trans hB.rootPtr.symm⟩
  · intro hr
    have hBnil : B = PTree.nil := by
      cases B with
      | nil => rfl
      | node _ _ _ => rw [hr] at hB; exact absurd hB.1 (by simp)
    subst hBnil
    rw [PTree.merge_nil_right] at hroot ⊢
    exact ⟨rfl, hroot.trans hA.rootPtr.symm⟩
  · intro p q hl hr
    subst hl hr
    cases A with
    | nil => exact absurd hA (by simp [Rep])
    | node L1 p' R1 =>
      cases B with
      | nil => exact absurd hB (by simp [Rep])
      | node L2 q' R2 =>
        have hp : p = p' := Option.some.inj hA.1
        have hq : q = q' := Option.some.inj hB.1
        subst hp hq
        rw [PTree.merge_rootPtr] at hroot
        refine ⟨fun h => ?_, fun h => ?_, ?_⟩
        · rw [hroot, comparePriority_of_lt c h]
          simp
        · rw [hroot, comparePriority_of_gt c h]
          simp
        · rw [hroot]
          split_ifs
          · exact Or.inl rfl
          · exact Or.inr rfl

/-- Witness of C17: the subtrees `A` and `C` of the index of `A`, `B`, `C`
merged into `root`. -/
theorem merge_builds_treap_witness :
    ∃ s' c' M, Impl.merge exItems 3 exTreap exRand Ref.root (some 1) (some 3) = some (s', c') ∧
      Rep s' M (s'.get Ref.root) ∧ HeapOrdered exItems M ∧ SearchTree exItems M ∧
      M.ptrs = (PTree.node PTree.nil 1 PTree.nil).ptrs ++ (PTree.node PTree.nil 3 PTree.nil).ptrs ∧
      ((some 1 : Option Nat) = none → M = PTree.node PTree.nil 3 PTree.nil ∧
        s'.get Ref.root = some 3) ∧
      ((some 3 : Option Nat) = none → M = PTree.node PTree.nil 1 PTree.nil ∧
        s'.get Ref.root = some 1) ∧
      ∀ p q, some 1 = some p → some 3 = some q →
        (exItems.eventtime p < exItems.eventtime q → s'.get Ref.root = some p) ∧
        (exItems.eventtime q < exItems.eventtime p → s'.get Ref.root = some q) ∧
        (s'.get Ref.root = some p ∨ s'.get Ref.root = some q) :=
  merge_builds_treap exItems (PTree.node PTree.nil 1 PTree.nil) (PTree.node PTree.nil 3 PTree.nil)
    3 exTreap exRand Ref.root (some 1) (some 3) (by decide) (by decide) (by decide) (by decide)
    (by decide) (by decide) (by decide) (by decide) (Outside.root _)

/-- C20: `split` and `merge` never reorder, drop or duplicate items.  For every
tree `T` under a pointer `t`, with no invariant assumed, every key and every
random stream, `split` returns and the left-to-right sequence of the tree it
leaves in `l` followed by that of the tree it leaves in `r` is the sequence of
`T`; merging these two trees gives a tree with the sequence of `T`; and for
every pair of trees `A'` under `l'` and `B'` under `r'`, `merge` returns a tree
whose sequence is that of `A'` followed by that of `B'`. -/
theorem split_merge_keep_order (it : Items K) (key : K) (T : PTree) (fuel : Nat) (s : Treap)
    (c : Rand) (t : Option Nat) (lref rref tref : Ref) (A' B' : PTree) (s0 : Treap)
    (l' r' : Option Nat) (tref' : Ref) (hrep : Rep s T t) (hnd : T.ptrs.Nodup)
    (hfuel : T.size < fuel) (hne : lref ≠ rref) (hol : Outside lref T.ptrs)
    (hor : Outside rref T.ptrs) (hot : Outside tref T.ptrs) (hA : Rep s0 A' l')
    (hB : Rep s0 B' r') (hnd' : (A'.ptrs ++ B'.ptrs).Nodup) (hfuel' : A'.size + B'.size < fuel)
    (hot' : Outside tref' (A'.ptrs ++ B'.ptrs)) :
    (∃ s1 A B, Impl.split it fuel s t key lref rref = some s1 ∧ Rep s1 A (s1.get lref) ∧
        Rep s1 B (s1.get rref) ∧ A.ptrs ++ B.ptrs = T.ptrs ∧
        ∃ s2 c2 M, Impl.merge it fuel s1 c tref (s1.get lref) (s1.get rref) = some (s2, c2) ∧
          Rep s2 M (s2.get tref) ∧ M.ptrs = T.ptrs) ∧
      ∃ s' c' M, Impl.merge it fuel s0 c tref' l' r' = some (s', c') ∧ Rep s' M (s'.get tref') ∧
        M.ptrs = A'.ptrs ++ B'.ptrs := by
  constructor
  · obtain ⟨s1, hs1, hA1, hB1, _⟩ := Impl.split_refines it key T fuel s t lref rref hrep hnd
      hfuel hne hol hor
    have hp := PTree.split_ptrs it key T
    have hsz : (T.split it key).1.size + (T.split it key).2.size = T.size := by
      rw [PTree.size_eq_length, PTree.size_eq_length, PTree.size_eq_length, ← hp,
        List.length_append]
    obtain ⟨s2, hs2, hM, _⟩ := Impl.merge_refines it _ _ fuel s1 c tref _ _ hA1 hB1
      (by rw [hp]; exact hnd) (by omega) (by rw [hp]; exact hot)
    exact ⟨s1, _, _, hs1, hA1, hB1, hp, s2, _, _, hs2, hM,
      (PTree.merge_ptrs it _ _ c).trans hp⟩
  · obtain ⟨s', hs', hM, _⟩ := Impl.merge_refines it A' B' fuel s0 c tref' l' r' hA hB hnd'
      hfuel' hot'
    exact ⟨s', _, _, hs', hM, PTree.merge_ptrs it A' B' c⟩

/-- Witness of C20: the tree of `A`, `B`, `C` split by the key 2 into the links
of the item at address 9 and merged back into `root`; and its two subtrees
merged into `root`. -/
theorem split_merge_keep_order_witness :
    (∃ s1 A B, Impl.split exItems 4 exTreap (some 2) 2 (Ref.l 9) (Ref.r 9) = some s1 ∧
        Rep s1 A (s1.get (Ref.l 9)) ∧ Rep s1 B (s1.get (Ref.r 9)) ∧
        A.ptrs ++ B.ptrs = exTree.ptrs ∧
        ∃ s2 c2 M, Impl.merge exItems 4 s1 exRand Ref.root (s1.get (Ref.l 9))
            (s1.get (Ref.r 9)) = some (s2, c2) ∧
          Rep s2 M (s2.get Ref.root) ∧ M.ptrs = exTree.ptrs) ∧
      ∃ s' c' M, Impl.merge exItems 4 exTreap exRand Ref.root (some 1) (some 3) =
          some (s', c') ∧ Rep s' M (s'.get Ref.root) ∧
        M.ptrs = (PTree.node PTree.nil 1 PTree.nil).ptrs ++
          (PTree.node PTree.nil 3 PTree.nil).ptrs :=
  split_merge_keep_order exItems 2 exTree 4 exTreap exRand (some 2) (Ref.l 9) (Ref.r 9) Ref.root
    (PTree.node PTree.nil 1 PTree.nil) (PTree.node PTree.nil 3 PTree.nil) exTreap (some 1)
    (some 3) Ref.root (by decide) (by decide) (by decide) (by decide)
    ((Outside.l_iff _ _).mpr (by decide)) ((Outside.r_iff _ _).mpr (by decide))
    (Outside.root _) (by decide) (by decide) (by decide) (by decide) (Outside.root _)

/-! ## Runs that meet no tie -/

theorem comparePriority_of_ne (c : Rand) {a b : Nat} (h : a ≠ b) :
    comparePriority c a b = (priorityCompare a b, c) := by
  rcases Nat.lt_or_gt_of_ne h with h1 | h1
  · rw [comparePriority_of_lt c h1]
    simp [priorityCompare, h1]
  · rw [comparePriority_of_gt c h1]
    have h2 : ¬ a < b := by omega
    simp [priorityCompare, h1, h2]

/-- The private `insert` of an item whose event time is that of no item of the
tree does not read the random stream. -/
theorem Impl.private_insert_no_tie (it : Items K) (x : Nat) : ∀ (T : PTree) (fuel : Nat)
    (s : Treap) (t : Ref), Rep s T (s.get t) →
      (∀ q ∈ T.ptrs, it.eventtime x ≠ it.eventtime q) →
      ∃ res : Option Treap, ∀ c, Impl.insert it fuel s c t x = res.map fun s' => (s', c) := by
  intro T
  induction T with
  | nil =>
    intro fuel s t hrep _
    have ht : s.get t = none := hrep
    cases fuel with
    | zero => exact ⟨none, fun c => rfl⟩
    | succ fuel => exact ⟨some (s.set t (some x)), fun c => by simp [Impl.insert, ht]⟩
  | node L p R ihL ihR =>
    intro fuel s t hrep hne
    obtain ⟨ht, hL, hR⟩ := hrep
    have hxp := hne p (by simp [PTree.ptrs])
    cases fuel with
    | zero => exact ⟨none, fun c => rfl⟩
    | succ fuel =>
      by_cases hc : priorityCompare (it.eventtime x) (it.eventtime p) > 0
      · refine ⟨(Impl.split it fuel s (some p) (it.id x) (Ref.l x) (Ref.r x)).map fun s1 =>
          s1.set t (some x), fun c => ?_⟩
        rw [Impl.insert]
        simp only [ht, comparePriority_of_ne c hxp, hc, if_true, Option.map_map]
        rfl
      · by_cases hk : keyCompare (it.id x) (it.id p) < 0
        · obtain ⟨res, hres⟩ := ihL fuel s (Ref.l p) hL
            fun q hq => hne q (by simp [PTree.ptrs, hq])
          refine ⟨res, fun c => ?_⟩
          rw [Impl.insert]
          simp only [ht, comparePriority_of_ne c hxp, hc, if_false, hk, if_true]
          exact hres c
        · obtain ⟨res, hres⟩ := ihR fuel s (Ref.r p) hR
            fun q hq => hne q (by simp [PTree.ptrs, hq])
          refine ⟨res, fun c => ?_⟩
          rw [Impl.insert]
          simp only [ht, comparePriority_of_ne c hxp, hc, if_false, hk]
          exact hres c

omit [LinearOrder K] in
/-- The member `merge` of two trees that share no event time does not read the
random stream. -/
theorem Impl.merge_no_tie (it : Items K) : ∀ (A B : PTree) (fuel : Nat) (s : Treap) (tref : Ref)
    (l r : Option Nat), Rep s A l → Rep s B r →
      (∀ a ∈ A.ptrs, ∀ b ∈ B.ptrs, it.eventtime a ≠ it.eventtime b) →
      ∃ res : Option Treap, ∀ c, Impl.merge it fuel s c tref l r = res.map fun s' => (s', c) := by
  intro A
  induction A with
  | nil =>
    intro B fuel s tref l r hA _ _
    have hl : l = none := hA
    subst hl
    cases fuel with
    | zero => exact ⟨none, fun c => rfl⟩
    | succ fuel => exact ⟨some (s.set tref r), fun c => by cases r <;> simp [Impl.merge]⟩
  | node L1 p R1 _ ihR1 =>
    intro B
    induction B with
    | nil =>
      intro fuel s tref l r hA hB _
      have hr : r = none := hB
      have hl : l = some p := hA.1
      subst hr hl
      cases fuel with
      | zero => exact ⟨none, fun c => rfl⟩
      | succ fuel => exact ⟨some (s.set tref (some p)), fun c => by simp [Impl.merge]⟩
    | node L2 q R2 ihL2 _ =>
      intro fuel s tref l r hA hB hne
      have hl : l = some p := hA.1
      have hr : r = some q := hB.1
      subst hl hr
      have hpq := hne p (by simp [PTree.ptrs]) q (by simp [PTree.ptrs])
      cases fuel with
      | zero => exact ⟨none, fun c => rfl⟩
      | succ fuel =>
        by_cases hc : priorityCompare (it.eventtime p) (it.eventtime q) > 0
        · obtain ⟨res, hres⟩ := ihR1 (PTree.node L2 q R2) fuel s (Ref.r p) (s.r p) (some q)
            hA.2.2 hB fun a ha b hb => hne a (by simp [PTree.ptrs, ha]) b hb
          refine ⟨res.map fun s1 => s1.set tref (some p), fun c => ?_⟩
          rw [Impl.merge]
          simp only [comparePriority_of_ne c hpq, hc, if_true, hres c, Option.map_map]
          rfl
        · obtain ⟨res, hres⟩ := ihL2 fuel s (Ref.l q) (some p) (s.l q) hA hB.2.1
            fun a ha b hb => hne a ha b (by simp [PTree.ptrs, hb])
          refine ⟨res.map fun s1 => s1.set tref (some q), fun c => ?_⟩
          rw [Impl.merge]
          simp only [comparePriority_of_ne c hpq, hc, if_false, hres c, Option.map_map]
          rfl

/-- The private `erase` on a tree in which no two items share an event time
does not read the random stream. -/
theorem Impl.private_erase_no_tie (it : Items K) (key : K) : ∀ (T : PTree) (fuel : Nat)
    (s : Treap) (t : Ref), Rep s T (s.get t) → T.ptrs.Nodup →
      (∀ a ∈ T.ptrs, ∀ b ∈ T.ptrs, a ≠ b → it.eventtime a ≠ it.eventtime b) →
      ∃ res : Option Outcome, ∀ c,
        Impl.erase it fuel s c t key = res.map fun o => o.withRand c := by
  intro T
  induction T with
  | nil =>
    intro fuel s t hrep _ _
    have ht : s.get t = none := hrep
    cases fuel with
    | zero => exact ⟨none, fun c => rfl⟩
    | succ fuel =>
      exact ⟨some (Outcome.thrown logic_error.erase_missing s (fun _ => 0)), fun c => by
        simp [Impl.erase, ht, Outcome.withRand]⟩
  | node L p R ihL ihR =>
    intro fuel s t hrep hnd hne
    obtain ⟨ht, hL, hR⟩ := hrep
    simp only [PTree.ptrs] at hnd
    have hndL : L.ptrs.Nodup := (List.nodup_append.mp hnd).1
    have hndqR : (p :: R.ptrs).Nodup := (List.nodup_append.mp hnd).2.1
    have hdisj := (List.nodup_append.mp hnd).2.2
    have hndR : R.ptrs.Nodup := (List.nodup_cons.mp hndqR).2
    cases fuel with
    | zero => exact ⟨none, fun c => rfl⟩
    | succ fuel =>
      by_cases h0 : keyCompare (it.id p) key = 0
      · obtain ⟨res, hres⟩ := Impl.merge_no_tie it L R fuel s t (s.l p) (s.r p) hL hR
          fun a ha b hb => hne a (by simp [PTree.ptrs, ha]) b (by simp [PTree.ptrs, hb])
            fun e => hdisj ha (List.mem_cons_of_mem _ (e ▸ hb))
        refine ⟨res.map fun s1 => Outcome.done s1 (fun _ => 0), fun c => ?_⟩
        rw [Impl.erase]
        simp only [ht, h0, if_true, hres c, Option.map_map]
        rfl
      · by_cases h1 : keyCompare (it.id p) key > 0
        · obtain ⟨res, hres⟩ := ihL fuel s (Ref.l p) hL hndL
            fun a ha b hb => hne a (by simp [PTree.ptrs, ha]) b (by simp [PTree.ptrs, hb])
          refine ⟨res, fun c => ?_⟩
          rw [Impl.erase]
          simp only [ht, h0, if_false, h1, if_true]
          exact hres c
        · obtain ⟨res, hres⟩ := ihR fuel s (Ref.r p) hR hndR
            fun a ha b hb => hne a (by simp [PTree.ptrs, ha]) b (by simp [PTree.ptrs, hb])
          refine ⟨res, fun c => ?_⟩
          rw [Impl.erase]
          simp only [ht, h0, if_false, h1]
          exact hres c

/-- The public `insert` of an item whose event time is that of no linked item
does not read the random stream. -/
theorem Treap.insert_no_tie (it : Items K) (x : Nat) (T : PTree) (fuel : Nat) (s : Treap)
    (hs : Shape s T) (hx : ∀ q ∈ T.ptrs, it.eventtime x ≠ it.eventtime q) :
    ∃ res : Option Treap, ∀ c,
      Treap.insert it fuel s c (some x) = res.map fun s' => Outcome.done s' c := by
  have hxT : x ∉ T.ptrs := fun h => hx x h rfl
  have hfr1 : ∀ ref, ref ≠ Ref.l x → ref ≠ Ref.r x →
      ((s.set (Ref.l x) none).set (Ref.r x) none).get ref = s.get ref := by
    intro ref h1 h2
    rw [Treap.get_set_ne _ _ h2, Treap.get_set_ne _ _ h1]
  have hrep1 : Rep ((s.set (Ref.l x) none).set (Ref.r x) none) T
      (((s.set (Ref.l x) none).set (Ref.r x) none).get Ref.root) := by
    rw [hfr1 _ (by simp) (by simp)]
    refine hs.1.frame_get fun ref href => hfr1 ref ?_ ?_
    · rintro rfl
      exact href ((Outside.l_iff _ _).mpr hxT)
    · rintro rfl
      exact href ((Outside.r_iff _ _).mpr hxT)
  by_cases he : ((s.set (Ref.l x) none).set (Ref.r x) none).empty = true
  · exact ⟨some (((s.set (Ref.l x) none).set (Ref.r x) none).set Ref.root (some x)), fun c => by
      simp [Treap.insert, he]⟩
  · obtain ⟨res, hres⟩ := Impl.private_insert_no_tie it x T fuel _ Ref.root hrep1 hx
    refine ⟨res, fun c => ?_⟩
    simp only [Treap.insert, he, hres c, Option.map_map]
    rfl

/-- The public `erase` on an index in which no two linked items share an event
time does not read the random stream. -/
theorem Treap.erase_no_tie (it : Items K) (key : K) (T : PTree) (fuel : Nat) (s : Treap)
    (hs : Shape s T)
    (hdist : ∀ a ∈ T.ptrs, ∀ b ∈ T.ptrs, a ≠ b → it.eventtime a ≠ it.eventtime b) :
    ∃ res : Option Outcome, ∀ c,
      Treap.erase it fuel s c key = res.map fun o => o.withRand c := by
  by_cases he : s.empty = true
  · exact ⟨some (Outcome.thrown logic_error.erase_missing s (fun _ => 0)), fun c => by
      simp [Treap.erase, he, Outcome.withRand]⟩
  · obtain ⟨res, hres⟩ := Impl.private_erase_no_tie it key T fuel s Ref.root hs.1 hs.2 hdist
    refine ⟨res, fun c => ?_⟩
    simp only [Treap.erase, he]
    exact hres c

/-- C19: determinism without ties.  For every index and every item whose event
time differs from that of every linked item, `insert(item)` run on two random
streams ends normally with the same index, and hands each stream back unread;
for every index in which no two linked items have the same event time and for
every key, `erase(key)` run on two random streams either ends normally with the
same index in both runs, or throws "erase: element does not exist" in both
runs on the unchanged index, and hands each stream back unread. -/
theorem no_tie_runs_agree (it : Items K) (s : Treap) (T : PTree) (x : Nat) (s2 : Treap)
    (T2 : PTree) (key : K) (c c' : Rand) (fuel : Nat) (hs : Shape s T)
    (hx : ∀ q ∈ T.ptrs, it.eventtime x ≠ it.eventtime q) (hfuel : T.size + 1 < fuel)
    (hs2 : Shape s2 T2)
    (hdist : ∀ a ∈ T2.ptrs, ∀ b ∈ T2.ptrs, a ≠ b → it.eventtime a ≠ it.eventtime b)
    (hfuel2 : T2.size < fuel) :
    (∃ s', Treap.insert it fuel s c (some x) = some (Outcome.done s' c) ∧
        Treap.insert it fuel s c' (some x) = some (Outcome.done s' c')) ∧
      ((∃ s', Treap.erase it fuel s2 c key = some (Outcome.done s' c) ∧
          Treap.erase it fuel s2 c' key = some (Outcome.done s' c')) ∨
        (Treap.erase it fuel s2 c key = some (Outcome.thrown logic_error.erase_missing s2 c) ∧
          Treap.erase it fuel s2 c' key =
            some (Outcome.thrown logic_error.erase_missing s2 c'))) := by
  constructor
  · obtain ⟨s1, h1, _⟩ := Treap.insert_refines it x T fuel s c hs (fun h => hx x h rfl) hfuel
    obtain ⟨res, hres⟩ := Treap.insert_no_tie it x T fuel s hs hx
    cases res with
    | none => rw [hres c] at h1; exact Option.noConfusion h1
    | some r => exact ⟨r, hres c, hres c'⟩
  · obtain ⟨res, hres⟩ := Treap.erase_no_tie it key T2 fuel s2 hs2 hdist
    cases ho : T2.erase it key c with
    | none =>
      have h1 := Treap.erase_refines_none it key T2 fuel s2 c hs2 ho hfuel2
      right
      cases res with
      | none => rw [hres c] at h1; exact Option.noConfusion h1
      | some o =>
        cases o with
        | done s' c0 =>
          rw [hres c] at h1
          exact Outcome.noConfusion (Option.some.inj h1)
        | thrown e s' c0 =>
          rw [hres c] at h1
          injection (Option.some.inj h1) with e1 e2 e3
          subst e1 e2
          exact ⟨hres c, hres c'⟩
    | some o' =>
      obtain ⟨s1, h1, _⟩ := Treap.erase_refines_some it key T2 fuel s2 c o' hs2 ho hfuel2
      left
      cases res with
      | none => rw [hres c] at h1; exact Option.noConfusion h1
      | some o =>
        cases o with
        | done s' c0 => exact ⟨s', hres c, hres c'⟩
        | thrown e s' c0 =>
          rw [hres c] at h1
          exact Outcome.noConfusion (Option.some.inj h1)

/-- Witness of C19: the item at address `4` (event time 7) inserted in the index
of `A`, `B`, `C` (event times 5, 3, 8), and `B` erased from it, each on two
random streams. -/
theorem no_tie_runs_agree_witness :
    (∃ s', Treap.insert exItems 5 exTreap exRand (some 4) = some (Outcome.done s' exRand) ∧
        Treap.insert exItems 5 exTreap (fun _ => 1) (some 4) =
          some (Outcome.done s' (fun _ => 1))) ∧
      ((∃ s', Treap.erase exItems 5 exTreap exRand 2 = some (Outcome.done s' exRand) ∧
          Treap.erase exItems 5 exTreap (fun _ => 1) 2 = some (Outcome.done s' (fun _ => 1))) ∨
        (Treap.erase exItems 5 exTreap exRand 2 =
            some (Outcome.thrown logic_error.erase_missing exTreap exRand) ∧
          Treap.erase exItems 5 exTreap (fun _ => 1) 2 =
            some (Outcome.thrown logic_error.erase_missing exTreap (fun _ => 1)))) :=
  no_tie_runs_agree exItems exTreap exTree 4 exTreap exTree 2 exRand (fun _ => 1) 5 (by decide)
    (by decide) (by decide) (by decide) (by decide) (by decide)

/-! ## The shape of a treap without ties -/

/-- Two indexes that link the same tree have the same root and give every item
of the tree the same links. -/
theorem Rep.links_eq {s s' : Treap} {T : PTree} : ∀ {p p' : Option Nat}, Rep s T p →
    Rep s' T p' → p = p' ∧ ∀ x ∈ T.ptrs, s.l x = s'.l x ∧ s.r x = s'.r x := by
  induction T with
  | nil =>
    intro p p' h h'
    have e1 : p = none := h
    have e2 : p' = none := h'
    exact ⟨e1.trans e2.symm, fun x hx => by simp [PTree.ptrs] at hx⟩
  | node L q R ihL ihR =>
    intro p p' h h'
    obtain ⟨hp, hL, hR⟩ := h
    obtain ⟨hp', hL', hR'⟩ := h'
    refine ⟨hp.trans hp'.symm, fun x hx => ?_⟩
    simp only [PTree.ptrs, List.mem_append, List.mem_cons] at hx
    rcases hx with hx | rfl | hx
    · exact (ihL hL hL').2 x hx
    · exact ⟨(ihL hL hL').1, (ihR hR hR').1⟩
    · exact (ihR hR hR').2 x hx

/-- A set of items with pairwise distinct event times is the set of items of at
most one tree with the heap and the search-tree properties. -/
theorem PTree.treap_unique (it : Items K) : ∀ (T T' : PTree), SearchTree it T →
    SearchTree it T' → HeapBelow it T → HeapBelow it T' → (∀ q, q ∈ T.ptrs ↔ q ∈ T'.ptrs) →
      (∀ a ∈ T.ptrs, ∀ b ∈ T.ptrs, it.eventtime a = it.eventtime b → a = b) → T = T' := by
  intro T
  induction T with
  | nil =>
    intro T' _ _ _ _ hsame _
    cases T' with
    | nil => rfl
    | node L' p' R' =>
      have := (hsame p').mpr (by simp [PTree.ptrs])
      simp [PTree.ptrs] at this
  | node L p R ihL ihR =>
    intro T' hT hT' hH hH' hsame hinj
    cases T' with
    | nil =>
      have := (hsame p).mp (by simp [PTree.ptrs])
      simp [PTree.ptrs] at this
    | node L' p' R' =>
      have hp'T : p' ∈ (PTree.node L p R).ptrs := (hsame p').mpr (by simp [PTree.ptrs])
      have hpT' : p ∈ (PTree.node L' p' R').ptrs := (hsame p).mp (by simp [PTree.ptrs])
      have h1 := hH.root_le (T := PTree.node L p R) rfl p' hp'T
      have h2 := hH'.root_le (T := PTree.node L' p' R') rfl p hpT'
      have hpp : p = p' := hinj p (by simp [PTree.ptrs]) p' hp'T (le_antisymm h1 h2)
      subst hpp
      obtain ⟨hl, hr, hL, hR⟩ := hT
      obtain ⟨hl', hr', hL', hR'⟩ := hT'
      have hLmem : ∀ q, q ∈ L.ptrs ↔ q ∈ L'.ptrs := by
        intro q
        constructor
        · intro hq
          have hlt := hl q hq
          have := (hsame q).mp (by simp [PTree.ptrs, hq])
          simp only [PTree.ptrs, List.mem_append, List.mem_cons] at this
          rcases this with h | rfl | h
          · exact h
          · exact absurd hlt (lt_irrefl _)
          · exact absurd hlt (lt_asymm (hr' q h))
        · intro hq
          have hlt := hl' q hq
          have := (hsame q).mpr (by simp [PTree.ptrs, hq])
          simp only [PTree.ptrs, List.mem_append, List.mem_cons] at this
          rcases this with h | rfl | h
          · exact h
          · exact absurd hlt (lt_irrefl _)
          · exact absurd hlt (lt_asymm (hr q h))
      have hRmem : ∀ q, q ∈ R.ptrs ↔ q ∈ R'.ptrs := by
        intro q
        constructor
        · intro hq
          have hlt := hr q hq
          have := (hsame q).mp (by simp [PTree.ptrs, hq])
          simp only [PTree.ptrs, List.mem_append, List.mem_cons] at this
          rcases this with h | rfl | h
          · exact absurd hlt (lt_asymm (hl' q h))
          · exact absurd hlt (lt_irrefl _)
          · exact h
        · intro hq
          have hlt := hr' q hq
          have := (hsame q).mpr (by simp [PTree.ptrs, hq])
          simp only [PTree.ptrs, List.mem_append, List.mem_cons] at this
          rcases this with h | rfl | h
          · exact absurd hlt (lt_asymm (hl q h))
          · exact absurd hlt (lt_irrefl _)
          · exact h
      rw [ihL L' hL hL' hH.2.2.1 hH'.2.2.1 hLmem fun a ha b hb =>
          hinj a (by simp [PTree.ptrs, ha]) b (by simp [PTree.ptrs, hb]),
        ihR R' hR hR' hH.2.2.2 hH'.2.2.2 hRmem fun a ha b hb =>
          hinj a (by simp [PTree.ptrs, ha]) b (by simp [PTree.ptrs, hb])]

/-- Inserting items with pairwise distinct identifiers, none of them linked, one
after the other ends normally and leaves an index with both invariants that
links them and the items linked before. -/
theorem insertAll_invariants (it : Items K) : ∀ (xs : List Nat) (fuel : Nat) (s : Treap)
    (T : PTree) (c : Rand), Shape s T → HeapBelow it T → SearchTree it T →
      (xs.map it.id).Nodup → (∀ x ∈ xs, ∀ q ∈ T.ptrs, it.id q ≠ it.id x) →
      T.size + xs.length + 1 < fuel →
      ∃ s' c' T', insertAll it fuel xs s c = some (Outcome.done s' c') ∧ Shape s' T' ∧
        HeapBelow it T' ∧ SearchTree it T' ∧ ∀ q, q ∈ T'.ptrs ↔ q ∈ xs ∨ q ∈ T.ptrs := by
  intro xs
  induction xs with
  | nil =>
    intro fuel s T c hs hH hT _ _ _
    exact ⟨s, c, T, rfl, hs, hH, hT, fun q => by simp⟩
  | cons x xs ih =>
    intro fuel s T c hs hH hT hnd hfresh hfuel
    have hx : ∀ q ∈ T.ptrs, it.id q ≠ it.id x := hfresh x (by simp)
    simp only [List.map_cons, List.nodup_cons, List.mem_map, not_exists, not_and] at hnd
    simp only [List.length_cons] at hfuel
    obtain ⟨s1, hs1, hshape1, _⟩ := Treap.insert_refines it x T fuel s c hs
      (fun h => hx x h rfl) (by omega)
    have hsize : (T.insert it x c).1.size = T.size + 1 := by
      rw [PTree.size_eq_length, PTree.size_eq_length, (PTree.insert_perm it x T c).length_eq]
      rfl
    obtain ⟨s', c', T', hrun, hshape, hH', hT', hmem⟩ := ih fuel s1 (T.insert it x c).1
      (T.insert it x c).2 hshape1 (PTree.insert_heapBelow it x T c hH)
      (PTree.insert_searchTree it x T c hT hx) hnd.2
      (by
        intro y hy q hq
        rcases PTree.mem_insert.mp hq with rfl | hq
        · exact fun e => hnd.1 y hy e.symm
        · exact hfresh y (by simp [hy]) q hq)
      (by omega)
    refine ⟨s', c', T', ?_, hshape, hH', hT', fun q => ?_⟩
    · rw [insertAll, hs1]
      exact hrun
    · rw [hmem, PTree.mem_insert, List.mem_cons]
      tauto

/-- C18: the canonical shape.  For every list of items with pairwise distinct
identifiers and pairwise distinct event times, inserting the items into an
empty index in the order of the list and in any other order, on any two random
streams, ends normally with the same `root` and the same `l` and `r` links of
every item of the list; and two trees of the same items with pairwise distinct
event times that both have the heap and the search-tree properties are
equal. -/
theorem canonical_shape (it : Items K) (xs ys : List Nat) (fuel : Nat)
    (l1 r1 l2 r2 : Nat → Option Nat) (c1 c2 : Rand) (T T' : PTree)
    (hid : (xs.map it.id).Nodup) (hprio : (xs.map it.eventtime).Nodup) (hperm : xs.Perm ys)
    (hfuel : xs.length + 1 < fuel) (hT : SearchTree it T) (hT' : SearchTree it T')
    (hH : HeapOrdered it T) (hH' : HeapOrdered it T') (hsame : ∀ q, q ∈ T.ptrs ↔ q ∈ T'.ptrs)
    (hdist : ∀ a ∈ T.ptrs, ∀ b ∈ T.ptrs, it.eventtime a = it.eventtime b → a = b) :
    (∃ s1 d1 s2 d2,
        insertAll it fuel xs { root := none, l := l1, r := r1 } c1 = some (Outcome.done s1 d1) ∧
        insertAll it fuel ys { root := none, l := l2, r := r2 } c2 = some (Outcome.done s2 d2) ∧
        s1.root = s2.root ∧ ∀ x ∈ xs, s1.l x = s2.l x ∧ s1.r x = s2.r x) ∧
      T = T' := by
  refine ⟨?_, PTree.treap_unique it T T' hT hT' ((heapOrdered_iff_heapBelow it T).mp hH)
    ((heapOrdered_iff_heapBelow it T').mp hH') hsame hdist⟩
  have hid' : (ys.map it.id).Nodup := (hperm.map it.id).nodup_iff.mp hid
  obtain ⟨s1, d1, T1, hrun1, hshape1, hH1, hT1, hmem1⟩ := insertAll_invariants it xs fuel
    { root := none, l := l1, r := r1 } PTree.nil c1 ⟨rfl, List.nodup_nil⟩ trivial trivial hid
    (fun _ _ q hq => by simp [PTree.ptrs] at hq) (by simp [PTree.size]; omega)
  obtain ⟨s2, d2, T2, hrun2, hshape2, hH2, hT2, hmem2⟩ := insertAll_invariants it ys fuel
    { root := none, l := l2, r := r2 } PTree.nil c2 ⟨rfl, List.nodup_nil⟩ trivial trivial hid'
    (fun _ _ q hq => by simp [PTree.ptrs] at hq)
    (by rw [← hperm.length_eq]; simp [PTree.size]; omega)
  have hm1 : ∀ q, q ∈ T1.ptrs ↔ q ∈ xs := fun q => by rw [hmem1]; simp [PTree.ptrs]
  have hm2 : ∀ q, q ∈ T2.ptrs ↔ q ∈ xs := fun q => by
    rw [hmem2, hperm.mem_iff]; simp [PTree.ptrs]
  have hinj : ∀ a ∈ T1.ptrs, ∀ b ∈ T1.ptrs, it.eventtime a = it.eventtime b → a = b :=
    fun a ha b hb e => List.inj_on_of_nodup_map hprio ((hm1 a).mp ha) ((hm1 b).mp hb) e
  have hTT := PTree.treap_unique it T1 T2 hT1 hT2 hH1 hH2
    (fun q => by rw [hm1, hm2]) hinj
  subst hTT
  have hlinks := Rep.links_eq hshape1.1 hshape2.1
  exact ⟨s1, d1, s2, d2, hrun1, hrun2, hlinks.1, fun x hx => hlinks.2 x ((hm1 x).mpr hx)⟩

/-- Witness of C18: `A`, `B`, `C` inserted in the orders `A, B, C` and
`C, A, B`, on two random streams; and the tree of `A`, `B`, `C`. -/
theorem canonical_shape_witness :
    (∃ s1 d1 s2 d2,
        insertAll exItems 5 [1, 2, 3] Treap.new exRand = some (Outcome.done s1 d1) ∧
        insertAll exItems 5 [3, 1, 2] Treap.new (fun _ => 1) = some (Outcome.done s2 d2) ∧
        s1.root = s2.root ∧ ∀ x ∈ [1, 2, 3], s1.l x = s2.l x ∧ s1.r x = s2.r x) ∧
      exTree = exTree :=
  canonical_shape exItems [1, 2, 3] [3, 1, 2] 5 (fun _ => none) (fun _ => none) (fun _ => none)
    (fun _ => none) exRand (fun _ => 1) exTree exTree (by decide) (by decide) (by decide)
    (by decide) (by decide) (by decide) (by decide) (by decide) (fun _ => Iff.rfl) (by decide)

end TreapModel
